import Mathlib

/-!
# Verification of the bmg-edit tree-building core

Shallow embedding of `bmgedit.Build` (class `Build2` and the `partition`
dispatcher), `bmgedit.partitioning.GreedyBipartition`,
`bmgedit.partitioning.NumberPartition` and `bmgedit.partitioning.Louvain`.

Conventions of the embedding:
* Leaves are natural numbers; leaf sets are `Finset ℕ`.
* Python floats are modelled exactly by rationals `ℚ`.
* Python `set.pop` removes an arbitrary element; it is modelled as removing
  the minimum (the claims under study do not depend on which element is
  removed, only on the resulting set).
* `random.choice`, `random.shuffle` and `np.random.permutation` are modelled
  by explicit parameters (an index stream, respectively an explicitly given
  ordering); theorems quantify over them.
* Unbounded `while` loops are modelled with an explicit fuel parameter;
  termination claims are stated as "the fuel bound is never reached".
* Failure (`raise ValueError` etc.) is modelled by `Except`/`Option`.
-/

namespace BMGEdit

/-- A triple `(a, b, c)`, meaning `ab|c`. -/
abbrev Triple := ℕ × ℕ × ℕ

/-- Embedding of tralda's `TreeNode`: an optional leaf label and a list of
children (leaves carry a label and no children, inner nodes carry no label). -/
inductive TreeNode where
  | mk (label : Option ℕ) (children : List TreeNode)
deriving Repr

mutual

/-- Decidable equality of tree nodes. -/
def TreeNode.decEq : (a b : TreeNode) → Decidable (a = b)
  | .mk l1 c1, .mk l2 c2 =>
    letI : Decidable (c1 = c2) := TreeNode.decEqList c1 c2
    decidable_of_iff (l1 = l2 ∧ c1 = c2) (by rw [TreeNode.mk.injEq])

/-- Decidable equality of lists of tree nodes. -/
def TreeNode.decEqList : (a b : List TreeNode) → Decidable (a = b)
  | [], [] => isTrue rfl
  | [], _ :: _ => isFalse (by simp)
  | _ :: _, [] => isFalse (by simp)
  | a :: as, b :: bs =>
    letI : Decidable (a = b) := TreeNode.decEq a b
    letI : Decidable (as = bs) := TreeNode.decEqList as bs
    decidable_of_iff (a = b ∧ as = bs) (by rw [List.cons.injEq])

end

instance : DecidableEq TreeNode := TreeNode.decEq

/-- The children of a tree node. -/
def TreeNode.children : TreeNode → List TreeNode
  | .mk _ cs => cs

/-- The label of a tree node. -/
def TreeNode.label : TreeNode → Option ℕ
  | .mk l _ => l

/-- `Li.issuperset(t)` filter of `Build2._aho` / `Build2._mtt`: a triple is
kept exactly if all three of its leaves lie in `Li`. -/
def restrictTriples (Li : Finset ℕ) (R : List Triple) : List Triple :=
  R.filter (fun t => decide (t.1 ∈ Li) && decide (t.2.1 ∈ Li) && decide (t.2.2 ∈ Li))

/-- Modelled from the spec: tralda's `aho_graph` (not part of this
repository's sources) builds an undirected graph on the leaf set `L` with an
edge `{a, b}` for every triple `(a, b, c)` in `R`; we record the edge list. -/
def aho_graph_edges (R : List Triple) (L : Finset ℕ) : List (ℕ × ℕ) :=
  (R.filter (fun t => decide (t.1 ∈ L) && decide (t.2.1 ∈ L))).map (fun t => (t.1, t.2.1))

/-- Union of a list of finsets. -/
def unionList (P : List (Finset ℕ)) : Finset ℕ := P.foldr (· ∪ ·) ∅

/-- The elements of a finite set of naturals in ascending order (Python set
iteration order is arbitrary; whenever the source iterates a set, this
embedding iterates it ascending).  Written as a filter of an initial segment
so that it evaluates inside the kernel. -/
def ascList (L : Finset ℕ) : List ℕ :=
  (List.range (L.sum (fun x => x) + 1)).filter (fun x => decide (x ∈ L))

/-- One union–find style merge step: replace the blocks containing `a` and
`b` by their union (no-op when they already coincide or are missing). -/
def merge_blocks (P : List (Finset ℕ)) (a b : ℕ) : List (Finset ℕ) :=
  match P.find? (fun s => decide (a ∈ s)), P.find? (fun s => decide (b ∈ s)) with
  | some sa, some sb =>
      if sa = sb then P
      else (sa ∪ sb) :: P.filter (fun s => decide (s ≠ sa) && decide (s ≠ sb))
  | _, _ => P

/-- Modelled from the spec: `list(nx.connected_components(aux_graph))` — the
connected components of the auxiliary graph on vertex set `L`, obtained by
starting from singleton blocks and merging along every edge. -/
def connected_components (L : Finset ℕ) (E : List (ℕ × ℕ)) : List (Finset ℕ) :=
  E.foldl (fun P e => merge_blocks P e.1 e.2) ((ascList L).map (fun a => {a}))

/-- The partition invariant of the spec: non-empty, pairwise disjoint parts
whose union is exactly `L`. -/
def PartitionOf (P : List (Finset ℕ)) (L : Finset ℕ) : Prop :=
  (∀ s ∈ P, s ≠ ∅) ∧ P.Pairwise Disjoint ∧ unionList P = L

instance (P : List (Finset ℕ)) (L : Finset ℕ) : Decidable (PartitionOf P L) := by
  unfold PartitionOf; infer_instance

/-- `Build2._trivial_case`: one leaf becomes a leaf node, two leaves become
an inner node with two leaf children.  The Python code *pops* the leaves off
the caller's set, so the function also returns the mutated set (which is
empty afterwards); pop order is modelled as ascending.  For any other
cardinality the Python function falls through and returns `None`, leaving
the set untouched. -/
def trivial_case (L : Finset ℕ) : Option TreeNode × Finset ℕ :=
  match ascList L with
  | [a] => (some (.mk (some a) []), ∅)
  | [a, b] => (some (.mk none [.mk (some a) [], .mk (some b) []]), ∅)
  | _ => (none, L)

/-- Binarization mode of `Build2`: `False`, `'b'` or `'c'`. -/
inductive BinMode where
  | off | balanced | caterpillar
deriving Repr, DecidableEq

/-- Result of a recursive `_aho`/`_mtt` call: a tree, the failure value
`False`, or fuel exhaustion (an artefact of the fuel-based embedding that the
Python recursion does not have; the termination claim shows it is never
produced for sufficient fuel). -/
inductive BuildResult where
  | fuelOut
  | fail
  | tree (t : TreeNode)
deriving Repr, DecidableEq

/-!
## `bmgedit.partitioning.NumberPartition`

`_TreeNode` of `NumberPartition.py` (named `KKNode` here to avoid the clash
with the tree nodes above) and a faithful model of Python's `heapq`
(`heappush`/`heappop` with `_siftdown`/`_siftup`), which the source relies on
including its tie-breaking behaviour; nodes are compared by `priority` only,
exactly as `_TreeNode.__lt__` does.
-/

/-- `NumberPartition._TreeNode`: a pairing-tree node with a priority, a
payload value and a list of children. -/
inductive KKNode (α : Type) where
  | mk (priority : Int) (value : α) (children : List (KKNode α))

/-- Priority of a pairing-tree node. -/
def KKNode.priority {α : Type} : KKNode α → Int
  | .mk p _ _ => p

/-- Payload of a pairing-tree node. -/
def KKNode.value {α : Type} : KKNode α → α
  | .mk _ v _ => v

/-- Children of a pairing-tree node. -/
def KKNode.children {α : Type} : KKNode α → List (KKNode α)
  | .mk _ _ cs => cs

/-- Python `heapq._siftdown(heap, startpos, pos)`: bubble `newitem` up from
`pos` towards `startpos`; the entry currently stored at `pos` is overwritten.
Comparison is `<` on priorities, as in `_TreeNode.__lt__`.  `pos` strictly
decreases per swap, so `pos + 1` units of fuel always suffice (the callers
supply at least that much). -/
def siftdown {α : Type} : ℕ → ℕ → KKNode α → List (KKNode α) → ℕ → List (KKNode α)
  | 0, _, newitem, heap, pos => heap.set pos newitem
  | fuel + 1, startpos, newitem, heap, pos =>
    if startpos < pos then
      let parentpos := (pos - 1) / 2
      match heap.get? parentpos with
      | some parent =>
          if newitem.priority < parent.priority then
            siftdown fuel startpos newitem (heap.set pos parent) parentpos
          else heap.set pos newitem
      | none => heap.set pos newitem
    else heap.set pos newitem

/-- Python `heapq._siftup(heap, pos)`: move the entry at `pos` down to a leaf
along the smaller-child path, then restore with `_siftdown`.  `pos` strictly
increases and stays below `heap.length`, so `heap.length` units of fuel
always suffice (the callers supply that much). -/
def siftup {α : Type} : ℕ → ℕ → KKNode α → List (KKNode α) → ℕ → List (KKNode α)
  | 0, startpos, newitem, heap, pos => siftdown (pos + 1) startpos newitem heap pos
  | fuel + 1, startpos, newitem, heap, pos =>
      let endpos := heap.length
      let childpos := 2 * pos + 1
      if childpos < endpos then
        let rightpos := childpos + 1
        let childpos2 :=
          if rightpos < endpos then
            match heap.get? childpos, heap.get? rightpos with
            | some c, some r => if ¬ (c.priority < r.priority) then rightpos else childpos
            | _, _ => childpos
          else childpos
        match heap.get? childpos2 with
        | some child => siftup fuel startpos newitem (heap.set pos child) childpos2
        | none => siftdown (pos + 1) startpos newitem heap pos
      else siftdown (pos + 1) startpos newitem heap pos

/-- Python `heapq.heappush`: append, then sift down from the last slot. -/
def heappush {α : Type} (heap : List (KKNode α)) (item : KKNode α) : List (KKNode α) :=
  siftdown (heap.length + 1) 0 item (heap ++ [item]) heap.length

/-- Python `heapq.heappop`: raises on an empty heap (`none` here); otherwise
remove the last entry, and when entries remain, pop the root, move the last
entry to the root slot and sift up. -/
def heappop {α : Type} : List (KKNode α) → Option (KKNode α × List (KKNode α))
  | [] => none
  | [x] => some (x, [])
  | x :: y :: rest =>
      let heap := x :: y :: rest
      let lastelt := heap.getLastD x
      some (x, siftup heap.length 0 lastelt (heap.dropLast.set 0 lastelt) 0)

/-- The `while len(heap) > 1` loop of `karmarkar_karp`: pop the two largest
items, attach the second to the first as a child, subtract priorities and
push the combination back.  One unit of fuel is spent per iteration; the
heap shrinks by one per iteration, so `heap.length` fuel suffices. -/
def kkLoop {α : Type} : ℕ → List (KKNode α) → List (KKNode α)
  | 0, heap => heap
  | fuel + 1, heap =>
      if heap.length ≤ 1 then heap
      else
        match heappop heap with
        | none => heap
        | some (x, h1) =>
            match heappop h1 with
            | none => heap
            | some (y, h2) =>
                kkLoop fuel
                  (heappush h2 (.mk (x.priority - y.priority) x.value (x.children ++ [y])))

/-- The 2-colouring stack loop of `karmarkar_karp`: the Python list used as a
stack (append/pop at the tail) is modelled with the list head as the stack
top; children are pushed in order, so the last child is popped first, exactly
as in the source.  Fuel is one unit per popped node. -/
def colorLoop {α : Type} : ℕ → List (KKNode α × ℕ) → List α × List α → List α × List α
  | 0, _, acc => acc
  | _ + 1, [], acc => acc
  | fuel + 1, (n, c) :: st, (p0, p1) =>
      let acc' := if c = 0 then (p0 ++ [n.value], p1) else (p0, p1 ++ [n.value])
      colorLoop fuel (n.children.foldl (fun s ch => (ch, (c + 1) % 2) :: s) st) acc'

mutual

/-- Number of nodes in a pairing tree (used only to supply enough fuel). -/
def KKNode.size {α : Type} : KKNode α → ℕ
  | .mk _ _ cs => 1 + KKNode.sizeList cs

/-- Total node count of a list of pairing trees. -/
def KKNode.sizeList {α : Type} : List (KKNode α) → ℕ
  | [] => 0
  | c :: cs => KKNode.size c + KKNode.sizeList cs

end

/-- Total node count of a stack of pairing trees. -/
def stackSize {α : Type} (st : List (KKNode α × ℕ)) : ℕ :=
  (st.map (fun p => p.1.size)).sum

/-- `karmarkar_karp` on a list of items with a given weight function
(`-item` for integers, `-len(item)` for collections in the source): build
the heap with `heappush`, run the differencing loop, then read the partition
off by 2-colouring the final pairing tree. -/
def karmarkar_karp_gen {α : Type} (weight : α → Int) (items : List α) : List α × List α :=
  let heap := items.foldl (fun h it => heappush h (.mk (-(weight it)) it [])) []
  let final := kkLoop heap.length heap
  match final with
  | [] => ([], [])
  | root :: _ => colorLoop root.size [(root, 0)] ([], [])

/-- `karmarkar_karp` specialised to integers: priority `-item`. -/
def karmarkar_karp (numbers : List ℕ) : List ℕ × List ℕ :=
  karmarkar_karp_gen (fun n => (n : Int)) numbers

/-- `karmarkar_karp` as used by `balanced_coarse_graining`: items are the
parts of a partition, weighted by their size (`-len(item)`). -/
def karmarkar_karp_sets (parts : List (Finset ℕ)) : List (Finset ℕ) × List (Finset ℕ) :=
  karmarkar_karp_gen (fun s => (s.card : Int)) parts

/-- `balanced_coarse_graining`: run `karmarkar_karp` on the parts and flatten
each colour class; the flattened item lists are immediately converted back to
sets (`Li = set(s)`) by the caller in `Build2`, so the flattening is modelled
as the union of each colour class. -/
def balanced_coarse_graining (parts : List (Finset ℕ)) : List (Finset ℕ) :=
  let (p0, p1) := karmarkar_karp_sets parts
  [unionList p0, unionList p1]

/-!
## `Build2`: the recursive tree builder

The `partition(...)` dispatcher invoked when the natural split degenerates is
abstracted in the recursion as a strategy oracle `strat : L → R → F → (obj,
parts)` (its output is fully determined by the current leaf set and triple
subsets, which determine the auxiliary graph; randomness is quantified over
by quantifying over the oracle).  The concrete dispatcher is embedded
separately below.
-/

/-- Intermediate result of the `for i, s in enumerate(part)` loop. -/
inductive PartsResult where
  | fuelOut
  | fail
  | ok (ts : List TreeNode)
deriving Repr, DecidableEq

/-- Configuration fields of a `Build2` instance that the recursion reads. -/
structure BuildConfig where
  binarize : BinMode
  allow_inconsistency : Bool
  strat : Finset ℕ → List Triple → List Triple → ℚ × List (Finset ℕ)

/-- The caterpillar resolution of `_aho`/`_mtt`: the loop attaches the
subtree of each part to the current chain node and, while more than two
parts remain, descends into a freshly created inner node.  This function
returns the children of the current chain node, given the subtrees of the
remaining parts. -/
def catAssemble : List TreeNode → List TreeNode
  | [] => []
  | [t] => [t]
  | [t1, t2] => [t1, t2]
  | t :: rest => [t, .mk none (catAssemble rest)]

/-- The recursion over the parts of the split: restrict the triple sets to
the part, recurse, and abort with the failure value as soon as one child
fails (`if not Ti: return False`), leaving later parts unprocessed.
Objective contributions accumulated before the failure persist, matching the
mutation of `self.total_obj`. -/
def buildParts (recurse : Finset ℕ → List Triple → List Triple → BuildResult × ℚ)
    (R F : List Triple) : List (Finset ℕ) → PartsResult × ℚ
  | [] => (.ok [], 0)
  | s :: rest =>
      match recurse s (restrictTriples s R) (restrictTriples s F) with
      | (.tree t, q) =>
          match buildParts recurse R F rest with
          | (.ok ts, q2) => (.ok (t :: ts), q + q2)
          | (.fail, q2) => (.fail, q + q2)
          | (.fuelOut, q2) => (.fuelOut, q + q2)
      | (.fail, q) => (.fail, q)
      | (.fuelOut, q) => (.fuelOut, q)

/-- `Build2._aho`, with fuel for the recursion.  Returns the build result
together with the total objective value added to `self.total_obj` by this
call and its descendants. -/
def ahoFuel (cfg : BuildConfig) : ℕ → Finset ℕ → List Triple → BuildResult × ℚ
  | 0, _, _ => (.fuelOut, 0)
  | fuel + 1, L, R =>
      if L.card ≤ 2 then
        match (trivial_case L).1 with
        | some t => (.tree t, 0)
        | none => (.fail, 0)
      else
        let part0 := connected_components L (aho_graph_edges R L)
        if part0.length < 2 ∧ ¬ cfg.allow_inconsistency then (.fail, 0)
        else
          let op := if part0.length < 2 then cfg.strat L R [] else (0, part0)
          let part1 :=
            if cfg.binarize = .balanced ∧ 2 < op.2.length
            then balanced_coarse_graining op.2 else op.2
          match buildParts (fun Li Ri _ => ahoFuel cfg fuel Li Ri) R [] part1 with
          | (.ok ts, q2) =>
              (.tree (.mk none (if cfg.binarize = .caterpillar then catAssemble ts else ts)),
                op.1 + q2)
          | (.fail, q2) => (.fail, op.1 + q2)
          | (.fuelOut, q2) => (.fuelOut, op.1 + q2)

/-- Block of `P` containing leaf `a`, if any. -/
def blockOf (P : List (Finset ℕ)) (a : ℕ) : Option (Finset ℕ) :=
  P.find? (fun s => decide (a ∈ s))

/-- Modelled from the spec: a forbidden triple `(x, y, z)` is *violated* by
the partition `P` when `x` and `y` lie in different parts of `P` than `z`. -/
def violatedB (P : List (Finset ℕ)) (t : Triple) : Bool :=
  match blockOf P t.1, blockOf P t.2.1, blockOf P t.2.2 with
  | some bx, some bz1, some bz => decide (bx ≠ bz) && decide (bz1 ≠ bz)
  | _, _, _ => false

/-- Modelled from the spec: the fix-up loop of the MTT reduction — while
some forbidden triple is violated, connect its first and third leaves and
merge their blocks.  Each merge reduces the number of blocks, so the initial
block count is enough fuel. -/
def mttFix (F : List Triple) : ℕ → List (Finset ℕ) → List (Finset ℕ)
  | 0, P => P
  | fuel + 1, P =>
      match F.find? (fun t => violatedB P t) with
      | none => P
      | some t => mttFix F fuel (merge_blocks P t.1 t.2.2)

/-- Modelled from the spec: tralda's `mtt_partition` (not part of this
repository's sources) — start from the connected components of the plain Aho
graph and repeatedly merge blocks until no forbidden triple is violated. -/
def mtt_partition (L : Finset ℕ) (R F : List Triple) : List (Finset ℕ) :=
  let P0 := connected_components L (aho_graph_edges R L)
  mttFix F P0.length P0

/-- `Build2._mtt`, with fuel for the recursion. -/
def mttFuel (cfg : BuildConfig) : ℕ → Finset ℕ → List Triple → List Triple → BuildResult × ℚ
  | 0, _, _, _ => (.fuelOut, 0)
  | fuel + 1, L, R, F =>
      if L.card ≤ 2 then
        match (trivial_case L).1 with
        | some t => (.tree t, 0)
        | none => (.fail, 0)
      else
        let part0 := mtt_partition L R F
        if part0.length < 2 ∧ ¬ cfg.allow_inconsistency then (.fail, 0)
        else
          let op := if part0.length < 2 then cfg.strat L R F else (0, part0)
          let part1 :=
            if cfg.binarize = .balanced ∧ 2 < op.2.length
            then balanced_coarse_graining op.2 else op.2
          match buildParts (fun Li Ri Fi => mttFuel cfg fuel Li Ri Fi) R F part1 with
          | (.ok ts, q2) =>
              (.tree (.mk none (if cfg.binarize = .caterpillar then catAssemble ts else ts)),
                op.1 + q2)
          | (.fail, q2) => (.fail, op.1 + q2)
          | (.fuelOut, q2) => (.fuelOut, op.1 + q2)

/-- What `build_tree` hands back to the caller: the raw root value when
`return_root=True` (a `TreeNode`, or the failure value), or that value
wrapped in a `Tree` container (`Tree(root)`) otherwise. -/
inductive BuildOutput where
  | asRoot (r : BuildResult)
  | asTree (r : BuildResult)
deriving Repr, DecidableEq

/-- The mutable attributes of a `Build2` instance around a `build_tree`
call. -/
structure BuilderState where
  R : List Triple
  L : Finset ℕ
  F : List Triple
  total_obj : ℚ
deriving DecidableEq

/-- `Build2.build_tree`: reset `self.total_obj` to `0`, run `_mtt` when a
non-empty forbidden set was supplied and `_aho` otherwise, and wrap the root
in a `Tree` unless `return_root` is set.  The recursion passes `self.L`
itself to the first call; when it has at most two leaves the trivial case
pops them off `self.L` (deeper calls construct fresh sets, so only the
top-level set can be mutated). -/
def build_tree (cfg : BuildConfig) (fuel : ℕ) (return_root : Bool)
    (st : BuilderState) : BuildOutput × BuilderState :=
  let rq : BuildResult × ℚ :=
    if st.F = [] then ahoFuel cfg fuel st.L st.R
    else mttFuel cfg fuel st.L st.R st.F
  let finalL := if st.L.card ≤ 2 then (trivial_case st.L).2 else st.L
  let st' : BuilderState := { st with L := finalL, total_obj := 0 + rq.2 }
  (if return_root then .asRoot rq.1 else .asTree rq.1, st')

/-!
## `Build2.__init__`: configuration validation
-/

/-- ASCII lower-casing of a character (the identifiers compared against are
ASCII, so this models Python's `str.lower()` faithfully on every relevant
input). -/
def lowerChar (c : Char) : Char :=
  if 65 ≤ c.toNat ∧ c.toNat ≤ 90 then Char.ofNat (c.toNat + 32) else c

/-- `str.lower()` (ASCII model). -/
def py_lower (s : String) : String := ⟨s.data.map lowerChar⟩

/-- The binarization-mode validation of `Build2.__init__`.  The argument is
modelled as `Option String`: `none` stands for any falsy Python value
(`False`, `None`, `0`); the empty string is falsy as well.  Any other
non-string truthy value also falls through to the `ValueError`, so it is
subsumed by an unrecognised string. -/
def binarize_check (binarize : Option String) : Except String BinMode :=
  match binarize with
  | none => .ok .off
  | some s =>
      if s = "" then .ok .off
      else if py_lower s = "balanced" ∨ py_lower s = "b" then .ok .balanced
      else if py_lower s = "caterpillar" ∨ py_lower s = "c" then .ok .caterpillar
      else .error ("unknown binarization mode: " ++ s)

/-- The partition-method validation of `Build2.__init__`. -/
def part_method_check (p : String) : Except String String :=
  if p = "mincut" ∨ p = "karger" ∨ p = "greedy" ∨ p = "gradient_walk" ∨
     p = "louvain" ∨ p = "louvain_obj"
  then .ok p
  else .error ("unknown bipartition method " ++ p)

/-- `Build2.__init__`: the two validations, in source order (binarization
mode first, then partition method); both happen at construction time, before
any recursion. -/
def Build2_init (binarize : Option String) (part_method : String) :
    Except String (BinMode × String) :=
  match binarize_check binarize with
  | .error e => .error e
  | .ok b =>
      match part_method_check part_method with
      | .error e => .error e
      | .ok p => .ok (b, p)

/-!
## `bmgedit.partitioning.GreedyBipartition`

Objective functions receive the candidate partition as a list of leaf sets
and return a rational.  The `float('inf')` / `float('-inf')` sentinels are
modelled as `none : Option ℚ` — any actual objective value beats the
sentinel, and never compares equal to it, exactly as a finite float compares
against an infinity.
-/

/-- `obj` is strictly better than the current best `b` (`none` being the
initial infinite sentinel): `obj < b` when minimizing, `obj > b` when
maximizing. -/
def betterQ (minimize : Bool) (obj : ℚ) (b : Option ℚ) : Bool :=
  match b with
  | none => true
  | some q => if minimize then decide (obj < q) else decide (q < obj)

/-- `a` is strictly better than `b`, both possibly the infinite sentinel. -/
def betterO (minimize : Bool) (a b : Option ℚ) : Bool :=
  match a with
  | none => false
  | some q => betterQ minimize q b

/-- The inner `for x in remaining` sweep of `greedy_bipartition`: move each
candidate over, score, move back; track the best local objective and the
list of best movable leaves (appended in iteration order; Python iterates
the set `remaining`, modelled in ascending order). -/
def greedyInner (f : List (Finset ℕ) → ℚ) (minimize : Bool) (V1 V2 : Finset ℕ) :
    List ℕ → Option ℚ × List ℕ :=
  List.foldl
    (fun acc x =>
      let obj := f [insert x V1, V2.erase x]
      if betterQ minimize obj acc.1 then (some obj, [x])
      else if some obj = acc.1 then (acc.1, acc.2 ++ [x])
      else acc)
    (none, [])

/-- The `for _ in range(len(V)-1)` loop of `greedy_bipartition`.  `choice`
supplies the index for each `random.choice` call (`k` counts the calls);
`none` is returned exactly when `random.choice` would raise on an empty
list, which never happens for a non-degenerate input. -/
def greedyLoop (f : List (Finset ℕ) → ℚ) (minimize : Bool) (choice : ℕ → ℕ) :
    ℕ → Finset ℕ × Finset ℕ × Finset ℕ → ℕ →
    Option ℚ × List (Finset ℕ × Finset ℕ) →
    Option (ℕ × Option ℚ × List (Finset ℕ × Finset ℕ))
  | 0, _, k, acc => some (k, acc)
  | n + 1, (V1, V2, rem), k, (bo, bbp) =>
      let loc := greedyInner f minimize V1 V2 (ascList rem)
      match loc.2.get? (choice k % loc.2.length) with
      | none => none
      | some x =>
          let V1' := insert x V1
          let V2' := V2.erase x
          let rem' := rem.erase x
          let acc' :=
            if betterO minimize loc.1 bo then (loc.1, [(V1', V2')])
            else if loc.1 = bo then (bo, bbp ++ [(V1', V2')])
            else (bo, bbp)
          greedyLoop f minimize choice n (V1', V2', rem') (k + 1) acc'

/-- `greedy_bipartition`: randomized greedy bipartitioning.  Degenerate
input raises `ValueError`; the returned bipartition is drawn uniformly from
the best-scoring prefix bipartitions recorded during the sweep. -/
def greedy_bipartition (V : Finset ℕ) (f : List (Finset ℕ) → ℚ) (minimize : Bool)
    (choice : ℕ → ℕ) : Except String (ℚ × List (Finset ℕ)) :=
  if V.card < 2 then .error "iterable must have >=2 elements"
  else
    match greedyLoop f minimize choice (V.card - 1) (∅, V, V) 0 (none, []) with
    | none => .error "IndexError"
    | some (k, bo, bbp) =>
        match bbp.get? (choice k % bbp.length), bo with
        | some bp, some q => .ok (q, [bp.1, bp.2])
        | _, _ => .error "IndexError"

/-- The inner `for x in V` sweep of `gradient_walk_bipartition`: for each
leaf whose side has more than one element, score moving it to the other
side (`f` receives `[source-after-removal, target-after-insertion]`, in that
order, exactly as the mutated `[V1, V2]` is passed in the source). -/
def gradientInner (f : List (Finset ℕ) → ℚ) (minimize : Bool) (P0 P1 : Finset ℕ) :
    List ℕ → Option ℚ × List ℕ :=
  List.foldl
    (fun acc x =>
      let side : Option (Finset ℕ × Finset ℕ) :=
        if x ∈ P0 then some (P0, P1) else if x ∈ P1 then some (P1, P0) else none
      match side with
      | none => acc
      | some (V1, V2) =>
          if V1.card = 1 then acc
          else
            let obj := f [V1.erase x, insert x V2]
            if betterQ minimize obj acc.1 then (some obj, [x])
            else if some obj = acc.1 then (acc.1, acc.2 ++ [x])
            else acc)
    (none, [])

/-- The `while True` hill-climbing loop of `gradient_walk_bipartition`:
apply the best single-leaf move while it strictly improves on the best
objective seen, else stop.  Fuel bounds the number of applied moves; every
claim proved about the result holds for every fuel value. -/
def gradientLoop (f : List (Finset ℕ) → ℚ) (minimize : Bool) (choice : ℕ → ℕ)
    (Vl : List ℕ) :
    ℕ → Finset ℕ × Finset ℕ → ℕ → ℚ × List (Finset ℕ) → ℚ × List (Finset ℕ)
  | 0, _, _, acc => acc
  | fuel + 1, (P0, P1), k, (bo, bbp) =>
      let loc := gradientInner f minimize P0 P1 Vl
      if betterO minimize loc.1 (some bo) then
        match loc.2.get? (choice k % loc.2.length), loc.1 with
        | some x, some q =>
            let st' := if x ∈ P0 then (P0.erase x, insert x P1)
                       else (insert x P0, P1.erase x)
            gradientLoop f minimize choice Vl fuel st' (k + 1) (q, [st'.1, st'.2])
        | _, _ => (bo, bbp)
      else (bo, bbp)

/-- `gradient_walk_bipartition`: adaptive-walk bipartitioning.  `order`
models `np.random.permutation` — the leaves of `V` in the shuffled order in
which the Python code distributes them over the two initial sides (position
`k` goes to side 0 iff `k <= len(V)/2`).  Degenerate input and a malformed
`initial_bipartition` raise `ValueError`. -/
def gradient_walk_bipartition (V : Finset ℕ) (f : List (Finset ℕ) → ℚ)
    (minimize : Bool) (order : List ℕ) (initial : Option (List (Finset ℕ)))
    (choice : ℕ → ℕ) (fuel : ℕ) : Except String (ℚ × List (Finset ℕ)) :=
  if V.card < 2 then .error "iterable must have >=2 elements"
  else
    let start : Except String (Finset ℕ × Finset ℕ) :=
      match initial with
      | none =>
          let side0 := ((order.enum.filter (fun p => decide (2 * p.1 ≤ order.length))).map
            Prod.snd).toFinset
          let side1 := ((order.enum.filter (fun p => decide (¬ 2 * p.1 ≤ order.length))).map
            Prod.snd).toFinset
          .ok (side0, side1)
      | some bp =>
          match bp with
          | [b0, b1] => .ok (b0, b1)
          | _ => .error "not a bipartition"
    match start with
    | .error e => .error e
    | .ok (P0, P1) =>
        let r := gradientLoop f minimize choice (ascList V) fuel (P0, P1) 0
          (f [P0, P1], [P0, P1])
        .ok r

/-!
## Minimum cut and randomized contraction

`nx.stoer_wagner` and `bmgedit.partitioning.Karger` are not part of the
sources under verification (the former is an external library call, the
latter's file is absent from the repository snapshot); both are modelled
from the spec.
-/

/-- Weight of the cut between `S` and `T`. -/
def cutWeight (w : ℕ → ℕ → ℚ) (S T : Finset ℕ) : ℚ :=
  S.sum (fun x => T.sum (fun y => w x y))

/-- Modelled from the spec: `nx.stoer_wagner` — the exact global
minimum-cut bipartition of the weighted auxiliary graph, deterministic, with
the cut weight as its cost; fewer than two nodes raise an error. -/
def stoer_wagner (V : Finset ℕ) (w : ℕ → ℕ → ℚ) : Except String (ℚ × List (Finset ℕ)) :=
  if V.card < 2 then .error "graph has less than two nodes"
  else
    let cands := ((ascList V).sublists.map List.toFinset).filter
      (fun S => decide (S ≠ ∅) && decide (S ≠ V))
    let best := cands.foldl
      (fun acc S =>
        match acc with
        | none => some S
        | some T =>
            if cutWeight w S (V \ S) < cutWeight w T (V \ T) then some S else acc)
      none
    match best with
    | some S => .ok (cutWeight w S (V \ S), [S, V \ S])
    | none => .error "graph has less than two nodes"

/-- Merge the blocks at positions `i ≠ j` of a contraction state. -/
def mergeAt (P : List (Finset ℕ)) (i j : ℕ) : List (Finset ℕ) :=
  match P.get? i, P.get? j with
  | some si, some sj => (si ∪ sj) :: ((P.eraseIdx (max i j)).eraseIdx (min i j))
  | _, _ => P

/-- Modelled from the spec: one run of Karger's randomized contraction —
starting from singleton super-vertices, repeatedly contract a random edge
(merging the two super-vertices it joins, sampled here through `pick`) until
only two super-vertices remain. -/
def karger_run (pick : ℕ → ℕ × ℕ) (V : Finset ℕ) : List (Finset ℕ) :=
  let rec go : ℕ → List (Finset ℕ) → ℕ → List (Finset ℕ)
    | 0, P, _ => P
    | fuel + 1, P, k =>
        if P.length ≤ 2 then P
        else
          let pr := pick k
          let i := pr.1 % P.length
          let j0 := pr.2 % P.length
          let j := if i = j0 then (j0 + 1) % P.length else j0
          go fuel (mergeAt P i j) (k + 1)
  go V.card ((ascList V).map (fun a => {a})) 0

/-- Modelled from the spec: `Karger(aux_graph).generate(runs)` (the module
`bmgedit.partitioning.Karger` is absent from the repository snapshot) —
yield one candidate bipartition per independent run; degenerate graphs are
rejected. -/
def Karger_generate (pick : ℕ → ℕ → ℕ × ℕ) (runs : ℕ) (V : Finset ℕ) :
    Except String (List (List (Finset ℕ))) :=
  if V.card < 2 then .error "graph has less than two nodes"
  else .ok ((List.range runs).map (fun r => karger_run (pick r) V))

/-!
## `bmgedit.partitioning.Louvain`

The input graph is a weighted undirected graph, given by a node list and an
edge list (an edge `(u, v, w)`; a self-loop is `(x, x, w)`).  Each level of
the algorithm works on a graph of super-nodes; since a super-node is exactly
the set of original vertices it contains and the aggregated edge weights of
`_next_level_graph` are the sums of the original weights between the two
member sets, a level graph is represented by its list of super-nodes
(`sns : List (Finset ℕ)`), all weights being computed from the original
graph.  Communities on a level are an assignment `com` from super-node
positions to community ids; `random.shuffle` is an explicit parameter.
-/

/-- A weighted undirected graph. -/
structure WGraph where
  nodes : List ℕ
  edges : List (ℕ × ℕ × ℚ)

/-- Modified adjacency `A x y`: total weight between `x` and `y`, with the
diagonal doubled (a self-loop `(x, x, w)` contributes `2w` to `A x x`),
matching the degree convention of the source (`k[x] += w` for both endpoints
of every edge).  Symmetric by construction. -/
def WGraph.A (g : WGraph) (x y : ℕ) : ℚ :=
  (g.edges.map (fun e =>
    (if e.1 = x ∧ e.2.1 = y then e.2.2 else 0) +
    (if e.1 = y ∧ e.2.1 = x then e.2.2 else 0))).sum

/-- Weighted degree `k[x]` as accumulated by `_cluster_by_modularity`:
each edge contributes its weight once per incident endpoint. -/
def WGraph.deg (g : WGraph) (x : ℕ) : ℚ :=
  (g.edges.map (fun e =>
    (if e.1 = x then e.2.2 else 0) + (if e.2.1 = x then e.2.2 else 0))).sum

/-- `graph.size(weight=...)`: the total edge weight `m`. -/
def WGraph.m (g : WGraph) : ℚ := (g.edges.map (fun e => e.2.2)).sum

/-- Aggregated weight between two super-nodes (with the doubled-diagonal
convention inherited from `A`). -/
def WGraph.SA (g : WGraph) (S T : Finset ℕ) : ℚ :=
  S.sum (fun x => T.sum (fun y => g.A x y))

/-- Aggregated weighted degree of a super-node. -/
def WGraph.Sdeg (g : WGraph) (S : Finset ℕ) : ℚ := S.sum g.deg

/-- Super-node at position `i` of a level. -/
def snAt (sns : List (Finset ℕ)) (i : ℕ) : Finset ℕ := sns.getD i ∅

/-- The community ids currently in use (`self.communities.keys()`, which the
source keeps in ascending order: ids are initial positions, and deletion
preserves order). -/
def comIds (com : ℕ → ℕ) (n : ℕ) : Finset ℕ := (Finset.range n).image com

/-- The members (super-node positions) of community `c`. -/
def fiberF (com : ℕ → ℕ) (n : ℕ) (c : ℕ) : Finset ℕ :=
  (Finset.range n).filter (fun i => com i = c)

/-- `k_x_in[C]` of `_weight_sums_to_communities`: total weight from
super-node `x` to the members of community `C` other than `x` itself. -/
def kxin (g : WGraph) (sns : List (Finset ℕ)) (com : ℕ → ℕ) (x C : ℕ) : ℚ :=
  (((Finset.range sns.length).filter (fun y => y ≠ x ∧ com y = C)).sum
    (fun y => g.SA (snAt sns x) (snAt sns y)))

/-- `com_tot[C]` as used in the gain formulas, i.e. after `k[x]` has been
subtracted from `x`'s own community: the degree sum over the members of `C`
other than `x`. -/
def comTotM (g : WGraph) (sns : List (Finset ℕ)) (com : ℕ → ℕ) (x C : ℕ) : ℚ :=
  (((Finset.range sns.length).filter (fun y => y ≠ x ∧ com y = C)).sum
    (fun y => g.Sdeg (snAt sns y)))

/-- The modularity gain of placing `x` into community `C` (with `x` removed
from its own community), the simplified Blondel et al. expression from the
source: `(k_x_in[C] - com_tot[C] * k[x] / (2m)) / m`.  For `C = com x` this
is `cost_removal`. -/
def modGain (g : WGraph) (sns : List (Finset ℕ)) (com : ℕ → ℕ) (x C : ℕ) : ℚ :=
  (kxin g sns com x C - comTotM g sns com x C * g.Sdeg (snAt sns x) / (2 * g.m)) / g.m

/-- The communities of the neighbours of `x` other than `x`'s own community,
each once, in first-visit order (neighbour iteration is modelled in
ascending position order; a super-node is a neighbour when some aggregated
weight connects it to `x`). -/
def nbrComs (g : WGraph) (sns : List (Finset ℕ)) (com : ℕ → ℕ) (x : ℕ) : List ℕ :=
  ((((List.range sns.length).filter
      (fun y => decide (y ≠ x) && decide (g.SA (snAt sns x) (snAt sns y) ≠ 0))).map
    com).dedup).filter (fun c => decide (c ≠ com x))

/-- The `at_least_two` guard: skip `x` when exactly two communities remain
and `x` is alone in its community (moving it would merge the last two). -/
def lastTwoGuard (alt : Bool) (com : ℕ → ℕ) (n x : ℕ) : Bool :=
  alt && decide ((comIds com n).card = 2) && decide ((fiberF com n (com x)).card = 1)

/-- Processing of one node `x` in `_cluster_by_modularity`: compute
`cost_removal`, fold the strictly-improving-only best-community selection
over the neighbouring communities (ties keep the earlier candidate, so `x`'s
own community is preferred), then reassign `x` and accumulate
`best_gain - cost_removal`.  The `moved` flag records whether a strictly
better community was found. -/
def modStep (alt : Bool) (g : WGraph) (sns : List (Finset ℕ))
    (st : (ℕ → ℕ) × ℚ × Bool) (x : ℕ) : (ℕ → ℕ) × ℚ × Bool :=
  let (com, tg, mo) := st
  let n := sns.length
  if lastTwoGuard alt com n x then st
  else
    let cr := modGain g sns com x (com x)
    let best := (nbrComs g sns com x).foldl
      (fun bc C =>
        let ng := modGain g sns com x C
        if bc.1 < ng then (ng, C) else bc)
      (cr, com x)
    (Function.update com x best.2, tg + (best.1 - cr), mo || decide (best.2 ≠ com x))

/-- One full `for x in self.nodes` sweep of `_cluster_by_modularity`. -/
def modSweep (alt : Bool) (g : WGraph) (sns : List (Finset ℕ))
    (com : ℕ → ℕ) (tg : ℚ) : (ℕ → ℕ) × ℚ × Bool :=
  (List.range sns.length).foldl (modStep alt g sns) (com, tg, false)

/-- The `while True` loop of `_cluster_by_modularity`: sweep until a sweep
moves no node.  Returns the final assignment, `total_gain`, and
`moved_on_level`. -/
def modLevelLoop (alt : Bool) (g : WGraph) (sns : List (Finset ℕ)) :
    ℕ → (ℕ → ℕ) → ℚ → Bool → (ℕ → ℕ) × ℚ × Bool
  | 0, com, tg, mo => (com, tg, mo)
  | fuel + 1, com, tg, mo =>
      let s := modSweep alt g sns com tg
      if s.2.2 then modLevelLoop alt g sns fuel s.1 s.2.1 true
      else (s.1, s.2.1, mo)

/-- `_Level(..)` in modularity mode: singleton communities (`com = id`),
early return on a zero-weight graph, else the sweep loop. -/
def modLevel (alt : Bool) (g : WGraph) (sns : List (Finset ℕ)) (fuel : ℕ) :
    (ℕ → ℕ) × ℚ × Bool :=
  if g.m = 0 then (fun i => i, 0, false)
  else modLevelLoop alt g sns fuel (fun i => i) 0 false

/-- `level.get_partition()` and the next level's super-node list (they
coincide in this representation): for each community in ascending id order,
the union of the original vertices of its member super-nodes. -/
def nextSns (sns : List (Finset ℕ)) (com : ℕ → ℕ) : List (Finset ℕ) :=
  (ascList (comIds com sns.length)).map
    (fun c => (fiberF com sns.length c).biUnion (fun i => snAt sns i))

/-- `networkx.algorithms.community.modularity` of a level graph under a
community assignment: `sum_c (L_c / m - (deg_c / (2m))^2)`, written with the
doubled-diagonal intra-weight (`2 L_c`). -/
def nxModularity (g : WGraph) (sns : List (Finset ℕ)) (com : ℕ → ℕ) : ℚ :=
  (comIds com sns.length).sum (fun c =>
    ((fiberF com sns.length c).sum (fun i =>
      (fiberF com sns.length c).sum (fun j => g.SA (snAt sns i) (snAt sns j))))
        / (2 * g.m)
    - ((fiberF com sns.length c).sum (fun i => g.Sdeg (snAt sns i)) / (2 * g.m)) ^ 2)

/-- Doubled intra-community weight of community `c` (each off-diagonal pair
counted in both orders, the diagonal doubled through `A`). -/
def Lc (g : WGraph) (sns : List (Finset ℕ)) (com : ℕ → ℕ) (c : ℕ) : ℚ :=
  (fiberF com sns.length c).sum (fun i =>
    (fiberF com sns.length c).sum (fun j => g.SA (snAt sns i) (snAt sns j)))

/-- Total weighted degree of community `c`. -/
def Dc (g : WGraph) (sns : List (Finset ℕ)) (com : ℕ → ℕ) (c : ℕ) : ℚ :=
  (fiberF com sns.length c).sum (fun i => g.Sdeg (snAt sns i))

/-- The contribution of community `c` to the modularity. -/
def QTerm (g : WGraph) (sns : List (Finset ℕ)) (com : ℕ → ℕ) (c : ℕ) : ℚ :=
  Lc g sns com c / (2 * g.m) - (Dc g sns com c / (2 * g.m)) ^ 2

/-- `Louvain._run`: record the singleton partition and its modularity
(`None` for a zero-weight graph), then run levels until one moves no node,
recording each level's partition (mapped to original vertices) and the
modularity of the level graph under its communities.  `shuffle` models
`random.shuffle` at the start of each level. -/
def Louvain_run (alt : Bool) (shuffle : ℕ → List (Finset ℕ) → List (Finset ℕ))
    (g : WGraph) (levelFuel : ℕ) (fuel : ℕ) :
    List (List (Finset ℕ)) × List (Option ℚ) :=
  let sns0 := g.nodes.map (fun x => {x})
  if g.m = 0 then ([sns0], [none])
  else
    let rec loop : ℕ → ℕ → List (Finset ℕ) → List (List (Finset ℕ)) → List (Option ℚ) →
        List (List (Finset ℕ)) × List (Option ℚ)
      | 0, _, _, ps, ms => (ps, ms)
      | fl + 1, k, sns, ps, ms =>
          let s2 := shuffle k sns
          let lv := modLevel alt g s2 levelFuel
          if lv.2.2 then
            let sns' := nextSns s2 lv.1
            loop fl (k + 1) sns' (ps ++ [sns']) (ms ++ [some (nxModularity g s2 lv.1)])
          else (ps, ms)
    loop fuel 0 sns0 [sns0] [some (nxModularity g sns0 (fun i => i))]

/-- Whether the level graph has any edge (`graph.size() == 0` check of
`_cluster_by_obj`): some aggregated weight is non-zero (edge weights of the
auxiliary graphs are positive counts, so a present edge has non-zero
aggregated weight). -/
def levelHasEdge (g : WGraph) (sns : List (Finset ℕ)) : Bool :=
  decide (∃ i ∈ Finset.range sns.length, ∃ j ∈ Finset.range sns.length,
    g.SA (snAt sns i) (snAt sns j) ≠ 0)

/-- The partition handed to the objective function while evaluating the
candidate move of `x` into community `C` in `_cluster_by_obj`: the values of
the `part` dict in ascending key order — every currently existing community
(including `x`'s own, possibly now empty), with `x`'s vertices removed from
its own community and added to `C`. -/
def objParts (sns : List (Finset ℕ)) (com : ℕ → ℕ) (x C : ℕ) : List (Finset ℕ) :=
  (ascList (comIds com sns.length)).map
    (fun d => (((fiberF com sns.length d).filter (fun i => i ≠ x)).biUnion
        (fun i => snAt sns i)) ∪ (if d = C then snAt sns x else ∅))

/-- Processing of one node `x` in `_cluster_by_obj`: starting from gain `0`
for staying, fold the strictly-improving-only selection over neighbouring
communities, scoring `minfac * (obj - new_obj)` by re-evaluating the
objective on the candidate partition; then reassign `x`, accumulate the
gain, and update the running objective value. -/
def objStep (alt : Bool) (minfac : ℚ) (f : List (Finset ℕ) → ℚ) (g : WGraph)
    (sns : List (Finset ℕ)) (st : (ℕ → ℕ) × ℚ × ℚ × Bool) (x : ℕ) :
    (ℕ → ℕ) × ℚ × ℚ × Bool :=
  let (com, obj, tg, mo) := st
  let n := sns.length
  if lastTwoGuard alt com n x then st
  else
    let best := (nbrComs g sns com x).foldl
      (fun bc C =>
        let ng := minfac * (obj - f (objParts sns com x C))
        if bc.1 < ng then (ng, C) else bc)
      (0, com x)
    (Function.update com x best.2, obj - minfac * best.1, tg + best.1,
      mo || decide (best.2 ≠ com x))

/-- One full `for x in self.nodes` sweep of `_cluster_by_obj`. -/
def objSweep (alt : Bool) (minfac : ℚ) (f : List (Finset ℕ) → ℚ) (g : WGraph)
    (sns : List (Finset ℕ)) (com : ℕ → ℕ) (obj : ℚ) (tg : ℚ) :
    (ℕ → ℕ) × ℚ × ℚ × Bool :=
  (List.range sns.length).foldl (objStep alt minfac f g sns) (com, obj, tg, false)

/-- The `while True` loop of `_cluster_by_obj`. -/
def objLevelLoop (alt : Bool) (minfac : ℚ) (f : List (Finset ℕ) → ℚ) (g : WGraph)
    (sns : List (Finset ℕ)) :
    ℕ → (ℕ → ℕ) → ℚ → ℚ → Bool → (ℕ → ℕ) × ℚ × Bool
  | 0, com, _, tg, mo => (com, tg, mo)
  | fuel + 1, com, obj, tg, mo =>
      let s := objSweep alt minfac f g sns com obj tg
      if s.2.2.2 then objLevelLoop alt minfac f g sns fuel s.1 s.2.1 s.2.2.1 true
      else (s.1, s.2.2.1, mo)

/-- `_Level(..)` in custom-objective mode. -/
def objLevel (alt : Bool) (minfac : ℚ) (f : List (Finset ℕ) → ℚ) (g : WGraph)
    (sns : List (Finset ℕ)) (fuel : ℕ) : (ℕ → ℕ) × ℚ × Bool :=
  if ¬ levelHasEdge g sns then (fun i => i, 0, false)
  else objLevelLoop alt minfac f g sns fuel (fun i => i) (f sns) 0 false

/-- `LouvainCustomObj._run`: record the singleton partition and its
objective value, then per level append
`objectives[-1] - min_factor * total_gain`. -/
def LouvainCustomObj_run (alt : Bool) (shuffle : ℕ → List (Finset ℕ) → List (Finset ℕ))
    (g : WGraph) (f : List (Finset ℕ) → ℚ) (minimize : Bool)
    (levelFuel : ℕ) (fuel : ℕ) : List (List (Finset ℕ)) × List ℚ :=
  let sns0 := g.nodes.map (fun x => {x})
  let minfac : ℚ := if minimize then 1 else -1
  let rec loop : ℕ → ℕ → List (Finset ℕ) → List (List (Finset ℕ)) → List ℚ →
      List (List (Finset ℕ)) × List ℚ
    | 0, _, _, ps, ms => (ps, ms)
    | fl + 1, k, sns, ps, ms =>
        let s2 := shuffle k sns
        let lv := objLevel alt minfac f g s2 levelFuel
        if lv.2.2 then
          let sns' := nextSns s2 lv.1
          loop fl (k + 1) sns' (ps ++ [sns'])
            (ms ++ [ms.getLastD 0 - minfac * lv.2.1])
        else (ps, ms)
  loop fuel 0 sns0 [sns0] [f sns0]

/-!
## The `partition(...)` dispatcher of `Build.py`
-/

/-- The random sources consumed by the dispatcher's strategies, one stream
per repeat: `choice r` feeds the `random.choice` calls of repeat `r`,
`order r` is the initial permutation of repeat `r` of the gradient walk,
`kpick r` drives the edge contractions of Karger run `r`, and
`shuffle r k` is the node shuffle of level `k` in Louvain repeat `r`. -/
structure DispatchRand where
  choice : ℕ → ℕ → ℕ
  order : ℕ → List ℕ
  kpick : ℕ → ℕ → ℕ × ℕ
  shuffle : ℕ → ℕ → List (Finset ℕ) → List (Finset ℕ)

/-- Fold one candidate `(q, p)` into the running best (`none` is the initial
infinite sentinel), keeping the strictly better one. -/
def keepBest (minimize : Bool) (cur : Option (ℚ × List (Finset ℕ)))
    (q : ℚ) (p : List (Finset ℕ)) : Option (ℚ × List (Finset ℕ)) :=
  if betterQ minimize q (cur.map Prod.fst) then some (q, p) else cur

/-- The `partition(L, method, ...)` dispatcher.  Exceptions raised by the
strategies propagate (`Except.error`); if no candidate was produced (only
possible with zero repeats) the Python code would return the unusable pair
`(inf, None)`, modelled as an error.  The `louvain` branch always maximizes
and raises a `TypeError` when the last recorded modularity is `None`
(comparing `None` with a float), exactly as the source would. -/
def partitionDispatch (L : Finset ℕ) (method : String)
    (f : List (Finset ℕ) → ℚ) (minimize : Bool) (g : WGraph)
    (greedy_repeats : ℕ) (rnd : DispatchRand)
    (walkFuel levelFuel runFuel : ℕ) : Except String (ℚ × List (Finset ℕ)) :=
  if method = "mincut" then
    stoer_wagner g.nodes.toFinset g.A
  else if method = "karger" then
    match Karger_generate rnd.kpick greedy_repeats g.nodes.toFinset with
    | .error e => .error e
    | .ok cands =>
        match cands.foldl (fun cur p => keepBest minimize cur (f p) p) none with
        | some (q, p) => .ok (q, p)
        | none => .error "no candidate partition"
  else if method = "greedy" then
    match (List.range greedy_repeats).foldl
      (fun acc r =>
        match acc with
        | .error e => .error e
        | .ok cur =>
            match greedy_bipartition L f minimize (rnd.choice r) with
            | .error e => .error e
            | .ok (q, p) => .ok (keepBest minimize cur q p))
      (Except.ok none : Except String (Option (ℚ × List (Finset ℕ)))) with
    | .error e => .error e
    | .ok (some (q, p)) => .ok (q, p)
    | .ok none => .error "no candidate partition"
  else if method = "gradient_walk" then
    match (List.range greedy_repeats).foldl
      (fun acc r =>
        match acc with
        | .error e => .error e
        | .ok cur =>
            match gradient_walk_bipartition L f minimize (rnd.order r) none
                (rnd.choice r) walkFuel with
            | .error e => .error e
            | .ok (q, p) => .ok (keepBest minimize cur q p))
      (Except.ok none : Except String (Option (ℚ × List (Finset ℕ)))) with
    | .error e => .error e
    | .ok (some (q, p)) => .ok (q, p)
    | .ok none => .error "no candidate partition"
  else if method = "louvain" then
    match (List.range greedy_repeats).foldl
      (fun acc r =>
        match acc with
        | .error e => .error e
        | .ok cur =>
            let run := Louvain_run true (rnd.shuffle r) g levelFuel runFuel
            match run.2.getLast?, run.1.getLast? with
            | some (some q), some p => .ok (keepBest false cur q p)
            | some none, _ => .error "TypeError: NoneType and float comparison"
            | _, _ => .error "no candidate partition"
      )
      (Except.ok none : Except String (Option (ℚ × List (Finset ℕ)))) with
    | .error e => .error e
    | .ok (some (q, p)) => .ok (q, p)
    | .ok none => .error "no candidate partition"
  else if method = "louvain_obj" then
    match (List.range greedy_repeats).foldl
      (fun acc r =>
        match acc with
        | .error e => .error e
        | .ok cur =>
            let run := LouvainCustomObj_run true (rnd.shuffle r) g f minimize
              levelFuel runFuel
            match run.2.getLast?, run.1.getLast? with
            | some q, some p => .ok (keepBest minimize cur q p)
            | _, _ => .error "no candidate partition"
      )
      (Except.ok none : Except String (Option (ℚ × List (Finset ℕ)))) with
    | .error e => .error e
    | .ok (some (q, p)) => .ok (q, p)
    | .ok none => .error "no candidate partition"
  else .error "no candidate partition"

/-!
## Auxiliary predicates used by the statements and proofs
-/

mutual

/-- Every node of the tree has either no children (a leaf) or exactly two
children: the tree is binary. -/
def TreeNode.binaryB : TreeNode → Bool
  | .mk _ cs => (decide (cs.length = 0) || decide (cs.length = 2)) && TreeNode.binaryAll cs

/-- All trees in the list are binary. -/
def TreeNode.binaryAll : List TreeNode → Bool
  | [] => true
  | c :: cs => TreeNode.binaryB c && TreeNode.binaryAll cs

end

mutual

/-- The payload values stored in a pairing tree, root first. -/
def KKNode.vals {α : Type} : KKNode α → List α
  | .mk _ v cs => v :: KKNode.valsList cs

/-- The payload values stored in a list of pairing trees. -/
def KKNode.valsList {α : Type} : List (KKNode α) → List α
  | [] => []
  | c :: cs => KKNode.vals c ++ KKNode.valsList cs

end

/-- The payload values on a colouring stack. -/
def stackVals {α : Type} (st : List (KKNode α × ℕ)) : List α :=
  match st with
  | [] => []
  | e :: es => KKNode.vals e.1 ++ stackVals es

/-- A trivial strategy oracle (used to instantiate examples whose runs never
reach the partitioning step). -/
def defaultStrat : Finset ℕ → List Triple → List Triple → ℚ × List (Finset ℕ) :=
  fun _ _ _ => (0, [])

/-- A `Build2` configuration with `allow_inconsistency=False`, no
binarization and the trivial oracle. -/
def cfgNoInc : BuildConfig := ⟨.off, false, defaultStrat⟩

/-- Decidable equality for `Except` results (not derived in core). -/
instance {e a : Type} [DecidableEq e] [DecidableEq a] : DecidableEq (Except e a)
  | .ok x, .ok y => decidable_of_iff (x = y) (by simp)
  | .ok _, .error _ => isFalse (by simp)
  | .error _, .ok _ => isFalse (by simp)
  | .error x, .error y => decidable_of_iff (x = y) (by simp)

/-!
## Shared characterization lemmas
-/

/-- `binarize_check` succeeds exactly on falsy values and the
case-insensitive identifiers `balanced`/`b`/`caterpillar`/`c`. -/
theorem binarize_check_ok_iff (b : Option String) :
    (∃ m, binarize_check b = .ok m) ↔
      (b = none ∨ ∃ s, b = some s ∧ (s = "" ∨ py_lower s = "balanced" ∨ py_lower s = "b" ∨
        py_lower s = "caterpillar" ∨ py_lower s = "c")) := by
  cases b with
  | none => simp [binarize_check]
  | some s =>
      simp only [binarize_check]
      split_ifs with h1 h2 h3 <;> simp_all <;> tauto

/-- `part_method_check` succeeds exactly on the six identifiers of the
source. -/
theorem part_method_check_ok_iff (p : String) :
    (∃ m, part_method_check p = .ok m) ↔
      (p = "mincut" ∨ p = "karger" ∨ p = "greedy" ∨ p = "gradient_walk" ∨
       p = "louvain" ∨ p = "louvain_obj") := by
  simp only [part_method_check]
  split_ifs with h <;> simp_all

/-- `Build2.__init__` succeeds exactly when both validations succeed. -/
theorem Build2_init_ok_iff (b : Option String) (p : String) :
    (∃ c, Build2_init b p = .ok c) ↔
      ((∃ m, binarize_check b = .ok m) ∧ (∃ m, part_method_check p = .ok m)) := by
  unfold Build2_init
  cases hb : binarize_check b <;> cases hp : part_method_check p <;> simp [hb, hp]

/-!
## Claim C6: accepted configuration identifiers
-/

/-- C6, counterexample: the identifiers named by the claim are *not* the
accepted ones — `randomized-contraction` (and likewise the binarize mode
spelled `none`) raises `ValueError` at construction. -/
theorem C6_cex :
    Build2_init none "randomized-contraction" =
      .error "unknown bipartition method randomized-contraction" ∧
    Build2_init (some "none") "mincut" =
      .error "unknown binarization mode: none" := by
  constructor
  · decide
  · decide

/-- C6, amended: construction succeeds exactly for the partition-method
identifiers `mincut`, `karger`, `greedy`, `gradient_walk`, `louvain`,
`louvain_obj` and for binarize arguments that are falsy or case-insensitive
spellings of `balanced`/`b`/`caterpillar`/`c`; everything else raises
`ValueError` immediately at construction time (the validation runs inside
`__init__`, before any recursion). -/
theorem C6_thm (b : Option String) (p : String) :
    (∃ c, Build2_init b p = .ok c) ↔
      ((b = none ∨ ∃ s, b = some s ∧ (s = "" ∨ py_lower s = "balanced" ∨ py_lower s = "b" ∨
        py_lower s = "caterpillar" ∨ py_lower s = "c")) ∧
       (p = "mincut" ∨ p = "karger" ∨ p = "greedy" ∨ p = "gradient_walk" ∨
        p = "louvain" ∨ p = "louvain_obj")) := by
  rw [Build2_init_ok_iff, binarize_check_ok_iff, part_method_check_ok_iff]

/-!
## Claim C4: the number-partitioning example
-/

/-- C4, counterexample: on the weights `[8, 7, 6, 5, 4]` the heuristic does
*not* produce groups with sums 17 and 13; the sums are 16 and 14. -/
theorem C4_cex :
    (karmarkar_karp [8, 7, 6, 5, 4]).1.sum = 16 ∧
    (karmarkar_karp [8, 7, 6, 5, 4]).2.sum = 14 ∧
    ¬ (((karmarkar_karp [8, 7, 6, 5, 4]).1.sum = 17 ∧
        (karmarkar_karp [8, 7, 6, 5, 4]).2.sum = 13) ∨
       ((karmarkar_karp [8, 7, 6, 5, 4]).1.sum = 13 ∧
        (karmarkar_karp [8, 7, 6, 5, 4]).2.sum = 17)) := by
  decide

/-- C4, amended: `karmarkar_karp` on `[8, 7, 6, 5, 4]` returns the grouping
`[4, 5, 7]` versus `[6, 8]`, with matched sums 16 versus 14 — a difference
of 2, the largest-differencing result for these weights. -/
theorem C4_thm :
    karmarkar_karp [8, 7, 6, 5, 4] = ([4, 5, 7], [6, 8]) ∧
    (karmarkar_karp [8, 7, 6, 5, 4]).1.sum - (karmarkar_karp [8, 7, 6, 5, 4]).2.sum = 2 := by
  decide

/-!
## Claim C10: the objective accumulator is reset per build
-/

/-- C10: `build_tree` sets `self.total_obj = 0` before recursing, so its
entire result — the returned value and the final builder state, including
the reported accumulated objective — is independent of whatever
`total_obj` value was left over from previous builds on the same instance. -/
theorem C10_thm (cfg : BuildConfig) (fuel : ℕ) (rr : Bool) (st : BuilderState) (t : ℚ) :
    build_tree cfg fuel rr { st with total_obj := t } =
      build_tree cfg fuel rr { st with total_obj := 0 } := rfl

/-!
## Claim C8: immutability of the caller-supplied inputs
-/

/-- C8, counterexample: a top-level build on the two-leaf set `{1, 2}`
empties the caller's leaf set (`_trivial_case` pops the leaves off
`self.L`), so the supplied leaves are *not* unchanged after `build_tree`. -/
theorem C8_cex :
    (build_tree cfgNoInc 5 false ⟨[], {1, 2}, [], 0⟩).2.L = ∅ ∧
    ({1, 2} : Finset ℕ) ≠ ∅ := by
  decide

/-!
## Claim C2: inconsistency fails the build, and failure propagates
-/

/-- C2: with `allow_inconsistency=False`, leaves `{1, 2, 3}` and the
contradictory triples `(1,2,3)` and `(1,3,2)`, the recursion returns the
explicit failure value (the Aho graph is connected, so there is no natural
split), and the top-level `build_tree` with default arguments hands back a
`Tree` wrapping that failure value — no tree is assembled.  Moreover the
failure value propagates: whenever the per-part recursion loop succeeds,
every part's recursive call returned a tree, so a child's failure forces the
failure of every enclosing call. -/
theorem C2_thm :
    (ahoFuel cfgNoInc 4 {1, 2, 3} [(1, 2, 3), (1, 3, 2)]).1 = .fail ∧
    (build_tree cfgNoInc 4 false ⟨[(1, 2, 3), (1, 3, 2)], {1, 2, 3}, [], 0⟩).1 =
      .asTree .fail ∧
    (∀ (recurse : Finset ℕ → List Triple → List Triple → BuildResult × ℚ)
        (R F : List Triple) (parts : List (Finset ℕ)) (ts : List TreeNode) (q : ℚ),
      buildParts recurse R F parts = (.ok ts, q) →
        ∀ s ∈ parts, ∃ t qt,
          recurse s (restrictTriples s R) (restrictTriples s F) = (.tree t, qt)) := by
  refine ⟨by decide, by decide, ?_⟩
  intro recurse R F parts
  induction parts with
  | nil => intro ts q _ s hs; simp at hs
  | cons a rest ih =>
      intro ts q h s hs
      simp only [buildParts] at h
      cases h1 : recurse a (restrictTriples a R) (restrictTriples a F) with
      | mk r qa =>
          rw [h1] at h
          cases r with
          | fail => simp at h
          | fuelOut => simp at h
          | tree t =>
              cases h2 : buildParts recurse R F rest with
              | mk rr q2 =>
                  rw [h2] at h
                  cases rr with
                  | fail => simp at h
                  | fuelOut => simp at h
                  | ok ts2 =>
                      rcases List.mem_cons.mp hs with rfl | hs2
                      · exact ⟨t, qa, h1⟩
                      · exact ih ts2 q2 h2 s hs2

/-!
## Heap-operation lemmas (for the balanced-binarization invariants)
-/

/-- Overwriting position `i` (which holds `x`) with `a` exchanges `x` for
`a` in the underlying multiset. -/
theorem list_set_add {α : Type} (l : List α) (i : ℕ) (a x : α)
    (h : l.get? i = some x) :
    ((l.set i a : List α) : Multiset α) + {x} = (l : Multiset α) + {a} := by
  have hi : i < l.length := by
    by_contra hc
    rw [List.get?_eq_none.mpr (by omega)] at h
    exact Option.noConfusion h
  have hx2 : l[i] = x := by
    have hg := List.getElem?_eq_getElem hi
    rw [List.get?_eq_getElem?, hg] at h
    exact Option.some.inj h
  rw [List.set_eq_take_append_cons_drop, if_pos hi]
  conv_rhs => rw [← List.take_append_drop i l]
  rw [← List.getElem_cons_drop l i hi, hx2]
  rw [← Multiset.coe_add, ← Multiset.coe_add, ← Multiset.cons_coe, ← Multiset.cons_coe,
    ← Multiset.singleton_add, ← Multiset.singleton_add]
  abel

/-- `_siftdown` preserves the heap length. -/
theorem siftdown_length {α : Type} :
    ∀ (fuel sp : ℕ) (ni : KKNode α) (heap : List (KKNode α)) (pos : ℕ),
      (siftdown fuel sp ni heap pos).length = heap.length := by
  intro fuel
  induction fuel with
  | zero => intro sp ni heap pos; simp [siftdown]
  | succ f ih =>
      intro sp ni heap pos
      simp only [siftdown]
      by_cases h : sp < pos
      · simp only [if_pos h]
        cases hp : heap.get? ((pos - 1) / 2) with
        | none => simp
        | some parent =>
            by_cases hlt : ni.priority < parent.priority
            · simp only [if_pos hlt, ih]
              simp
            · simp [if_neg hlt]
      · simp [if_neg h]

/-- `_siftdown` exchanges the stale entry at `pos` for `newitem` in the
underlying multiset. -/
theorem siftdown_ms {α : Type} :
    ∀ (fuel sp : ℕ) (ni : KKNode α) (heap : List (KKNode α)) (pos : ℕ) (x : KKNode α),
      heap.get? pos = some x →
      ((siftdown fuel sp ni heap pos : List (KKNode α)) : Multiset (KKNode α)) + {x} =
        (heap : Multiset (KKNode α)) + {ni} := by
  intro fuel
  induction fuel with
  | zero => intro sp ni heap pos x hx; simpa [siftdown] using list_set_add heap pos ni x hx
  | succ f ih =>
      intro sp ni heap pos x hx
      simp only [siftdown]
      by_cases h : sp < pos
      · simp only [if_pos h]
        cases hp : heap.get? ((pos - 1) / 2) with
        | none => simpa using list_set_add heap pos ni x hx
        | some parent =>
            by_cases hlt : ni.priority < parent.priority
            · simp only [if_pos hlt]
              have hne : (pos - 1) / 2 ≠ pos := by omega
              have hget : (heap.set pos parent).get? ((pos - 1) / 2) = some parent := by
                rw [List.get?_set_ne _ _ hne.symm, hp]
              have h1 := ih sp ni (heap.set pos parent) ((pos - 1) / 2) parent hget
              have h2 := list_set_add heap pos parent x hx
              have key : ((siftdown f sp ni (heap.set pos parent) ((pos - 1) / 2) :
                  List (KKNode α)) : Multiset (KKNode α)) + {x} + {parent} =
                  ((heap : Multiset (KKNode α)) + {ni}) + {parent} := by
                calc ((siftdown f sp ni (heap.set pos parent) ((pos - 1) / 2) :
                        List (KKNode α)) : Multiset (KKNode α)) + {x} + {parent}
                    = (((siftdown f sp ni (heap.set pos parent) ((pos - 1) / 2) :
                        List (KKNode α)) : Multiset (KKNode α)) + {parent}) + {x} := by abel
                  _ = ((heap.set pos parent : List (KKNode α)) : Multiset (KKNode α))
                        + {ni} + {x} := by rw [h1]
                  _ = (((heap.set pos parent : List (KKNode α)) : Multiset (KKNode α))
                        + {x}) + {ni} := by abel
                  _ = ((heap : Multiset (KKNode α)) + {parent}) + {ni} := by rw [h2]
                  _ = ((heap : Multiset (KKNode α)) + {ni}) + {parent} := by abel
              exact add_right_cancel key
            · simp only [if_neg hlt]
              simpa using list_set_add heap pos ni x hx
      · simp only [if_neg h]
        simpa using list_set_add heap pos ni x hx

/-- `_siftup` preserves the heap length. -/
theorem siftup_length {α : Type} :
    ∀ (fuel sp : ℕ) (ni : KKNode α) (heap : List (KKNode α)) (pos : ℕ),
      (siftup fuel sp ni heap pos).length = heap.length := by
  intro fuel
  induction fuel with
  | zero => intro sp ni heap pos; simp [siftup, siftdown_length]
  | succ f ih =>
      intro sp ni heap pos
      simp only [siftup]
      by_cases h : 2 * pos + 1 < heap.length
      · simp only [if_pos h]
        cases hc : heap.get? (if 2 * pos + 1 + 1 < heap.length then
            match heap.get? (2 * pos + 1), heap.get? (2 * pos + 1 + 1) with
            | some c, some r => if ¬ (c.priority < r.priority) then 2 * pos + 1 + 1
              else 2 * pos + 1
            | _, _ => 2 * pos + 1
          else 2 * pos + 1) with
        | none => simp [siftdown_length]
        | some child => simp [ih, siftdown_length]
      · simp [if_neg h, siftdown_length]

/-- `_siftup` exchanges the stale entry at `pos` for `newitem` in the
underlying multiset. -/
theorem siftup_ms {α : Type} :
    ∀ (fuel sp : ℕ) (ni : KKNode α) (heap : List (KKNode α)) (pos : ℕ) (x : KKNode α),
      heap.get? pos = some x →
      ((siftup fuel sp ni heap pos : List (KKNode α)) : Multiset (KKNode α)) + {x} =
        (heap : Multiset (KKNode α)) + {ni} := by
  intro fuel
  induction fuel with
  | zero => intro sp ni heap pos x hx; simpa [siftup] using siftdown_ms (pos + 1) sp ni heap pos x hx
  | succ f ih =>
      intro sp ni heap pos x hx
      simp only [siftup]
      by_cases h : 2 * pos + 1 < heap.length
      · simp only [if_pos h]
        set cp2 := (if 2 * pos + 1 + 1 < heap.length then
            match heap.get? (2 * pos + 1), heap.get? (2 * pos + 1 + 1) with
            | some c, some r => if ¬ (c.priority < r.priority) then 2 * pos + 1 + 1
              else 2 * pos + 1
            | _, _ => 2 * pos + 1
          else 2 * pos + 1) with hcp2
        have hcp2pos : pos < cp2 := by
          rw [hcp2]
          clear hcp2
          clear_value cp2
          split
          · split
            · split
              · show pos < 2 * pos + 1 + 1
                omega
              · show pos < 2 * pos + 1
                omega
            · show pos < 2 * pos + 1
              omega
          · omega
        cases hc : heap.get? cp2 with
        | none => simpa using siftdown_ms (pos + 1) sp ni heap pos x hx
        | some child =>
            have hne : cp2 ≠ pos := by omega
            have hget : (heap.set pos child).get? cp2 = some child := by
              rw [List.get?_set_ne _ _ hne.symm, hc]
            have h1 := ih sp ni (heap.set pos child) cp2 child hget
            have h2 := list_set_add heap pos child x hx
            have key : ((siftup f sp ni (heap.set pos child) cp2 :
                List (KKNode α)) : Multiset (KKNode α)) + {x} + {child} =
                ((heap : Multiset (KKNode α)) + {ni}) + {child} := by
              calc ((siftup f sp ni (heap.set pos child) cp2 :
                      List (KKNode α)) : Multiset (KKNode α)) + {x} + {child}
                  = (((siftup f sp ni (heap.set pos child) cp2 :
                      List (KKNode α)) : Multiset (KKNode α)) + {child}) + {x} := by abel
                _ = ((heap.set pos child : List (KKNode α)) : Multiset (KKNode α))
                      + {ni} + {x} := by rw [h1]
                _ = (((heap.set pos child : List (KKNode α)) : Multiset (KKNode α))
                      + {x}) + {ni} := by abel
                _ = ((heap : Multiset (KKNode α)) + {child}) + {ni} := by rw [h2]
                _ = ((heap : Multiset (KKNode α)) + {ni}) + {child} := by abel
            exact add_right_cancel key
      · simpa [if_neg h] using siftdown_ms (pos + 1) sp ni heap pos x hx

/-- `heappush` appends the item, up to heap reordering. -/
theorem heappush_ms {α : Type} (heap : List (KKNode α)) (item : KKNode α) :
    ((heappush heap item : List (KKNode α)) : Multiset (KKNode α)) =
      (heap : Multiset (KKNode α)) + {item} := by
  have hget : (heap ++ [item]).get? heap.length = some item := by
    rw [List.get?_append_right (by omega)]
    simp
  have h := siftdown_ms (heap.length + 1) 0 item (heap ++ [item]) heap.length item hget
  have : ((heap ++ [item] : List (KKNode α)) : Multiset (KKNode α)) =
      (heap : Multiset (KKNode α)) + {item} := by
    rw [← Multiset.coe_add]
    rfl
  rw [this] at h
  simpa [heappush] using add_right_cancel h

/-- `heappush` grows the heap by one. -/
theorem heappush_length {α : Type} (heap : List (KKNode α)) (item : KKNode α) :
    (heappush heap item).length = heap.length + 1 := by
  simp [heappush, siftdown_length]

/-- On a non-empty heap, `heappop` returns an element and the rest: the heap
shrinks by one and the popped element together with the rest carries the same
multiset. -/
theorem heappop_spec {α : Type} (heap : List (KKNode α)) (hne : heap ≠ []) :
    ∃ a h', heappop heap = some (a, h') ∧ h'.length + 1 = heap.length ∧
      (h' : Multiset (KKNode α)) + {a} = (heap : Multiset (KKNode α)) := by
  match heap, hne with
  | [x], _ =>
      refine ⟨x, [], rfl, rfl, ?_⟩
      simp
  | x :: y :: rest, _ =>
      set hp := x :: y :: rest with hhp
      set last := hp.getLastD x with hlast
      set H := hp.dropLast.set 0 last with hH
      have hdne : hp.dropLast ≠ [] := by simp [hhp]
      have hdl : hp.dropLast = x :: (y :: rest).dropLast := by simp [hhp]
      have hH0 : H.get? 0 = some last := by
        rw [hH, hdl]
        rfl
      have hlast2 : last = hp.getLast (by simp [hhp]) := by
        rw [hlast, List.getLastD_eq_getLast?, List.getLast?_eq_getLast hp (by simp [hhp])]
        rfl
      have hcoe : (hp : Multiset (KKNode α)) =
          (hp.dropLast : Multiset (KKNode α)) + {hp.getLast (by simp [hhp])} := by
        conv_lhs => rw [← @List.dropLast_append_getLast _ hp (by simp [hhp])]
        rw [← Multiset.coe_add]
        rfl
      have hd0 : hp.dropLast.get? 0 = some x := by rw [hdl]; rfl
      refine ⟨x, siftup hp.length 0 last H 0, rfl, ?_, ?_⟩
      · rw [siftup_length, hH]
        simp [hhp]
      · have h1 := siftup_ms hp.length 0 last H 0 last hH0
        have h2 : ((siftup hp.length 0 last H 0 : List (KKNode α)) : Multiset (KKNode α)) =
            (H : Multiset (KKNode α)) := add_right_cancel h1
        rw [h2, hH]
        have h3 := list_set_add hp.dropLast 0 last x hd0
        rw [hcoe, ← hlast2]
        calc (((hp.dropLast.set 0 last : List (KKNode α)) : Multiset (KKNode α))) + {x}
            = (hp.dropLast : Multiset (KKNode α)) + {last} := h3
          _ = (hp.dropLast : Multiset (KKNode α)) + {last} := rfl

/-- `valsList` distributes over append. -/
theorem valsList_append {α : Type} (cs ds : List (KKNode α)) :
    KKNode.valsList (cs ++ ds) = KKNode.valsList cs ++ KKNode.valsList ds := by
  induction cs with
  | nil => simp [KKNode.valsList]
  | cons c cs ih => simp [KKNode.valsList, ih]

/-- Permuting the trees permutes the stored values. -/
theorem valsList_perm {α : Type} {h1 h2 : List (KKNode α)} (h : List.Perm h1 h2) :
    List.Perm (KKNode.valsList h1) (KKNode.valsList h2) := by
  induction h with
  | nil => exact List.Perm.refl _
  | cons a _ ih => exact ih.append_left (KKNode.vals a)
  | swap a b l =>
      show List.Perm (KKNode.vals b ++ (KKNode.vals a ++ KKNode.valsList l))
        (KKNode.vals a ++ (KKNode.vals b ++ KKNode.valsList l))
      rw [← List.append_assoc, ← List.append_assoc]
      exact (List.perm_append_comm).append_right (KKNode.valsList l)
  | trans _ _ ih1 ih2 => exact ih1.trans ih2

/-- A heap-reordering-invariant view: equal node multisets give equal value
multisets. -/
theorem valsList_congr {α : Type} {h1 h2 : List (KKNode α)}
    (h : (h1 : Multiset (KKNode α)) = (h2 : Multiset (KKNode α))) :
    ((KKNode.valsList h1 : List α) : Multiset α) = (KKNode.valsList h2 : Multiset α) :=
  Multiset.coe_eq_coe.mpr (valsList_perm (Multiset.coe_eq_coe.mp h))

/-- A heap of at most one entry is left alone by the differencing loop. -/
theorem kkLoop_small {α : Type} (fuel : ℕ) (heap : List (KKNode α))
    (h : heap.length ≤ 1) : kkLoop fuel heap = heap := by
  cases fuel with
  | zero => rfl
  | succ f => simp [kkLoop, if_pos h]

/-- The differencing loop of `karmarkar_karp` reduces a heap of at least two
entries to a single pairing-tree root with at least one child, preserving
the multiset of stored values. -/
theorem kkLoop_spec {α : Type} :
    ∀ (fuel : ℕ) (heap : List (KKNode α)), heap.length ≤ fuel + 1 → 2 ≤ heap.length →
    ∃ root, kkLoop fuel heap = [root] ∧ root.children ≠ [] ∧
      ((KKNode.vals root : List α) : Multiset α) = (KKNode.valsList heap : Multiset α) := by
  intro fuel
  induction fuel with
  | zero => intro heap hf h2; omega
  | succ f ih =>
      intro heap hf h2
      have hne : heap ≠ [] := by intro hn; rw [hn] at h2; simp at h2
      obtain ⟨x, h1, hpop1, hlen1, hms1⟩ := heappop_spec heap hne
      have hne1 : h1 ≠ [] := by
        intro hn; rw [hn] at hlen1; simp at hlen1; omega
      obtain ⟨y, h2l, hpop2, hlen2, hms2⟩ := heappop_spec h1 hne1
      have hstep : kkLoop (f + 1) heap =
          kkLoop f (heappush h2l (.mk (x.priority - y.priority) x.value (x.children ++ [y]))) := by
        simp only [kkLoop, hpop1, hpop2, if_neg (show ¬ heap.length ≤ 1 by omega)]
      set x' : KKNode α := .mk (x.priority - y.priority) x.value (x.children ++ [y]) with hx'
      set h3 := heappush h2l x' with hh3
      have hlen3 : h3.length + 1 = heap.length := by
        rw [hh3, heappush_length]; omega
      have hvals3 : ((KKNode.valsList h3 : List α) : Multiset α) =
          (KKNode.valsList heap : Multiset α) := by
        have e3 : (h3 : Multiset (KKNode α)) = (h2l : Multiset (KKNode α)) + {x'} :=
          heappush_ms h2l x'
        have e3' : ((KKNode.valsList h3 : List α) : Multiset α) =
            (KKNode.valsList (h2l ++ [x']) : Multiset α) := by
          apply valsList_congr
          rw [e3, ← Multiset.coe_singleton x', Multiset.coe_add]
        have e1' : ((KKNode.valsList heap : List α) : Multiset α) =
            (KKNode.valsList (h1 ++ [x]) : Multiset α) := by
          apply valsList_congr
          rw [← hms1, ← Multiset.coe_singleton x, Multiset.coe_add]
        have e2' : ((KKNode.valsList h1 : List α) : Multiset α) =
            (KKNode.valsList (h2l ++ [y]) : Multiset α) := by
          apply valsList_congr
          rw [← hms2, ← Multiset.coe_singleton y, Multiset.coe_add]
        rw [e3', e1']
        rw [valsList_append, valsList_append]
        have hx'vals : KKNode.vals x' = x.value :: (KKNode.valsList x.children ++
            KKNode.vals y ++ []) := by
          rw [hx']
          show KKNode.vals (.mk (x.priority - y.priority) x.value (x.children ++ [y])) = _
          simp [KKNode.vals, KKNode.valsList, valsList_append]
        have hxvals : KKNode.vals x = x.value :: KKNode.valsList x.children := by
          cases x; rfl
        rw [← Multiset.coe_add, ← Multiset.coe_add]
        rw [show KKNode.valsList [x'] = KKNode.vals x' ++ [] from rfl]
        rw [show KKNode.valsList [x] = KKNode.vals x ++ [] from rfl]
        rw [hx'vals, hxvals]
        have := e2'
        rw [valsList_append, ← Multiset.coe_add] at this
        rw [show KKNode.valsList [y] = KKNode.vals y ++ [] from rfl] at this
        simp only [List.append_nil] at this ⊢
        rw [this]
        simp only [← Multiset.cons_coe, ← Multiset.singleton_add, ← Multiset.coe_add]
        abel
      rw [hstep]
      by_cases h3len : 2 ≤ h3.length
      · obtain ⟨root, hr1, hr2, hr3⟩ := ih h3 (by omega) h3len
        exact ⟨root, hr1, hr2, hr3.trans hvals3⟩
      · have hone : h3.length = 1 := by
          have : 1 ≤ h3.length := by omega
          omega
        obtain ⟨r, hr⟩ := List.length_eq_one.mp hone
        have h2nil : h2l = [] := by
          have : h2l.length = 0 := by omega
          exact List.length_eq_zero.mp this
        have hh3x : h3 = [x'] := by
          rw [hh3, h2nil]
          rfl
        refine ⟨x', by rw [kkLoop_small f h3 (by omega), hh3x], ?_, ?_⟩
        · rw [hx']
          show x.children ++ [y] ≠ []
          simp
        · have hfin : ((KKNode.valsList [x'] : List α) : Multiset α) =
              (KKNode.valsList heap : Multiset α) := by
            rw [← hh3x]; exact hvals3
          simpa [KKNode.valsList] using hfin

/-- A pairing-tree node stores at least one value. -/
theorem KKNode.size_eq {α : Type} (n : KKNode α) :
    n.size = 1 + KKNode.sizeList n.children := by
  cases n; rfl

/-- Stack size of a cons. -/
theorem stackSize_cons {α : Type} (n : KKNode α) (c : ℕ) (st : List (KKNode α × ℕ)) :
    stackSize ((n, c) :: st) = n.size + stackSize st := by
  simp [stackSize]

/-- An empty-sized stack is empty. -/
theorem stackSize_eq_zero {α : Type} (st : List (KKNode α × ℕ)) (h : stackSize st = 0) :
    st = [] := by
  cases st with
  | nil => rfl
  | cons e es =>
      exfalso
      obtain ⟨n, c⟩ := e
      rw [stackSize_cons, KKNode.size_eq] at h
      omega

/-- Pushing children onto the stack adds their total size. -/
theorem stackSize_foldl {α : Type} (cs : List (KKNode α)) (c' : ℕ) :
    ∀ st : List (KKNode α × ℕ),
      stackSize (cs.foldl (fun s ch => (ch, c') :: s) st) =
        KKNode.sizeList cs + stackSize st := by
  induction cs with
  | nil => intro st; simp [KKNode.sizeList]
  | cons c cs ih =>
      intro st
      show stackSize (cs.foldl _ ((c, c') :: st)) = _
      rw [ih ((c, c') :: st), stackSize_cons, KKNode.sizeList]
      omega

/-- Pushing children onto the stack adds their values. -/
theorem stackVals_foldl {α : Type} (cs : List (KKNode α)) (c' : ℕ) :
    ∀ st : List (KKNode α × ℕ),
      ((stackVals (cs.foldl (fun s ch => (ch, c') :: s) st) : List α) : Multiset α) =
        (KKNode.valsList cs : Multiset α) + (stackVals st : Multiset α) := by
  induction cs with
  | nil => intro st; simp [KKNode.valsList]
  | cons c cs ih =>
      intro st
      show ((stackVals (cs.foldl _ ((c, c') :: st)) : List α) : Multiset α) = _
      rw [ih ((c, c') :: st)]
      show _ = ((KKNode.vals c ++ KKNode.valsList cs : List α) : Multiset α) + _
      rw [show (stackVals ((c, c') :: st) : List α) = KKNode.vals c ++ stackVals st from rfl]
      rw [← Multiset.coe_add, ← Multiset.coe_add]
      abel

/-- Membership in the stack is preserved by pushing children. -/
theorem mem_foldl_stack {α : Type} (cs : List (KKNode α)) (c' : ℕ) :
    ∀ (st : List (KKNode α × ℕ)) (e : KKNode α × ℕ), e ∈ st →
      e ∈ cs.foldl (fun s ch => (ch, c') :: s) st := by
  induction cs with
  | nil => intro st e h; exact h
  | cons c cs ih =>
      intro st e h
      exact ih ((c, c') :: st) e (List.mem_cons_of_mem _ h)

/-- Every child pushed lands on the stack with the given colour. -/
theorem mem_foldl_stack2 {α : Type} (cs : List (KKNode α)) (c' : ℕ) :
    ∀ (st : List (KKNode α × ℕ)) (ch : KKNode α), ch ∈ cs →
      (ch, c') ∈ cs.foldl (fun s ch => (ch, c') :: s) st := by
  induction cs with
  | nil => intro st ch h; simp at h
  | cons c cs ih =>
      intro st ch h
      rcases List.mem_cons.mp h with rfl | h2
      · exact mem_foldl_stack cs c' ((ch, c') :: st) (ch, c') (List.mem_cons_self _ _)
      · exact ih ((c, c') :: st) ch h2

/-- One step of the colouring loop. -/
theorem colorLoop_step {α : Type} (f : ℕ) (n : KKNode α) (c : ℕ)
    (rest : List (KKNode α × ℕ)) (p0 p1 : List α) :
    colorLoop (f + 1) ((n, c) :: rest) (p0, p1) =
      colorLoop f (n.children.foldl (fun s ch => (ch, (c + 1) % 2) :: s) rest)
        (if c = 0 then (p0 ++ [n.value], p1) else (p0, p1 ++ [n.value])) := rfl

/-- The colouring loop only ever appends to the two accumulators. -/
theorem colorLoop_acc {α : Type} :
    ∀ (fuel : ℕ) (st : List (KKNode α × ℕ)) (p0 p1 : List α),
      ∃ d0 d1, colorLoop fuel st (p0, p1) = (p0 ++ d0, p1 ++ d1) := by
  intro fuel
  induction fuel with
  | zero => intro st p0 p1; exact ⟨[], [], by simp [colorLoop]⟩
  | succ f ih =>
      intro st p0 p1
      cases st with
      | nil => exact ⟨[], [], by simp [colorLoop]⟩
      | cons e rest =>
          obtain ⟨n, c⟩ := e
          rw [colorLoop_step]
          by_cases hc : c = 0
          · rw [if_pos hc]
            obtain ⟨d0, d1, hd⟩ := ih _ (p0 ++ [n.value]) p1
            exact ⟨[n.value] ++ d0, d1, by rw [hd, List.append_assoc]⟩
          · rw [if_neg hc]
            obtain ⟨d0, d1, hd⟩ := ih _ p0 (p1 ++ [n.value])
            exact ⟨d0, [n.value] ++ d1, by rw [hd, List.append_assoc]⟩

/-- With enough fuel, the colouring loop distributes exactly the stacked
values over the two accumulators. -/
theorem colorLoop_total {α : Type} :
    ∀ (fuel : ℕ) (st : List (KKNode α × ℕ)) (p0 p1 : List α),
      stackSize st ≤ fuel →
      ((colorLoop fuel st (p0, p1)).1 : Multiset α) +
        ((colorLoop fuel st (p0, p1)).2 : Multiset α) =
        (p0 : Multiset α) + (p1 : Multiset α) + (stackVals st : Multiset α) := by
  intro fuel
  induction fuel with
  | zero =>
      intro st p0 p1 h
      rw [stackSize_eq_zero st (by omega)]
      simp [colorLoop, stackVals]
  | succ f ih =>
      intro st p0 p1 h
      cases st with
      | nil => simp [colorLoop, stackVals]
      | cons e rest =>
          obtain ⟨n, c⟩ := e
          have hsz : stackSize (n.children.foldl (fun s ch => (ch, (c + 1) % 2) :: s) rest) ≤ f := by
            rw [stackSize_foldl]
            rw [stackSize_cons, KKNode.size_eq] at h
            omega
          have hv : ((stackVals ((n, c) :: rest) : List α) : Multiset α) =
              (KKNode.vals n : Multiset α) + (stackVals rest : Multiset α) := by
            rw [show (stackVals ((n, c) :: rest) : List α) =
              KKNode.vals n ++ stackVals rest from rfl, ← Multiset.coe_add]
          have hvn : (KKNode.vals n : Multiset α) =
              {n.value} + (KKNode.valsList n.children : Multiset α) := by
            cases n with
            | mk p v cs =>
                show ((v :: KKNode.valsList cs : List α) : Multiset α) = _
                rw [← Multiset.cons_coe, ← Multiset.singleton_add]
                rfl
          rw [colorLoop_step]
          by_cases hc : c = 0
          · rw [if_pos hc, ih _ _ _ hsz, stackVals_foldl, hv, hvn]
            rw [show ((p0 ++ [n.value] : List α) : Multiset α) = ↑p0 + {n.value} by
              rw [← Multiset.coe_singleton n.value, Multiset.coe_add]]
            abel
          · rw [if_neg hc, ih _ _ _ hsz, stackVals_foldl, hv, hvn]
            rw [show ((p1 ++ [n.value] : List α) : Multiset α) = ↑p1 + {n.value} by
              rw [← Multiset.coe_singleton n.value, Multiset.coe_add]]
            abel

/-- With enough fuel, every stacked node's value reaches the accumulator of
its colour. -/
theorem colorLoop_mem {α : Type} :
    ∀ (fuel : ℕ) (st : List (KKNode α × ℕ)) (p0 p1 : List α) (e : KKNode α × ℕ),
      stackSize st ≤ fuel → e ∈ st →
      e.1.value ∈ (if e.2 = 0 then (colorLoop fuel st (p0, p1)).1
        else (colorLoop fuel st (p0, p1)).2) := by
  intro fuel
  induction fuel with
  | zero =>
      intro st p0 p1 e h hmem
      rw [stackSize_eq_zero st (by omega)] at hmem
      simp at hmem
  | succ f ih =>
      intro st p0 p1 e h hmem
      cases st with
      | nil => simp at hmem
      | cons e0 rest =>
          obtain ⟨n, c⟩ := e0
          have hsz : stackSize (n.children.foldl (fun s ch => (ch, (c + 1) % 2) :: s) rest) ≤ f := by
            rw [stackSize_foldl]
            rw [stackSize_cons, KKNode.size_eq] at h
            omega
          rw [colorLoop_step]
          rcases List.mem_cons.mp hmem with rfl | hrest
          · by_cases hc : c = 0
            · subst hc
              obtain ⟨d0, d1, hd⟩ := colorLoop_acc f
                (n.children.foldl (fun s ch => (ch, (0 + 1) % 2) :: s) rest)
                (p0 ++ [n.value]) p1
              simp [hd]
            · obtain ⟨d0, d1, hd⟩ := colorLoop_acc f
                (n.children.foldl (fun s ch => (ch, (c + 1) % 2) :: s) rest)
                p0 (p1 ++ [n.value])
              simp [hd, hc]
          · have hmem2 := mem_foldl_stack n.children ((c + 1) % 2) rest e hrest
            by_cases hc : c = 0
            · subst hc
              simpa using ih _ (p0 ++ [n.value]) p1 e hsz hmem2
            · simpa [hc] using ih _ p0 (p1 ++ [n.value]) e hsz hmem2

/-!
## Partition invariants of the auxiliary-graph components
-/

/-- `ascList` enumerates exactly the elements of the set. -/
theorem mem_ascList (L : Finset ℕ) (x : ℕ) : x ∈ ascList L ↔ x ∈ L := by
  simp only [ascList, List.mem_filter, List.mem_range, decide_eq_true_eq]
  constructor
  · exact fun h => h.2
  · intro h
    refine ⟨?_, h⟩
    have h2 : x ≤ L.sum (fun i => i) :=
      Finset.single_le_sum (fun i _ => Nat.zero_le i) h
    omega

/-- `ascList` has no duplicates. -/
theorem ascList_nodup (L : Finset ℕ) : (ascList L).Nodup :=
  (List.nodup_range _).filter _

/-- `ascList` enumerates `card` many elements. -/
theorem ascList_length (L : Finset ℕ) : (ascList L).length = L.card := by
  have ht : (ascList L).toFinset = L := by
    ext x; simp [List.mem_toFinset, mem_ascList]
  conv_rhs => rw [← ht]
  exact (List.toFinset_card_of_nodup (ascList_nodup L)).symm

/-- Membership in a finite union. -/
theorem mem_unionList (P : List (Finset ℕ)) (x : ℕ) :
    x ∈ unionList P ↔ ∃ s ∈ P, x ∈ s := by
  induction P with
  | nil => simp [unionList]
  | cons s rest ih =>
      show x ∈ s ∪ unionList rest ↔ _
      simp [Finset.mem_union, ih]

/-- The parts of a partition are distinct. -/
theorem PartitionOf.nodup {P : List (Finset ℕ)} {L : Finset ℕ}
    (h : PartitionOf P L) : P.Nodup := by
  obtain ⟨hne, hdis, _⟩ := h
  exact List.Pairwise.imp_of_mem
    (fun {s t} hs _ hd => by
      intro hst
      subst hst
      exact hne s hs (by simpa using disjoint_self.mp hd)) hdis

/-- Two distinct parts of a pairwise-disjoint list are disjoint. -/
theorem pairwise_disjoint_mem {P : List (Finset ℕ)} (h : P.Pairwise Disjoint)
    {s t : Finset ℕ} (hs : s ∈ P) (ht : t ∈ P) (hne : s ≠ t) : Disjoint s t :=
  List.Pairwise.forall (fun _ _ hd => hd.symm) h hs ht hne

/-- `merge_blocks` preserves the partition invariant. -/
theorem merge_blocks_partition {P : List (Finset ℕ)} {L : Finset ℕ} (a b : ℕ)
    (h : PartitionOf P L) : PartitionOf (merge_blocks P a b) L := by
  rcases hfa : P.find? (fun s => decide (a ∈ s)) with _ | sa <;>
    rcases hfb : P.find? (fun s => decide (b ∈ s)) with _ | sb
  · simp only [merge_blocks, hfa, hfb]; exact h
  · simp only [merge_blocks, hfa, hfb]; exact h
  · simp only [merge_blocks, hfa, hfb]; exact h
  · simp only [merge_blocks, hfa, hfb]
    by_cases heq : sa = sb
    · rw [if_pos heq]; exact h
    · rw [if_neg heq]
      have hsa : sa ∈ P := List.mem_of_find?_eq_some hfa
      have hsb : sb ∈ P := List.mem_of_find?_eq_some hfb
      obtain ⟨hne, hdis, huni⟩ := h
      have hmemQ : ∀ s, s ∈ P.filter (fun s => decide (s ≠ sa) && decide (s ≠ sb)) ↔
          s ∈ P ∧ s ≠ sa ∧ s ≠ sb := by
        intro s
        simp [List.mem_filter]
      refine ⟨?_, ?_, ?_⟩
      · intro s hs
        rcases List.mem_cons.mp hs with rfl | hs2
        · intro hu
          exact hne sa hsa (Finset.union_eq_empty.mp hu).1
        · exact hne s ((hmemQ s).mp hs2).1
      · rw [List.pairwise_cons]
        constructor
        · intro t ht
          obtain ⟨htP, htsa, htsb⟩ := (hmemQ t).mp ht
          rw [Finset.disjoint_union_left]
          exact ⟨pairwise_disjoint_mem hdis hsa htP (Ne.symm htsa),
            pairwise_disjoint_mem hdis hsb htP (Ne.symm htsb)⟩
        · exact List.Pairwise.sublist (List.filter_sublist P) hdis
      · ext x
        rw [mem_unionList, ← huni, mem_unionList]
        constructor
        · rintro ⟨s, hs, hx⟩
          rcases List.mem_cons.mp hs with rfl | hs2
          · rcases Finset.mem_union.mp hx with hx1 | hx2
            · exact ⟨sa, hsa, hx1⟩
            · exact ⟨sb, hsb, hx2⟩
          · exact ⟨s, ((hmemQ s).mp hs2).1, hx⟩
        · rintro ⟨s, hs, hx⟩
          by_cases h1 : s = sa
          · subst h1
            exact ⟨s ∪ sb, List.mem_cons_self _ _, Finset.mem_union_left _ hx⟩
          · by_cases h2 : s = sb
            · subst h2
              exact ⟨sa ∪ s, List.mem_cons_self _ _, Finset.mem_union_right _ hx⟩
            · exact ⟨s, List.mem_cons_of_mem _ ((hmemQ s).mpr ⟨hs, h1, h2⟩), hx⟩

/-- The singleton blocks form a partition of `L`. -/
theorem singletons_partition (L : Finset ℕ) :
    PartitionOf ((ascList L).map (fun a => ({a} : Finset ℕ))) L := by
  refine ⟨?_, ?_, ?_⟩
  · intro s hs
    obtain ⟨a, _, rfl⟩ := List.mem_map.mp hs
    simp
  · rw [List.pairwise_map]
    exact (ascList_nodup L).imp
      (fun hab => by simpa [Finset.disjoint_singleton] using Ne.symm hab)
  · ext x
    rw [mem_unionList]
    constructor
    · rintro ⟨s, hs, hx⟩
      obtain ⟨a, ha, rfl⟩ := List.mem_map.mp hs
      rw [Finset.mem_singleton] at hx
      subst hx
      exact (mem_ascList L x).mp ha
    · intro hx
      exact ⟨{x}, List.mem_map.mpr ⟨x, (mem_ascList L x).mpr hx, rfl⟩, Finset.mem_singleton_self x⟩

/-- The connected components of the auxiliary graph form a partition of its
vertex set. -/
theorem connected_components_partition (L : Finset ℕ) (E : List (ℕ × ℕ)) :
    PartitionOf (connected_components L E) L := by
  unfold connected_components
  have hgen : ∀ (es : List (ℕ × ℕ)) (P : List (Finset ℕ)), PartitionOf P L →
      PartitionOf (es.foldl (fun P e => merge_blocks P e.1 e.2) P) L := by
    intro es
    induction es with
    | nil => intro P h; exact h
    | cons e rest ih =>
        intro P h
        exact ih _ (merge_blocks_partition e.1 e.2 h)
  exact hgen E _ (singletons_partition L)

/-- A part of a genuine split (at least two parts) has strictly fewer leaves
than the whole set. -/
theorem part_card_lt {P : List (Finset ℕ)} {L : Finset ℕ} (h : PartitionOf P L)
    (h2 : 2 ≤ P.length) {s : Finset ℕ} (hs : s ∈ P) : s.card < L.card := by
  obtain ⟨hne, hdis, huni⟩ := h
  have hsub : s ⊆ L := by
    intro x hx
    rw [← huni, mem_unionList]
    exact ⟨s, hs, hx⟩
  have hcard : 1 < P.toFinset.card := by
    rw [List.toFinset_card_of_nodup (PartitionOf.nodup ⟨hne, hdis, huni⟩)]
    omega
  obtain ⟨t, htm, htne⟩ := Finset.exists_ne_of_one_lt_card hcard s
  rw [List.mem_toFinset] at htm
  obtain ⟨y, hy⟩ := Finset.nonempty_iff_ne_empty.mpr (hne t htm)
  have hyL : y ∈ L := by
    rw [← huni, mem_unionList]
    exact ⟨t, htm, hy⟩
  have hys : y ∉ s := by
    intro hc
    exact Finset.disjoint_left.mp (pairwise_disjoint_mem hdis htm hs htne) hy hc
  exact Finset.card_lt_card ⟨hsub, fun hc => hys (hc hyL)⟩

/-- Building the initial heap pushes exactly one leaf node per item. -/
theorem pushAll_ms {α : Type} (weight : α → Int) :
    ∀ (items : List α) (acc : List (KKNode α)),
      ((items.foldl (fun h it => heappush h (.mk (-(weight it)) it [])) acc :
        List (KKNode α)) : Multiset (KKNode α)) =
      (acc : Multiset (KKNode α)) +
        (items.map (fun it => (.mk (-(weight it)) it [] : KKNode α)) : Multiset (KKNode α)) := by
  intro items
  induction items with
  | nil => intro acc; simp
  | cons it rest ih =>
      intro acc
      show ((rest.foldl _ (heappush acc (.mk (-(weight it)) it [])) : List (KKNode α)) :
        Multiset (KKNode α)) = _
      rw [ih, heappush_ms]
      show _ = _ + ((((.mk (-(weight it)) it [] : KKNode α)) :: rest.map _ : List (KKNode α)) :
        Multiset (KKNode α))
      rw [← Multiset.cons_coe, ← Multiset.singleton_add]
      abel

/-- Building the initial heap gives one entry per item. -/
theorem pushAll_len {α : Type} (weight : α → Int) :
    ∀ (items : List α) (acc : List (KKNode α)),
      (items.foldl (fun h it => heappush h (.mk (-(weight it)) it [])) acc).length =
        acc.length + items.length := by
  intro items
  induction items with
  | nil => intro acc; simp
  | cons it rest ih =>
      intro acc
      show (rest.foldl _ (heappush acc (.mk (-(weight it)) it [])) : List (KKNode α)).length = _
      rw [ih, heappush_length]
      simp
      omega

/-- The leaf nodes of the initial heap store exactly the input items. -/
theorem valsList_map_leaf {α : Type} (weight : α → Int) (items : List α) :
    KKNode.valsList (items.map (fun it => (.mk (-(weight it)) it [] : KKNode α))) = items := by
  induction items with
  | nil => rfl
  | cons it rest ih =>
      show it :: KKNode.valsList [] ++ _ = _
      rw [ih]
      rfl

/-- Unfolding of `karmarkar_karp_gen`. -/
theorem kk_gen_eq {α : Type} (weight : α → Int) (items : List α) :
    karmarkar_karp_gen weight items =
      (match kkLoop ((items.foldl (fun h it => heappush h (.mk (-(weight it)) it [])) []).length)
          (items.foldl (fun h it => heappush h (.mk (-(weight it)) it [])) []) with
      | [] => ([], [])
      | root :: _ => colorLoop root.size [(root, 0)] ([], [])) := rfl

/-- `balanced_coarse_graining` of a genuine multi-part partition is a
two-part partition of the same leaf set. -/
theorem bcg_partition {P : List (Finset ℕ)} {L : Finset ℕ}
    (hP : PartitionOf P L) (h2 : 2 ≤ P.length) :
    PartitionOf (balanced_coarse_graining P) L ∧
      (balanced_coarse_graining P).length = 2 := by
  have hbcg : balanced_coarse_graining P =
      [unionList (karmarkar_karp_sets P).1, unionList (karmarkar_karp_sets P).2] := rfl
  set heap0 : List (KKNode (Finset ℕ)) :=
    P.foldl (fun h it => heappush h (.mk (-((it.card : Int))) it [])) []
    with hheap0
  have hms : (heap0 : Multiset (KKNode (Finset ℕ))) =
      ((P.map (fun it => (.mk (-((it.card : Int))) it [] : KKNode (Finset ℕ))) :
        List (KKNode (Finset ℕ))) : Multiset (KKNode (Finset ℕ))) := by
    rw [hheap0, pushAll_ms (fun it => ((it : Finset ℕ).card : Int)) P []]
    simp
  have hlen : heap0.length = P.length := by
    rw [hheap0, pushAll_len (fun it => ((it : Finset ℕ).card : Int)) P []]
    simp
  obtain ⟨root, hkk, hch, hvals⟩ := kkLoop_spec heap0.length heap0 (by omega) (by omega)
  have hvalsP : ((KKNode.vals root : List (Finset ℕ)) : Multiset (Finset ℕ)) =
      (P : Multiset (Finset ℕ)) := by
    rw [hvals, valsList_congr hms, valsList_map_leaf]
  have hpr : karmarkar_karp_sets P = colorLoop root.size [(root, 0)] ([], []) := by
    show karmarkar_karp_gen (fun s => ((s : Finset ℕ).card : Int)) P = _
    rw [kk_gen_eq, ← hheap0, hkk]
  have hssz : stackSize [((root : KKNode (Finset ℕ)), 0)] = root.size := by
    simp [stackSize]
  have htot : ((karmarkar_karp_sets P).1 : Multiset (Finset ℕ)) +
      ((karmarkar_karp_sets P).2 : Multiset (Finset ℕ)) = (P : Multiset (Finset ℕ)) := by
    rw [hpr]
    have hct := colorLoop_total root.size [((root : KKNode (Finset ℕ)), 0)] [] []
      (by rw [hssz])
    rw [hct]
    have hsv : stackVals [((root : KKNode (Finset ℕ)), 0)] = KKNode.vals root := by
      show KKNode.vals root ++ [] = _
      simp
    rw [hsv, hvalsP]
    simp
  have hmem0 : root.value ∈ (karmarkar_karp_sets P).1 := by
    have hm := colorLoop_mem root.size [((root : KKNode (Finset ℕ)), 0)] [] []
      ((root : KKNode (Finset ℕ)), 0) (by rw [hssz]) (List.mem_cons_self _ _)
    rw [hpr]
    simpa using hm
  obtain ⟨ch, hchm⟩ := List.exists_mem_of_ne_nil root.children hch
  have hsz1 : root.size = KKNode.sizeList root.children + 1 := by
    rw [KKNode.size_eq]; omega
  have hstep2 : colorLoop root.size [((root : KKNode (Finset ℕ)), 0)] ([], []) =
      colorLoop (KKNode.sizeList root.children)
        (root.children.foldl (fun s c => (c, (0 + 1) % 2) :: s) []) ([root.value], []) := by
    rw [hsz1, colorLoop_step]
    simp
  have hmem1 : ch.value ∈ (karmarkar_karp_sets P).2 := by
    have hm := colorLoop_mem (KKNode.sizeList root.children)
      (root.children.foldl (fun s c => (c, (0 + 1) % 2) :: s) []) [root.value] []
      (ch, (0 + 1) % 2)
      (by rw [stackSize_foldl]; simp [stackSize])
      (mem_foldl_stack2 root.children ((0 + 1) % 2) [] ch hchm)
    rw [hpr, hstep2]
    simpa using hm
  have hsubP : ∀ s : Finset ℕ,
      s ∈ (karmarkar_karp_sets P).1 ∨ s ∈ (karmarkar_karp_sets P).2 → s ∈ P := by
    intro s hs
    have hsm : s ∈ (P : Multiset (Finset ℕ)) := by
      rw [← htot]
      rcases hs with h | h
      · exact Multiset.mem_add.mpr (Or.inl (by exact_mod_cast h))
      · exact Multiset.mem_add.mpr (Or.inr (by exact_mod_cast h))
    exact_mod_cast hsm
  obtain ⟨hne, hdis, huni⟩ := hP
  have hnodup : P.Nodup := PartitionOf.nodup ⟨hne, hdis, huni⟩
  have hnotboth : ∀ s : Finset ℕ,
      s ∈ (karmarkar_karp_sets P).1 → s ∈ (karmarkar_karp_sets P).2 → False := by
    intro s hs1 hs2
    have hc : 2 ≤ Multiset.count s ((P : Multiset (Finset ℕ))) := by
      rw [← htot, Multiset.count_add]
      have c1 : 1 ≤ Multiset.count s ((karmarkar_karp_sets P).1 : Multiset (Finset ℕ)) := by
        rw [Multiset.coe_count]
        exact List.count_pos_iff_mem.mpr hs1
      have c2 : 1 ≤ Multiset.count s ((karmarkar_karp_sets P).2 : Multiset (Finset ℕ)) := by
        rw [Multiset.coe_count]
        exact List.count_pos_iff_mem.mpr hs2
      omega
    rw [Multiset.coe_count] at hc
    have hcle := List.nodup_iff_count_le_one.mp hnodup s
    omega
  refine ⟨⟨?_, ?_, ?_⟩, by rw [hbcg]; rfl⟩
  · intro s hs
    rw [hbcg] at hs
    have hval0 : root.value ∈ P := hsubP _ (Or.inl hmem0)
    have hval1 : ch.value ∈ P := hsubP _ (Or.inr hmem1)
    rcases List.mem_cons.mp hs with rfl | hs2
    · obtain ⟨x, hx⟩ := Finset.nonempty_iff_ne_empty.mpr (hne _ hval0)
      intro hc
      rw [Finset.eq_empty_iff_forall_not_mem] at hc
      exact hc x ((mem_unionList _ x).mpr ⟨root.value, hmem0, hx⟩)
    · rcases List.mem_cons.mp hs2 with rfl | hs3
      · obtain ⟨x, hx⟩ := Finset.nonempty_iff_ne_empty.mpr (hne _ hval1)
        intro hc
        rw [Finset.eq_empty_iff_forall_not_mem] at hc
        exact hc x ((mem_unionList _ x).mpr ⟨ch.value, hmem1, hx⟩)
      · simp at hs3
  · rw [hbcg]
    refine List.pairwise_cons.mpr ⟨?_, List.pairwise_cons.mpr ⟨by simp, List.Pairwise.nil⟩⟩
    intro t ht
    rcases List.mem_cons.mp ht with rfl | ht2
    · rw [Finset.disjoint_left]
      intro x hx0 hx1
      obtain ⟨s, hsmem, hsx⟩ := (mem_unionList _ x).mp hx0
      obtain ⟨t, htmem, htx⟩ := (mem_unionList _ x).mp hx1
      by_cases hst : s = t
      · subst hst
        exact hnotboth s hsmem htmem
      · exact Finset.disjoint_left.mp
          (pairwise_disjoint_mem hdis (hsubP s (Or.inl hsmem)) (hsubP t (Or.inr htmem)) hst)
          hsx htx
    · simp at ht2
  · rw [hbcg]
    ext x
    have hshape : unionList [unionList (karmarkar_karp_sets P).1,
        unionList (karmarkar_karp_sets P).2] =
        unionList (karmarkar_karp_sets P).1 ∪ (unionList (karmarkar_karp_sets P).2 ∪ ∅) := rfl
    rw [hshape, ← huni]
    simp only [Finset.union_empty, Finset.mem_union, mem_unionList]
    constructor
    · rintro (⟨s, hs, hx⟩ | ⟨s, hs, hx⟩)
      · exact ⟨s, hsubP s (Or.inl hs), hx⟩
      · exact ⟨s, hsubP s (Or.inr hs), hx⟩
    · rintro ⟨s, hs, hx⟩
      have hsm : s ∈ (P : Multiset (Finset ℕ)) := by exact_mod_cast hs
      rw [← htot, Multiset.mem_add] at hsm
      rcases hsm with h | h
      · exact Or.inl ⟨s, by exact_mod_cast h, hx⟩
      · exact Or.inr ⟨s, by exact_mod_cast h, hx⟩

/-- One-step unfolding of `mttFix`. -/
theorem mttFix_succ (F : List Triple) (fuel : ℕ) (P : List (Finset ℕ)) :
    mttFix F (fuel + 1) P =
      (match F.find? (fun t => violatedB P t) with
      | none => P
      | some t => mttFix F fuel (merge_blocks P t.1 t.2.2)) := rfl

/-- The fix-up loop of the MTT reduction preserves the partition
invariant. -/
theorem mttFix_partition (F : List Triple) :
    ∀ (fuel : ℕ) {P : List (Finset ℕ)} {L : Finset ℕ},
      PartitionOf P L → PartitionOf (mttFix F fuel P) L := by
  intro fuel
  induction fuel with
  | zero => intro P L h; exact h
  | succ fuel ih =>
      intro P L h
      rw [mttFix_succ]
      split
      · exact h
      · exact ih (merge_blocks_partition _ _ h)

/-- `mtt_partition` always returns a partition of the leaf set. -/
theorem mtt_partition_partition (L : Finset ℕ) (R F : List Triple) :
    PartitionOf (mtt_partition L R F) L :=
  mttFix_partition F _ (connected_components_partition L _)

/-- The optional balanced coarse graining keeps the split a genuine
partition. -/
theorem part1_partition (cfg : BuildConfig) {p : List (Finset ℕ)} {L : Finset ℕ}
    (hp : PartitionOf p L) (h2 : 2 ≤ p.length) :
    PartitionOf
        (if cfg.binarize = BinMode.balanced ∧ 2 < p.length
          then balanced_coarse_graining p else p) L ∧
      2 ≤ (if cfg.binarize = BinMode.balanced ∧ 2 < p.length
          then balanced_coarse_graining p else p).length := by
  split
  · exact ⟨(bcg_partition hp h2).1, by rw [(bcg_partition hp h2).2]⟩
  · exact ⟨hp, h2⟩

/-- If no recursive call runs out of fuel, neither does the loop over the
parts. -/
theorem buildParts_no_fuelOut
    (recurse : Finset ℕ → List Triple → List Triple → BuildResult × ℚ)
    (R F : List Triple) :
    ∀ (parts : List (Finset ℕ)),
      (∀ s ∈ parts,
        (recurse s (restrictTriples s R) (restrictTriples s F)).1 ≠ .fuelOut) →
      (buildParts recurse R F parts).1 ≠ .fuelOut := by
  intro parts
  induction parts with
  | nil => intro _ hc; exact absurd hc (by simp [buildParts])
  | cons s rest ih =>
      intro h
      have hs := h s (List.mem_cons_self _ _)
      have hrest := ih (fun t ht => h t (List.mem_cons_of_mem _ ht))
      simp only [buildParts]
      split
      · next t q heq =>
          split
          · simp
          · simp
          · next q2 heq2 =>
              rw [heq2] at hrest
              exact absurd rfl hrest
      · simp
      · next q heq =>
          rw [heq] at hs
          exact absurd rfl hs

/-- One-step unfolding of `ahoFuel`. -/
theorem ahoFuel_succ (cfg : BuildConfig) (fuel : ℕ) (L : Finset ℕ)
    (R : List Triple) :
    ahoFuel cfg (fuel + 1) L R =
      ((if L.card ≤ 2 then
        match (trivial_case L).1 with
        | some t => (.tree t, 0)
        | none => (.fail, 0)
      else
        let part0 := connected_components L (aho_graph_edges R L)
        if part0.length < 2 ∧ ¬ cfg.allow_inconsistency then (.fail, 0)
        else
          let op := if part0.length < 2 then cfg.strat L R [] else (0, part0)
          let part1 :=
            if cfg.binarize = .balanced ∧ 2 < op.2.length
            then balanced_coarse_graining op.2 else op.2
          match buildParts (fun Li Ri _ => ahoFuel cfg fuel Li Ri) R [] part1 with
          | (.ok ts, q2) =>
              (.tree (.mk none (if cfg.binarize = .caterpillar then catAssemble ts else ts)),
                op.1 + q2)
          | (.fail, q2) => (.fail, op.1 + q2)
          | (.fuelOut, q2) => (.fuelOut, op.1 + q2)) : BuildResult × ℚ) := rfl

/-- One-step unfolding of `mttFuel`. -/
theorem mttFuel_succ (cfg : BuildConfig) (fuel : ℕ) (L : Finset ℕ)
    (R F : List Triple) :
    mttFuel cfg (fuel + 1) L R F =
      ((if L.card ≤ 2 then
        match (trivial_case L).1 with
        | some t => (.tree t, 0)
        | none => (.fail, 0)
      else
        let part0 := mtt_partition L R F
        if part0.length < 2 ∧ ¬ cfg.allow_inconsistency then (.fail, 0)
        else
          let op := if part0.length < 2 then cfg.strat L R F else (0, part0)
          let part1 :=
            if cfg.binarize = .balanced ∧ 2 < op.2.length
            then balanced_coarse_graining op.2 else op.2
          match buildParts (fun Li Ri Fi => mttFuel cfg fuel Li Ri Fi) R F part1 with
          | (.ok ts, q2) =>
              (.tree (.mk none (if cfg.binarize = .caterpillar then catAssemble ts else ts)),
                op.1 + q2)
          | (.fail, q2) => (.fail, op.1 + q2)
          | (.fuelOut, q2) => (.fuelOut, op.1 + q2)) : BuildResult × ℚ) := rfl

/-- C9: the recursive tree builder terminates for every input — provided the
partitioning strategy returns a genuine split (at least 2 non-empty parts
partitioning the leaf set) whenever it is invoked, each recursive call
strictly reduces the leaf count, so recursion depth is bounded by the
initial number of leaves: with any fuel exceeding the leaf count, neither
`_aho` nor `_mtt` ever runs out of fuel. -/
theorem C9_thm (cfg : BuildConfig)
    (hstrat : ∀ (Lp : Finset ℕ) (Rp Fp : List Triple), 3 ≤ Lp.card →
      PartitionOf (cfg.strat Lp Rp Fp).2 Lp ∧ 2 ≤ (cfg.strat Lp Rp Fp).2.length)
    (fuel : ℕ) (L : Finset ℕ) (R F : List Triple) (hfuel : L.card < fuel) :
    (ahoFuel cfg fuel L R).1 ≠ .fuelOut ∧ (mttFuel cfg fuel L R F).1 ≠ .fuelOut := by
  induction fuel generalizing L R F with
  | zero => omega
  | succ fuel ih =>
      constructor
      · by_cases hL : L.card ≤ 2
        · rw [ahoFuel_succ, if_pos hL]
          split <;> simp
        · rw [ahoFuel_succ, if_neg hL]
          dsimp only
          by_cases hc : ((connected_components L (aho_graph_edges R L)).length < 2 ∧
              ¬ cfg.allow_inconsistency)
          · rw [if_pos hc]
            simp
          · rw [if_neg hc]
            set part0 := connected_components L (aho_graph_edges R L) with hp0
            set op := (if part0.length < 2 then cfg.strat L R []
                else ((0 : ℚ), part0)) with hopd
            set part1 := (if cfg.binarize = BinMode.balanced ∧ 2 < op.2.length
                then balanced_coarse_graining op.2 else op.2) with hp1
            have hpart0 : PartitionOf part0 L := connected_components_partition L _
            have hopv : PartitionOf op.2 L ∧ 2 ≤ op.2.length := by
              by_cases hlt : part0.length < 2
              · rw [hopd, if_pos hlt]
                exact hstrat L R [] (by omega)
              · rw [hopd, if_neg hlt]
                exact ⟨hpart0, by show 2 ≤ part0.length; omega⟩
            have hpart1 : PartitionOf part1 L ∧ 2 ≤ part1.length := by
              rw [hp1]
              exact part1_partition cfg hopv.1 hopv.2
            have key : (buildParts (fun Li Ri _ => ahoFuel cfg fuel Li Ri)
                R [] part1).1 ≠ .fuelOut := by
              apply buildParts_no_fuelOut
              intro s hs
              have hlt := part_card_lt hpart1.1 hpart1.2 hs
              exact (ih s (restrictTriples s R) (restrictTriples s []) (by omega)).1
            split
            · simp
            · simp
            · next q2 heq =>
                rw [heq] at key
                exact absurd rfl key
      · by_cases hL : L.card ≤ 2
        · rw [mttFuel_succ, if_pos hL]
          split <;> simp
        · rw [mttFuel_succ, if_neg hL]
          dsimp only
          by_cases hc : ((mtt_partition L R F).length < 2 ∧
              ¬ cfg.allow_inconsistency)
          · rw [if_pos hc]
            simp
          · rw [if_neg hc]
            set part0 := mtt_partition L R F with hp0
            set op := (if part0.length < 2 then cfg.strat L R F
                else ((0 : ℚ), part0)) with hopd
            set part1 := (if cfg.binarize = BinMode.balanced ∧ 2 < op.2.length
                then balanced_coarse_graining op.2 else op.2) with hp1
            have hpart0 : PartitionOf part0 L := mtt_partition_partition L R F
            have hopv : PartitionOf op.2 L ∧ 2 ≤ op.2.length := by
              by_cases hlt : part0.length < 2
              · rw [hopd, if_pos hlt]
                exact hstrat L R F (by omega)
              · rw [hopd, if_neg hlt]
                exact ⟨hpart0, by show 2 ≤ part0.length; omega⟩
            have hpart1 : PartitionOf part1 L ∧ 2 ≤ part1.length := by
              rw [hp1]
              exact part1_partition cfg hopv.1 hopv.2
            have key : (buildParts (fun Li Ri Fi => mttFuel cfg fuel Li Ri Fi)
                R F part1).1 ≠ .fuelOut := by
              apply buildParts_no_fuelOut
              intro s hs
              have hlt := part_card_lt hpart1.1 hpart1.2 hs
              exact (ih s (restrictTriples s R) (restrictTriples s F) (by omega)).2
            split
            · simp
            · simp
            · next q2 heq =>
                rw [heq] at key
                exact absurd rfl key

/-- Witness for C9: concrete run with the singleton-split strategy on a
three-leaf set. -/
theorem C9_wit :
    (ahoFuel ⟨.off, false,
        fun Lp _ _ => ((0 : ℚ), (ascList Lp).map (fun a => ({a} : Finset ℕ)))⟩
      4 {1, 2, 3} []).1 ≠ .fuelOut ∧
    (mttFuel ⟨.off, false,
        fun Lp _ _ => ((0 : ℚ), (ascList Lp).map (fun a => ({a} : Finset ℕ)))⟩
      4 {1, 2, 3} [] []).1 ≠ .fuelOut :=
  C9_thm _
    (fun Lp Rp Fp h3 =>
      ⟨singletons_partition Lp, by
        show 2 ≤ ((ascList Lp).map (fun a => ({a} : Finset ℕ))).length
        rw [List.length_map, ascList_length]
        omega⟩)
    4 {1, 2, 3} [] [] (by decide)

/-- `binaryAll` is `binaryB` for every member. -/
theorem binaryAll_iff (ts : List TreeNode) :
    TreeNode.binaryAll ts = true ↔ ∀ t ∈ ts, TreeNode.binaryB t = true := by
  induction ts with
  | nil => simp [TreeNode.binaryAll]
  | cons t rest ih => simp [TreeNode.binaryAll, ih]

/-- A successful loop over the parts returns one subtree per part, each
produced by the corresponding recursive call. -/
theorem buildParts_ok
    (recurse : Finset ℕ → List Triple → List Triple → BuildResult × ℚ)
    (R F : List Triple) :
    ∀ (parts : List (Finset ℕ)) (ts : List TreeNode) (q : ℚ),
      buildParts recurse R F parts = (.ok ts, q) →
      ts.length = parts.length ∧
        ∀ t ∈ ts, ∃ s q', s ∈ parts ∧
          recurse s (restrictTriples s R) (restrictTriples s F) = (.tree t, q') := by
  intro parts
  induction parts with
  | nil =>
      intro ts q h
      simp only [buildParts] at h
      injection h with h1 h2
      injection h1 with h1
      subst h1
      exact ⟨rfl, by simp⟩
  | cons s rest ih =>
      intro ts q h
      simp only [buildParts] at h
      split at h
      · next t q1 heq1 =>
          split at h
          · next ts2 q2 heq2 =>
              injection h with hts hq
              obtain ⟨hlen, hmem⟩ := ih ts2 q2 heq2
              injection hts with hts
              subst hts
              refine ⟨by simp [hlen], ?_⟩
              intro t0 ht0
              rcases List.mem_cons.mp ht0 with rfl | ht02
              · exact ⟨s, q1, List.mem_cons_self _ _, heq1⟩
              · obtain ⟨s', q', hs', heq'⟩ := hmem t0 ht02
                exact ⟨s', q', List.mem_cons_of_mem _ hs', heq'⟩
          · simp at h
          · simp at h
      · simp at h
      · simp at h

/-- The caterpillar assembly of at least two binary subtrees yields exactly
two children, all binary. -/
theorem catAssemble_spec :
    ∀ (ts : List TreeNode), 2 ≤ ts.length → TreeNode.binaryAll ts = true →
      (catAssemble ts).length = 2 ∧ TreeNode.binaryAll (catAssemble ts) = true := by
  intro ts
  induction ts with
  | nil => intro h2 _; simp at h2
  | cons t1 rest ih =>
      intro h2 hall
      rcases rest with _ | ⟨t2, rest2⟩
      · simp at h2
      · rcases rest2 with _ | ⟨t3, rest3⟩
        · exact ⟨rfl, hall⟩
        · have hstep : catAssemble (t1 :: t2 :: t3 :: rest3) =
              [t1, .mk none (catAssemble (t2 :: t3 :: rest3))] := rfl
          rw [hstep]
          have hall2 : TreeNode.binaryAll (t2 :: t3 :: rest3) = true := by
            rw [binaryAll_iff] at hall ⊢
            exact fun t ht => hall t (List.mem_cons_of_mem _ ht)
          have hb1 : TreeNode.binaryB t1 = true :=
            (binaryAll_iff _).mp hall t1 (List.mem_cons_self _ _)
          obtain ⟨hl, hb⟩ := ih (by simp) hall2
          refine ⟨rfl, ?_⟩
          rw [binaryAll_iff]
          intro t ht
          rcases List.mem_cons.mp ht with rfl | ht2
          · exact hb1
          · rcases List.mem_cons.mp ht2 with rfl | ht3
            · simp [TreeNode.binaryB, hl, hb]
            · simp at ht3

/-- The trivial case only produces binary trees. -/
theorem trivial_case_binary (L : Finset ℕ) (t : TreeNode)
    (h : (trivial_case L).1 = some t) : TreeNode.binaryB t = true := by
  unfold trivial_case at h
  split at h
  · injection h with h
    subst h
    rfl
  · injection h with h
    subst h
    rfl
  · simp at h

/-- C7: when a binarization mode (caterpillar or balanced) is requested and
the build succeeds — the partitioning strategy returning at least 2 parts
whenever invoked — every internal node of the returned tree has exactly 2
children: the result is a binary tree. -/
theorem C7_thm (cfg : BuildConfig) (hbin : cfg.binarize ≠ BinMode.off)
    (hstrat : ∀ (Lp : Finset ℕ) (Rp Fp : List Triple), 3 ≤ Lp.card →
      2 ≤ (cfg.strat Lp Rp Fp).2.length)
    (fuel : ℕ) (L : Finset ℕ) (R F : List Triple) (t : TreeNode)
    (h : (ahoFuel cfg fuel L R).1 = .tree t ∨ (mttFuel cfg fuel L R F).1 = .tree t) :
    TreeNode.binaryB t = true := by
  induction fuel generalizing L R F t with
  | zero => rcases h with h | h <;> simp [ahoFuel, mttFuel] at h
  | succ fuel ih =>
      rcases h with h | h
      · rw [ahoFuel_succ] at h
        by_cases hL : L.card ≤ 2
        · rw [if_pos hL] at h
          split at h
          · next t0 heq =>
              injection h with h
              subst h
              exact trivial_case_binary L t0 heq
          · simp at h
        · rw [if_neg hL] at h
          dsimp only at h
          by_cases hc : ((connected_components L (aho_graph_edges R L)).length < 2 ∧
              ¬ cfg.allow_inconsistency)
          · rw [if_pos hc] at h
            simp at h
          · rw [if_neg hc] at h
            set part0 := connected_components L (aho_graph_edges R L) with hp0
            set op := (if part0.length < 2 then cfg.strat L R []
                else ((0 : ℚ), part0)) with hopd
            set part1 := (if cfg.binarize = BinMode.balanced ∧ 2 < op.2.length
                then balanced_coarse_graining op.2 else op.2) with hp1def
            have hop2 : 2 ≤ op.2.length := by
              by_cases hlt : part0.length < 2
              · rw [hopd, if_pos hlt]
                exact hstrat L R [] (by omega)
              · rw [hopd, if_neg hlt]
                show 2 ≤ part0.length
                omega
            have hp1 : 2 ≤ part1.length := by
              rw [hp1def]
              split
              · simp [balanced_coarse_graining]
              · exact hop2
            have hp1bal : cfg.binarize = BinMode.balanced → part1.length = 2 := by
              intro hbb
              rw [hp1def]
              split
              · rfl
              · next hcond =>
                  have h3 : ¬ 2 < op.2.length := fun hgt => hcond ⟨hbb, hgt⟩
                  show op.2.length = 2
                  omega
            split at h
            · next ts q2 heq =>
                injection h with h
                subst h
                obtain ⟨hts, hmem⟩ := buildParts_ok _ _ _ _ _ _ heq
                have hall : TreeNode.binaryAll ts = true := by
                  rw [binaryAll_iff]
                  intro t' ht'
                  obtain ⟨s, q', hs', heq'⟩ := hmem t' ht'
                  exact ih s (restrictTriples s R) [] t'
                    (Or.inl (by simpa using congrArg Prod.fst heq'))
                by_cases hcat : cfg.binarize = BinMode.caterpillar
                · rw [if_pos hcat]
                  obtain ⟨hl2, hball⟩ := catAssemble_spec ts (by omega) hall
                  simp [TreeNode.binaryB, hl2, hball]
                · rw [if_neg hcat]
                  have hbb : cfg.binarize = BinMode.balanced := by
                    cases hcb : cfg.binarize
                    · exact absurd hcb hbin
                    · rfl
                    · exact absurd hcb hcat
                  have hts2 : ts.length = 2 := by rw [hts]; exact hp1bal hbb
                  simp [TreeNode.binaryB, hts2, hall]
            · simp at h
            · simp at h
      · rw [mttFuel_succ] at h
        by_cases hL : L.card ≤ 2
        · rw [if_pos hL] at h
          split at h
          · next t0 heq =>
              injection h with h
              subst h
              exact trivial_case_binary L t0 heq
          · simp at h
        · rw [if_neg hL] at h
          dsimp only at h
          by_cases hc : ((mtt_partition L R F).length < 2 ∧
              ¬ cfg.allow_inconsistency)
          · rw [if_pos hc] at h
            simp at h
          · rw [if_neg hc] at h
            set part0 := mtt_partition L R F with hp0
            set op := (if part0.length < 2 then cfg.strat L R F
                else ((0 : ℚ), part0)) with hopd
            set part1 := (if cfg.binarize = BinMode.balanced ∧ 2 < op.2.length
                then balanced_coarse_graining op.2 else op.2) with hp1def
            have hop2 : 2 ≤ op.2.length := by
              by_cases hlt : part0.length < 2
              · rw [hopd, if_pos hlt]
                exact hstrat L R F (by omega)
              · rw [hopd, if_neg hlt]
                show 2 ≤ part0.length
                omega
            have hp1 : 2 ≤ part1.length := by
              rw [hp1def]
              split
              · simp [balanced_coarse_graining]
              · exact hop2
            have hp1bal : cfg.binarize = BinMode.balanced → part1.length = 2 := by
              intro hbb
              rw [hp1def]
              split
              · rfl
              · next hcond =>
                  have h3 : ¬ 2 < op.2.length := fun hgt => hcond ⟨hbb, hgt⟩
                  show op.2.length = 2
                  omega
            split at h
            · next ts q2 heq =>
                injection h with h
                subst h
                obtain ⟨hts, hmem⟩ := buildParts_ok _ _ _ _ _ _ heq
                have hall : TreeNode.binaryAll ts = true := by
                  rw [binaryAll_iff]
                  intro t' ht'
                  obtain ⟨s, q', hs', heq'⟩ := hmem t' ht'
                  exact ih s (restrictTriples s R) (restrictTriples s F) t'
                    (Or.inr (by simpa using congrArg Prod.fst heq'))
                by_cases hcat : cfg.binarize = BinMode.caterpillar
                · rw [if_pos hcat]
                  obtain ⟨hl2, hball⟩ := catAssemble_spec ts (by omega) hall
                  simp [TreeNode.binaryB, hl2, hball]
                · rw [if_neg hcat]
                  have hbb : cfg.binarize = BinMode.balanced := by
                    cases hcb : cfg.binarize
                    · exact absurd hcb hbin
                    · rfl
                    · exact absurd hcb hcat
                  have hts2 : ts.length = 2 := by rw [hts]; exact hp1bal hbb
                  simp [TreeNode.binaryB, hts2, hall]
            · simp at h
            · simp at h

/-- Witness for C7: a two-leaf build with caterpillar binarization yields
the binary cherry. -/
theorem C7_wit :
    TreeNode.binaryB (.mk none [.mk (some 1) [], .mk (some 2) []]) = true :=
  C7_thm
    ⟨.caterpillar, false,
      fun Lp _ _ => ((0 : ℚ), (ascList Lp).map (fun a => ({a} : Finset ℕ)))⟩
    (by decide)
    (fun Lp Rp Fp h3 => by
      show 2 ≤ ((ascList Lp).map (fun a => ({a} : Finset ℕ))).length
      rw [List.length_map, ascList_length]
      omega)
    1 {1, 2} [] [] _ (Or.inl (by decide))

/-- C5 (amended): the bipartition strategies with an explicit degenerate
check — `greedy_bipartition`, `gradient_walk_bipartition`, the `mincut`
(Stoer–Wagner) call and the Karger generator — reject fewer than 2 leaves
with a descriptive error. -/
theorem C5_thm :
    (∀ (V : Finset ℕ) (f : List (Finset ℕ) → ℚ) (minimize : Bool) (choice : ℕ → ℕ),
      V.card < 2 →
        greedy_bipartition V f minimize choice =
          .error "iterable must have >=2 elements") ∧
    (∀ (V : Finset ℕ) (f : List (Finset ℕ) → ℚ) (minimize : Bool) (order : List ℕ)
        (initial : Option (List (Finset ℕ))) (choice : ℕ → ℕ) (fuel : ℕ),
      V.card < 2 →
        gradient_walk_bipartition V f minimize order initial choice fuel =
          .error "iterable must have >=2 elements") ∧
    (∀ (V : Finset ℕ) (w : ℕ → ℕ → ℚ),
      V.card < 2 → stoer_wagner V w = .error "graph has less than two nodes") ∧
    (∀ (pick : ℕ → ℕ → ℕ × ℕ) (runs : ℕ) (V : Finset ℕ),
      V.card < 2 → Karger_generate pick runs V = .error "graph has less than two nodes") := by
  refine ⟨?_, ?_, ?_, ?_⟩
  · intro V f minimize choice h
    simp only [greedy_bipartition, if_pos h]
  · intro V f minimize order initial choice fuel h
    simp only [gradient_walk_bipartition, if_pos h]
  · intro V w h
    simp only [stoer_wagner, if_pos h]
  · intro pick runs V h
    simp only [Karger_generate, if_pos h]

/-- Counterexample for C5: the Louvain-with-custom-objective strategy
accepts a single-leaf input and reports a trivial one-part "partition" as a
success; the plain Louvain strategy dies with an undescriptive `TypeError`;
and `build_tree` on an empty leaf set returns a root-less `Tree` without
raising any error. -/
theorem C5_cex :
    partitionDispatch ∅ "louvain_obj" (fun P => (P.length : ℚ)) true ⟨[], []⟩ 1
        ⟨fun _ _ => 0, fun _ => [], fun _ _ => (0, 0), fun _ _ s => s⟩ 0 0 1 =
      .ok (0, []) ∧
    partitionDispatch {7} "louvain" (fun P => (P.length : ℚ)) true ⟨[7], []⟩ 1
        ⟨fun _ _ => 0, fun _ => [], fun _ _ => (0, 0), fun _ _ s => s⟩ 0 0 1 =
      .error "TypeError: NoneType and float comparison" ∧
    (build_tree cfgNoInc 1 false ⟨[], ∅, [], 0⟩).1 = .asTree .fail := by
  refine ⟨by decide, by decide, rfl⟩

/-- A fold that either keeps the accumulator or adopts the current element
ends on `some b` only if `b` was the start value or a member. -/
theorem foldl_best_mem {α : Type} (step : Option α → α → Option α)
    (hstep : ∀ acc a, step acc a = acc ∨ step acc a = some a) :
    ∀ (l : List α) (acc : Option α) (b : α),
      l.foldl step acc = some b → acc = some b ∨ b ∈ l := by
  intro l
  induction l with
  | nil => intro acc b h; exact Or.inl h
  | cons a rest ih =>
      intro acc b h
      rcases ih (step acc a) b h with h1 | h1
      · rcases hstep acc a with h2 | h2
        · exact Or.inl (h2 ▸ h1)
        · rw [h2] at h1
          injection h1 with h1
          exact Or.inr (h1 ▸ List.mem_cons_self _ _)
      · exact Or.inr (List.mem_cons_of_mem _ h1)

/-- A proper non-empty subset and its complement form a two-part partition. -/
theorem sdiff_partition (V S : Finset ℕ) (hsub : S ⊆ V) (hne : S ≠ ∅)
    (hneV : S ≠ V) : PartitionOf [S, V \ S] V := by
  refine ⟨?_, ?_, ?_⟩
  · intro s hs
    rcases List.mem_cons.mp hs with rfl | hs2
    · exact hne
    · rcases List.mem_cons.mp hs2 with rfl | hs3
      · intro hc
        rw [Finset.sdiff_eq_empty_iff_subset] at hc
        exact hneV (Finset.Subset.antisymm hsub hc)
      · simp at hs3
  · refine List.pairwise_cons.mpr ⟨?_, List.pairwise_cons.mpr ⟨by simp, List.Pairwise.nil⟩⟩
    intro t ht
    rcases List.mem_cons.mp ht with rfl | ht2
    · exact Finset.disjoint_sdiff
    · simp at ht2
  · show S ∪ (V \ S ∪ ∅) = V
    rw [Finset.union_empty, Finset.union_sdiff_of_subset hsub]

/-- Members of the sweep's best-candidates list were folded over. -/
theorem greedyInner_mem (f : List (Finset ℕ) → ℚ) (minimize : Bool)
    (V1 V2 : Finset ℕ) :
    ∀ (l : List ℕ) (acc : Option ℚ × List ℕ) (x : ℕ),
      x ∈ (List.foldl
        (fun acc x =>
          let obj := f [insert x V1, V2.erase x]
          if betterQ minimize obj acc.1 then (some obj, [x])
          else if some obj = acc.1 then (acc.1, acc.2 ++ [x])
          else acc) acc l).2 →
      x ∈ acc.2 ∨ x ∈ l := by
  intro l
  induction l with
  | nil => intro acc x h; exact Or.inl h
  | cons a rest ih =>
      intro acc x h
      rcases ih _ x h with h1 | h1
      · dsimp only at h1
        split at h1
        · simp at h1
          exact Or.inr (h1 ▸ List.mem_cons_self _ _)
        · split at h1
          · rcases List.mem_append.mp h1 with h2 | h2
            · exact Or.inl h2
            · simp at h2
              exact Or.inr (h2 ▸ List.mem_cons_self _ _)
          · exact Or.inl h1
      · exact Or.inr (List.mem_cons_of_mem _ h1)

/-- Every bipartition snapshot recorded by the greedy sweep loop is a genuine
two-sided split of `V`: both sides non-empty, disjoint, with union `V`. -/
theorem greedyLoop_good (f : List (Finset ℕ) → ℚ) (minimize : Bool)
    (choice : ℕ → ℕ) (V : Finset ℕ) :
    ∀ (n : ℕ) (V1 V2 rem : Finset ℕ) (k : ℕ) (bo : Option ℚ)
      (bbp : List (Finset ℕ × Finset ℕ)) (k' : ℕ) (bo' : Option ℚ)
      (bbp' : List (Finset ℕ × Finset ℕ)),
      V1 ∪ V2 = V → Disjoint V1 V2 → rem ⊆ V2 → V2.card = n + 1 →
      (∀ p ∈ bbp, p.1 ≠ ∅ ∧ p.2 ≠ ∅ ∧ Disjoint p.1 p.2 ∧ p.1 ∪ p.2 = V) →
      greedyLoop f minimize choice n (V1, V2, rem) k (bo, bbp) =
        some (k', bo', bbp') →
      ∀ p ∈ bbp', p.1 ≠ ∅ ∧ p.2 ≠ ∅ ∧ Disjoint p.1 p.2 ∧ p.1 ∪ p.2 = V := by
  intro n
  induction n with
  | zero =>
      intro V1 V2 rem k bo bbp k' bo' bbp' _ _ _ _ hbbp h
      simp only [greedyLoop] at h
      injection h with h
      injection h with h1 h
      injection h with h2 h3
      subst h3
      exact hbbp
  | succ n ih =>
      intro V1 V2 rem k bo bbp k' bo' bbp' hu hd hrem hcard hbbp h
      simp only [greedyLoop] at h
      split at h
      · exact absurd h (by simp)
      · next x hx =>
          have hxloc : x ∈ (greedyInner f minimize V1 V2 (ascList rem)).2 :=
            List.get?_mem hx
          have hxl : x ∈ ascList rem := by
            rcases greedyInner_mem f minimize V1 V2 (ascList rem) (none, []) x
              (by exact hxloc) with h1 | h1
            · simp at h1
            · exact h1
          have hxrem : x ∈ rem := (mem_ascList rem x).mp hxl
          have hxV2 : x ∈ V2 := hrem hxrem
          have hxV1 : x ∉ V1 := Finset.disjoint_right.mp hd hxV2
          have hu' : insert x V1 ∪ V2.erase x = V := by
            rw [← hu]
            ext z
            simp only [Finset.mem_union, Finset.mem_insert, Finset.mem_erase]
            constructor
            · rintro ((rfl | hz) | ⟨-, hz⟩)
              · exact Or.inr hxV2
              · exact Or.inl hz
              · exact Or.inr hz
            · rintro (hz | hz)
              · exact Or.inl (Or.inr hz)
              · by_cases hzx : z = x
                · exact Or.inl (Or.inl hzx)
                · exact Or.inr ⟨hzx, hz⟩
          have hd' : Disjoint (insert x V1) (V2.erase x) := by
            rw [Finset.disjoint_left]
            intro z hz1 hz2
            rw [Finset.mem_insert] at hz1
            rw [Finset.mem_erase] at hz2
            rcases hz1 with rfl | hz1
            · exact hz2.1 rfl
            · exact Finset.disjoint_left.mp hd hz1 hz2.2
          have hrem' : rem.erase x ⊆ V2.erase x :=
            fun z hz => Finset.mem_erase.mpr
              ⟨(Finset.mem_erase.mp hz).1, hrem (Finset.mem_erase.mp hz).2⟩
          have hcard' : (V2.erase x).card = n + 1 := by
            rw [Finset.card_erase_of_mem hxV2, hcard]
            omega
          have hgood : (insert x V1 : Finset ℕ) ≠ ∅ ∧ V2.erase x ≠ ∅ ∧
              Disjoint (insert x V1) (V2.erase x) ∧ insert x V1 ∪ V2.erase x = V := by
            refine ⟨by simp, ?_, hd', hu'⟩
            intro hc
            have := Finset.card_eq_zero.mpr hc
            omega
          split at h
          · refine ih _ _ _ _ _ _ _ _ _ hu' hd' hrem' hcard' ?_ h
            intro p hp
            simp at hp
            subst hp
            exact hgood
          · split at h
            · refine ih _ _ _ _ _ _ _ _ _ hu' hd' hrem' hcard' ?_ h
              intro p hp
              rcases List.mem_append.mp hp with hp1 | hp1
              · exact hbbp p hp1
              · simp at hp1
                subst hp1
                exact hgood
            · exact ih _ _ _ _ _ _ _ _ _ hu' hd' hrem' hcard' hbbp h

/-- `unionList` only depends on the multiset of parts. -/
theorem unionList_perm {l1 l2 : List (Finset ℕ)} (h : l1.Perm l2) :
    unionList l1 = unionList l2 := by
  induction h with
  | nil => rfl
  | cons a _ ih =>
      show a ∪ unionList _ = a ∪ unionList _
      rw [ih]
  | swap a b t =>
      show b ∪ (a ∪ unionList t) = a ∪ (b ∪ unionList t)
      rw [← Finset.union_assoc, Finset.union_comm b a, Finset.union_assoc]
  | trans _ _ ih1 ih2 => rw [ih1, ih2]

/-- Removing the entry at a valid index splits the multiset of a list. -/
theorem eraseIdx_cons_ms {α : Type} :
    ∀ (l : List α) (n : ℕ) (a : α), l.get? n = some a →
      (l : Multiset α) = a ::ₘ ((l.eraseIdx n : List α) : Multiset α) := by
  intro l
  induction l with
  | nil => intro n a h; simp at h
  | cons b t ih =>
      intro n a h
      cases n with
      | zero =>
          injection h with h
          subst h
          rfl
      | succ n =>
          have ht := ih n a h
          show ((b :: t : List α) : Multiset α) = _
          rw [← Multiset.cons_coe, ht]
          show b ::ₘ a ::ₘ _ = a ::ₘ ((b :: t.eraseIdx n : List α) : Multiset α)
          rw [← Multiset.cons_coe, Multiset.cons_swap]

/-- Entries below the erased index are untouched. -/
theorem get_eraseIdx_lt {α : Type} :
    ∀ (l : List α) (n k : ℕ), k < n → (l.eraseIdx n).get? k = l.get? k := by
  intro l
  induction l with
  | nil => intro n k _; simp [List.eraseIdx]
  | cons b t ih =>
      intro n k hk
      cases n with
      | zero => omega
      | succ n =>
          cases k with
          | zero => rfl
          | succ k => exact ih n k (by omega)

/-- Merging the parts at two distinct valid positions of a partition yields a
partition with one part fewer. -/
theorem mergeAt_core {P : List (Finset ℕ)} {L : Finset ℕ} (h : PartitionOf P L)
    {i j : ℕ} (hlt : i < j) (hj : j < P.length) (si sj : Finset ℕ)
    (hgi : P.get? i = some si) (hgj : P.get? j = some sj) :
    PartitionOf ((si ∪ sj) :: ((P.eraseIdx j).eraseIdx i)) L ∧
      ((P.eraseIdx j).eraseIdx i).length + 2 = P.length := by
  obtain ⟨hne, hdis, huni⟩ := h
  have hnodup : P.Nodup := PartitionOf.nodup ⟨hne, hdis, huni⟩
  have hgi' : (P.eraseIdx j).get? i = some si := by
    rw [get_eraseIdx_lt P j i hlt]
    exact hgi
  have hms : (P : Multiset (Finset ℕ)) =
      sj ::ₘ si ::ₘ (((P.eraseIdx j).eraseIdx i : List (Finset ℕ)) : Multiset (Finset ℕ)) := by
    rw [eraseIdx_cons_ms P j sj hgj, eraseIdx_cons_ms (P.eraseIdx j) i si hgi']
  have hQsub : ((P.eraseIdx j).eraseIdx i).Sublist P :=
    ((P.eraseIdx j).eraseIdx_sublist i).trans (P.eraseIdx_sublist j)
  have hsiP : si ∈ P := List.get?_mem hgi
  have hsjP : sj ∈ P := List.get?_mem hgj
  have hmsnodup : Multiset.Nodup (P : Multiset (Finset ℕ)) := by
    exact_mod_cast hnodup
  rw [hms] at hmsnodup
  have hsjQ : sj ∉ (P.eraseIdx j).eraseIdx i := by
    have := (Multiset.nodup_cons.mp hmsnodup).1
    intro hc
    exact this (Multiset.mem_cons.mpr (Or.inr (by exact_mod_cast hc)))
  have hsiQ : si ∉ (P.eraseIdx j).eraseIdx i := by
    have := (Multiset.nodup_cons.mp (Multiset.nodup_cons.mp hmsnodup).2).1
    intro hc
    exact this (by exact_mod_cast hc)
  have hsij : si ≠ sj := by
    have := (Multiset.nodup_cons.mp hmsnodup).1
    intro hc
    exact this (Multiset.mem_cons.mpr (Or.inl hc.symm))
  have hperm : P.Perm (sj :: si :: (P.eraseIdx j).eraseIdx i) := by
    rw [← Multiset.coe_eq_coe]
    rw [hms]
    rfl
  constructor
  · refine ⟨?_, ?_, ?_⟩
    · intro s hs
      rcases List.mem_cons.mp hs with rfl | hs2
      · intro hc
        exact hne si hsiP (Finset.union_eq_empty.mp hc).1
      · exact hne s (hQsub.mem hs2)
    · refine List.pairwise_cons.mpr ⟨?_, List.Pairwise.sublist hQsub hdis⟩
      intro t ht
      have htP : t ∈ P := hQsub.mem ht
      rw [Finset.disjoint_union_left]
      exact ⟨pairwise_disjoint_mem hdis hsiP htP (fun hc => hsiQ (hc ▸ ht)),
        pairwise_disjoint_mem hdis hsjP htP (fun hc => hsjQ (hc ▸ ht))⟩
    · have h1 : unionList P =
          unionList (sj :: si :: (P.eraseIdx j).eraseIdx i) := unionList_perm hperm
      show (si ∪ sj) ∪ unionList ((P.eraseIdx j).eraseIdx i) = L
      rw [← huni, h1]
      show si ∪ sj ∪ unionList _ = sj ∪ (si ∪ unionList _)
      rw [← Finset.union_assoc, Finset.union_comm si sj]
  · have hl1 : (P.eraseIdx j).length = P.length - 1 := by
      rw [List.length_eraseIdx]
      simp [hj]
    have hl2 : ((P.eraseIdx j).eraseIdx i).length = (P.eraseIdx j).length - 1 := by
      rw [List.length_eraseIdx]
      have : i < (P.eraseIdx j).length := by omega
      simp [this]
    omega

/-- `mergeAt` at two distinct valid positions keeps the partition invariant
and shrinks the block count by one. -/
theorem mergeAt_partition {P : List (Finset ℕ)} {L : Finset ℕ} (h : PartitionOf P L)
    {i j : ℕ} (hij : i ≠ j) (hi : i < P.length) (hj : j < P.length) :
    PartitionOf (mergeAt P i j) L ∧ (mergeAt P i j).length + 1 = P.length := by
  have hgi : P.get? i = some (P.get ⟨i, hi⟩) := List.get?_eq_get hi
  have hgj : P.get? j = some (P.get ⟨j, hj⟩) := List.get?_eq_get hj
  rcases Nat.lt_or_ge i j with hlt | hge
  · have hmin : min i j = i := by omega
    have hmax : max i j = j := by omega
    obtain ⟨hc1, hc2⟩ := mergeAt_core h hlt hj _ _ hgi hgj
    simp only [mergeAt, hgi, hgj, hmin, hmax]
    refine ⟨hc1, ?_⟩
    simp only [List.length_cons]
    omega
  · have hlt : j < i := by omega
    have hmin : min i j = j := by omega
    have hmax : max i j = i := by omega
    obtain ⟨hc1, hc2⟩ := mergeAt_core h hlt hi _ _ hgj hgi
    simp only [mergeAt, hgi, hgj, hmin, hmax]
    rw [Finset.union_comm]
    refine ⟨hc1, ?_⟩
    simp only [List.length_cons]
    omega

/-- One-step unfolding of the contraction loop of `karger_run`. -/
theorem karger_go_succ (pick : ℕ → ℕ × ℕ) (fuel : ℕ) (P : List (Finset ℕ)) (k : ℕ) :
    karger_run.go pick (fuel + 1) P k =
      (if P.length ≤ 2 then P
      else
        let pr := pick k
        let i := pr.1 % P.length
        let j0 := pr.2 % P.length
        let j := if i = j0 then (j0 + 1) % P.length else j0
        karger_run.go pick fuel (mergeAt P i j) (k + 1)) := rfl

/-- The contraction loop keeps the state a partition with at least two
blocks. -/
theorem karger_go_spec (pick : ℕ → ℕ × ℕ) :
    ∀ (fuel : ℕ) (P : List (Finset ℕ)) (k : ℕ) {L : Finset ℕ},
      PartitionOf P L → 2 ≤ P.length →
      PartitionOf (karger_run.go pick fuel P k) L ∧
        2 ≤ (karger_run.go pick fuel P k).length := by
  intro fuel
  induction fuel with
  | zero => intro P k L hP h2; exact ⟨hP, h2⟩
  | succ fuel ih =>
      intro P k L hP h2
      rw [karger_go_succ]
      by_cases hle : P.length ≤ 2
      · rw [if_pos hle]
        exact ⟨hP, h2⟩
      · rw [if_neg hle]
        dsimp only
        have hlen : 2 < P.length := by omega
        have hi : (pick k).1 % P.length < P.length := Nat.mod_lt _ (by omega)
        have hj0 : (pick k).2 % P.length < P.length := Nat.mod_lt _ (by omega)
        set i := (pick k).1 % P.length with hidef
        set j0 := (pick k).2 % P.length with hj0def
        have hjlt : (if i = j0 then (j0 + 1) % P.length else j0) < P.length := by
          split
          · exact Nat.mod_lt _ (by omega)
          · exact hj0
        have hij : i ≠ (if i = j0 then (j0 + 1) % P.length else j0) := by
          split
          · next heq =>
              rw [heq]
              by_cases hcase : j0 + 1 = P.length
              · rw [hcase, Nat.mod_self]
                omega
              · rw [Nat.mod_eq_of_lt (by omega)]
                omega
          · next hne => exact hne
        obtain ⟨hPm, hlm⟩ := mergeAt_partition hP hij hi hjlt
        exact ih (mergeAt P i (if i = j0 then (j0 + 1) % P.length else j0)) (k + 1)
          hPm (by omega)

/-- One contraction run returns a partition of `V` with at least two
blocks. -/
theorem karger_run_spec (pick : ℕ → ℕ × ℕ) {V : Finset ℕ} (h2 : 2 ≤ V.card) :
    PartitionOf (karger_run pick V) V ∧ 2 ≤ (karger_run pick V).length := by
  have hstart : PartitionOf ((ascList V).map (fun a => ({a} : Finset ℕ))) V :=
    singletons_partition V
  have hlen : 2 ≤ ((ascList V).map (fun a => ({a} : Finset ℕ))).length := by
    rw [List.length_map, ascList_length]
    omega
  exact karger_go_spec pick V.card _ 0 hstart hlen

/-- Every leaf recorded by the gradient sweep lies on a side with more than
one element (the `len(V1) == 1` guard of the source). -/
theorem gradientInner_mem (f : List (Finset ℕ) → ℚ) (minimize : Bool)
    (P0 P1 : Finset ℕ) :
    ∀ (l : List ℕ) (acc : Option ℚ × List ℕ),
      (∀ y ∈ acc.2, (y ∈ P0 ∧ P0.card ≠ 1) ∨ (y ∉ P0 ∧ y ∈ P1 ∧ P1.card ≠ 1)) →
      ∀ x ∈ (List.foldl
        (fun acc x =>
          let side : Option (Finset ℕ × Finset ℕ) :=
            if x ∈ P0 then some (P0, P1) else if x ∈ P1 then some (P1, P0) else none
          match side with
          | none => acc
          | some (V1, V2) =>
              if V1.card = 1 then acc
              else
                let obj := f [V1.erase x, insert x V2]
                if betterQ minimize obj acc.1 then (some obj, [x])
                else if some obj = acc.1 then (acc.1, acc.2 ++ [x])
                else acc) acc l).2,
        (x ∈ P0 ∧ P0.card ≠ 1) ∨ (x ∉ P0 ∧ x ∈ P1 ∧ P1.card ≠ 1) := by
  intro l
  induction l with
  | nil => intro acc hacc x hx; exact hacc x hx
  | cons a rest ih =>
      intro acc hacc x hx
      refine ih _ ?_ x hx
      intro y hy
      by_cases h0 : a ∈ P0
      · simp only [if_pos h0] at hy
        by_cases hc : P0.card = 1
        · simp only [if_pos hc] at hy
          exact hacc y hy
        · simp only [if_neg hc] at hy
          split at hy
          · simp at hy
            subst hy
            exact Or.inl ⟨h0, hc⟩
          · split at hy
            · rcases List.mem_append.mp hy with hy1 | hy1
              · exact hacc y hy1
              · simp at hy1
                subst hy1
                exact Or.inl ⟨h0, hc⟩
            · exact hacc y hy
      · simp only [if_neg h0] at hy
        by_cases h1 : a ∈ P1
        · simp only [if_pos h1] at hy
          by_cases hc : P1.card = 1
          · simp only [if_pos hc] at hy
            exact hacc y hy
          · simp only [if_neg hc] at hy
            split at hy
            · simp at hy
              subst hy
              exact Or.inr ⟨h0, h1, hc⟩
            · split at hy
              · rcases List.mem_append.mp hy with hy1 | hy1
                · exact hacc y hy1
                · simp at hy1
                  subst hy1
                  exact Or.inr ⟨h0, h1, hc⟩
              · exact hacc y hy
        · simp only [if_neg h1] at hy
          exact hacc y hy

/-- The hill-climbing loop of the gradient walk keeps the recorded best
bipartition a genuine two-sided split of `V`. -/
theorem gradientLoop_good (f : List (Finset ℕ) → ℚ) (minimize : Bool)
    (choice : ℕ → ℕ) (Vl : List ℕ) (V : Finset ℕ) :
    ∀ (fuel : ℕ) (P0 P1 : Finset ℕ) (k : ℕ) (bo : ℚ) (bbp : List (Finset ℕ)),
      P0 ∪ P1 = V → Disjoint P0 P1 → P0 ≠ ∅ → P1 ≠ ∅ →
      (∃ a b : Finset ℕ, bbp = [a, b] ∧ a ≠ ∅ ∧ b ≠ ∅ ∧ Disjoint a b ∧ a ∪ b = V) →
      ∃ a b : Finset ℕ,
        (gradientLoop f minimize choice Vl fuel (P0, P1) k (bo, bbp)).2 = [a, b] ∧
          a ≠ ∅ ∧ b ≠ ∅ ∧ Disjoint a b ∧ a ∪ b = V := by
  intro fuel
  induction fuel with
  | zero => intro P0 P1 k bo bbp _ _ _ _ hbbp; exact hbbp
  | succ fuel ih =>
      intro P0 P1 k bo bbp hu hd h0 h1 hbbp
      simp only [gradientLoop]
      split
      · split
        · next x q hget hq =>
            have hx : x ∈ (gradientInner f minimize P0 P1 Vl).2 := List.get?_mem hget
            have hxQ := gradientInner_mem f minimize P0 P1 Vl (none, [])
              (by intro y hy; simp at hy) x (by exact hx)
            by_cases hx0 : x ∈ P0
            · rw [if_pos hx0]
              rcases hxQ with ⟨-, hcard⟩ | ⟨hc, -⟩
              · have hx0card : 1 ≤ P0.card := Finset.card_pos.mpr ⟨x, hx0⟩
                have hcard2 : 2 ≤ P0.card := by omega
                have hu' : P0.erase x ∪ insert x P1 = V := by
                  rw [← hu]
                  ext z
                  simp only [Finset.mem_union, Finset.mem_erase, Finset.mem_insert]
                  constructor
                  · rintro (⟨-, hz⟩ | (rfl | hz))
                    · exact Or.inl hz
                    · exact Or.inl hx0
                    · exact Or.inr hz
                  · rintro (hz | hz)
                    · by_cases hzx : z = x
                      · exact Or.inr (Or.inl hzx)
                      · exact Or.inl ⟨hzx, hz⟩
                    · exact Or.inr (Or.inr hz)
                have hd' : Disjoint (P0.erase x) (insert x P1) := by
                  rw [Finset.disjoint_left]
                  intro z hz1 hz2
                  rw [Finset.mem_erase] at hz1
                  rw [Finset.mem_insert] at hz2
                  rcases hz2 with rfl | hz2
                  · exact hz1.1 rfl
                  · exact Finset.disjoint_left.mp hd hz1.2 hz2
                have h0' : P0.erase x ≠ ∅ := by
                  intro hc
                  have := Finset.card_eq_zero.mpr hc
                  rw [Finset.card_erase_of_mem hx0] at this
                  omega
                exact ih (P0.erase x) (insert x P1) (k + 1) q _ hu' hd' h0'
                  (by simp) ⟨P0.erase x, insert x P1, rfl, h0', by simp, hd', hu'⟩
              · exact absurd hx0 hc
            · rw [if_neg hx0]
              rcases hxQ with ⟨hc, -⟩ | ⟨-, hx1, hcard⟩
              · exact absurd hc hx0
              · have hx1card : 1 ≤ P1.card := Finset.card_pos.mpr ⟨x, hx1⟩
                have hcard2 : 2 ≤ P1.card := by omega
                have hu' : insert x P0 ∪ P1.erase x = V := by
                  rw [← hu]
                  ext z
                  simp only [Finset.mem_union, Finset.mem_erase, Finset.mem_insert]
                  constructor
                  · rintro ((rfl | hz) | ⟨-, hz⟩)
                    · exact Or.inr hx1
                    · exact Or.inl hz
                    · exact Or.inr hz
                  · rintro (hz | hz)
                    · exact Or.inl (Or.inr hz)
                    · by_cases hzx : z = x
                      · exact Or.inl (Or.inl hzx)
                      · exact Or.inr ⟨hzx, hz⟩
                have hd' : Disjoint (insert x P0) (P1.erase x) := by
                  rw [Finset.disjoint_left]
                  intro z hz1 hz2
                  rw [Finset.mem_insert] at hz1
                  rw [Finset.mem_erase] at hz2
                  rcases hz1 with rfl | hz1
                  · exact hz2.1 rfl
                  · exact Finset.disjoint_left.mp hd hz1 hz2.2
                have h1' : P1.erase x ≠ ∅ := by
                  intro hc
                  have := Finset.card_eq_zero.mpr hc
                  rw [Finset.card_erase_of_mem hx1] at this
                  omega
                exact ih (insert x P0) (P1.erase x) (k + 1) q _ hu'
                  hd' (by simp) h1'
                  ⟨insert x P0, P1.erase x, rfl, by simp, h1', hd', hu'⟩
        · exact hbbp
      · exact hbbp

/-- For at least three leaves distributed along a permutation of the leaf
list, the two initial sides of the gradient walk cover `V`, are disjoint and
are both non-empty. -/
theorem gradient_sides (order : List ℕ) (V : Finset ℕ)
    (hperm : order.Perm (ascList V)) (h3 : 3 ≤ V.card) :
    ((order.enum.filter (fun p => decide (2 * p.1 ≤ order.length))).map
        Prod.snd).toFinset ∪
      ((order.enum.filter (fun p => decide (¬ 2 * p.1 ≤ order.length))).map
        Prod.snd).toFinset = V ∧
    Disjoint
      ((order.enum.filter (fun p => decide (2 * p.1 ≤ order.length))).map
        Prod.snd).toFinset
      ((order.enum.filter (fun p => decide (¬ 2 * p.1 ≤ order.length))).map
        Prod.snd).toFinset ∧
    ((order.enum.filter (fun p => decide (2 * p.1 ≤ order.length))).map
        Prod.snd).toFinset ≠ ∅ ∧
    ((order.enum.filter (fun p => decide (¬ 2 * p.1 ≤ order.length))).map
        Prod.snd).toFinset ≠ ∅ := by
  have hlen : order.length = V.card := by
    rw [hperm.length_eq, ascList_length]
  have hnodup : order.Nodup := hperm.nodup_iff.mpr (ascList_nodup V)
  have hmemV : ∀ x, x ∈ order ↔ x ∈ V := by
    intro x
    rw [hperm.mem_iff, mem_ascList]
  have hside : ∀ (c : ℕ × ℕ → Bool) (x : ℕ),
      x ∈ ((order.enum.filter c).map Prod.snd).toFinset ↔
        ∃ k, order.get? k = some x ∧ c (k, x) = true := by
    intro c x
    rw [List.mem_toFinset, List.mem_map]
    constructor
    · rintro ⟨p, hp, rfl⟩
      obtain ⟨hp1, hp2⟩ := List.mem_filter.mp hp
      refine ⟨p.1, ?_, hp2⟩
      exact List.mem_enum_iff_get?.mp hp1
    · rintro ⟨k, hk, hc⟩
      exact ⟨(k, x), List.mem_filter.mpr ⟨List.mem_enum_iff_get?.mpr hk, hc⟩, rfl⟩
  refine ⟨?_, ?_, ?_, ?_⟩
  · ext x
    rw [Finset.mem_union, hside, hside]
    constructor
    · rintro (⟨k, hk, -⟩ | ⟨k, hk, -⟩) <;>
        exact (hmemV x).mp (List.get?_mem hk)
    · intro hx
      obtain ⟨⟨k, hklt⟩, hk⟩ := List.mem_iff_get.mp ((hmemV x).mpr hx)
      have hget : order.get? k = some x := by
        rw [List.get?_eq_get hklt, hk]
      by_cases hc : 2 * k ≤ order.length
      · exact Or.inl ⟨k, hget, by simpa using hc⟩
      · exact Or.inr ⟨k, hget, by simpa using hc⟩
  · rw [Finset.disjoint_left]
    intro x hx1 hx2
    obtain ⟨k1, hk1, hc1⟩ := (hside _ x).mp hx1
    obtain ⟨k2, hk2, hc2⟩ := (hside _ x).mp hx2
    have hlt1 : k1 < order.length := by
      by_contra hc
      rw [List.get?_eq_none.mpr (by omega)] at hk1
      exact absurd hk1 (by simp)
    have hk12 : k1 = k2 := List.get?_inj hlt1 hnodup (by rw [hk1, hk2])
    simp only [decide_eq_true_eq] at hc1 hc2
    exact hc2 (hk12 ▸ hc1)
  · have h0lt : 0 < order.length := by omega
    obtain ⟨x0, hx0⟩ : ∃ x0, order.get? 0 = some x0 :=
      ⟨order.get ⟨0, h0lt⟩, List.get?_eq_get h0lt⟩
    exact Finset.ne_empty_of_mem
      ((hside _ x0).mpr ⟨0, hx0, by simp⟩)
  · have hlt : order.length - 1 < order.length := by omega
    obtain ⟨x1, hx1⟩ : ∃ x1, order.get? (order.length - 1) = some x1 :=
      ⟨order.get ⟨order.length - 1, hlt⟩, List.get?_eq_get hlt⟩
    refine Finset.ne_empty_of_mem ((hside _ x1).mpr ⟨order.length - 1, hx1, ?_⟩)
    simp only [decide_eq_true_eq]
    omega

/-- Membership in the set of community ids. -/
theorem mem_comIds (com : ℕ → ℕ) (n d : ℕ) :
    d ∈ comIds com n ↔ ∃ y, y < n ∧ com y = d := by
  unfold comIds
  simp [Finset.mem_image]

/-- Reassigning one node to an existing community keeps at least two
communities, unless exactly two communities remain and the node is alone in
its own (the situation ruled out by the `at_least_two` guard). -/
theorem update_best_comCard {com : ℕ → ℕ} {n x : ℕ} (hx : x < n) (C : ℕ)
    (hC : C ∈ comIds com n) (h2 : 2 ≤ (comIds com n).card)
    (hguard : ¬((comIds com n).card = 2 ∧ (fiberF com n (com x)).card = 1)) :
    2 ≤ (comIds (Function.update com x C) n).card := by
  by_cases hCx : C = com x
  · subst hCx
    rw [Function.update_eq_self]
    exact h2
  · have hxfib : x ∈ fiberF com n (com x) := by
      unfold fiberF
      simp [hx]
    by_cases hfib : 2 ≤ (fiberF com n (com x)).card
    · have h1lt : 1 < (fiberF com n (com x)).card := by omega
      obtain ⟨y, hy, hyx⟩ := Finset.exists_ne_of_one_lt_card h1lt x
      have hyn : y < n := by
        unfold fiberF at hy
        simp at hy
        exact hy.1
      have hycom : com y = com x := by
        unfold fiberF at hy
        simp at hy
        exact hy.2
      have hmem1 : com x ∈ comIds (Function.update com x C) n := by
        rw [mem_comIds]
        refine ⟨y, hyn, ?_⟩
        rw [Function.update_noteq hyx, hycom]
      have hmem2 : C ∈ comIds (Function.update com x C) n := by
        rw [mem_comIds]
        exact ⟨x, hx, Function.update_same x C com⟩
      have hsub : {com x, C} ⊆ comIds (Function.update com x C) n := by
        intro d hd
        rcases Finset.mem_insert.mp hd with rfl | hd
        · exact hmem1
        · rw [Finset.mem_singleton] at hd
          subst hd
          exact hmem2
      calc 2 = ({com x, C} : Finset ℕ).card := by
              rw [Finset.card_insert_of_not_mem (by simpa using Ne.symm hCx)]
              simp
        _ ≤ _ := Finset.card_le_card hsub
    · have hfib1 : (fiberF com n (com x)).card = 1 := by
        have : 1 ≤ (fiberF com n (com x)).card := Finset.card_pos.mpr ⟨x, hxfib⟩
        omega
      have h3 : 3 ≤ (comIds com n).card := by
        rcases Nat.lt_or_ge (comIds com n).card 3 with hlt | hge
        · exact absurd ⟨by omega, hfib1⟩ hguard
        · exact hge
      have hsub : comIds com n \ {com x} ⊆ comIds (Function.update com x C) n := by
        intro d hd
        obtain ⟨hd1, hd2⟩ := Finset.mem_sdiff.mp hd
        rw [Finset.mem_singleton] at hd2
        obtain ⟨y, hyn, hyd⟩ := (mem_comIds com n d).mp hd1
        have hyx : y ≠ x := by
          intro hc
          subst hc
          exact hd2 hyd.symm
        rw [mem_comIds]
        refine ⟨y, hyn, ?_⟩
        rw [Function.update_noteq hyx, hyd]
      have hcardd : 2 ≤ (comIds com n \ {com x}).card := by
        have hcx : com x ∈ comIds com n := (mem_comIds com n (com x)).mpr ⟨x, hx, rfl⟩
        rw [Finset.card_sdiff (by simpa using hcx)]
        simp
        omega
      exact le_trans hcardd (Finset.card_le_card hsub)

/-- A fold whose step keeps the second component or adopts the element ends
with the start value or a member. -/
theorem foldl_snd_mem {α β : Type} (step : β × α → α → β × α)
    (hstep : ∀ bc a, (step bc a).2 = bc.2 ∨ (step bc a).2 = a) :
    ∀ (l : List α) (bc : β × α),
      (l.foldl step bc).2 = bc.2 ∨ (l.foldl step bc).2 ∈ l := by
  intro l
  induction l with
  | nil => intro bc; exact Or.inl rfl
  | cons a rest ih =>
      intro bc
      rcases ih (step bc a) with h1 | h1
      · rcases hstep bc a with h2 | h2
        · exact Or.inl (h1.trans h2)
        · exact Or.inr (List.mem_cons.mpr (Or.inl (h1.trans h2)))
      · exact Or.inr (List.mem_cons_of_mem _ h1)

/-- Neighbour communities are existing community ids. -/
theorem nbrComs_mem_comIds (g : WGraph) (sns : List (Finset ℕ)) (com : ℕ → ℕ)
    (x : ℕ) : ∀ C ∈ nbrComs g sns com x, C ∈ comIds com sns.length := by
  intro C hC
  unfold nbrComs at hC
  obtain ⟨hC1, -⟩ := List.mem_filter.mp hC
  obtain ⟨y, hy, hyC⟩ := List.mem_map.mp (List.mem_dedup.mp hC1)
  obtain ⟨hy1, -⟩ := List.mem_filter.mp hy
  rw [mem_comIds]
  exact ⟨y, List.mem_range.mp hy1, hyC⟩

/-- One modularity-mode node step keeps at least two communities (with the
`at_least_two` guard active). -/
theorem modStep_comCard (g : WGraph) (sns : List (Finset ℕ))
    (st : (ℕ → ℕ) × ℚ × Bool) (x : ℕ) (hx : x < sns.length)
    (h2 : 2 ≤ (comIds st.1 sns.length).card) :
    2 ≤ (comIds (modStep true g sns st x).1 sns.length).card := by
  obtain ⟨com, tg, mo⟩ := st
  simp only [modStep]
  by_cases hg : lastTwoGuard true com sns.length x = true
  · rw [if_pos hg]
    exact h2
  · rw [if_neg hg]
    have hguard : ¬((comIds com sns.length).card = 2 ∧
        (fiberF com sns.length (com x)).card = 1) := by
      unfold lastTwoGuard at hg
      simpa using hg
    have hbest := foldl_snd_mem
      (fun bc C =>
        let ng := modGain g sns com x C
        if bc.1 < ng then (ng, C) else bc)
      (by
        intro bc a
        dsimp only
        split
        · exact Or.inr rfl
        · exact Or.inl rfl)
      (nbrComs g sns com x) (modGain g sns com x (com x), com x)
    have hC : ((nbrComs g sns com x).foldl
        (fun bc C =>
          let ng := modGain g sns com x C
          if bc.1 < ng then (ng, C) else bc)
        (modGain g sns com x (com x), com x)).2 ∈ comIds com sns.length := by
      rcases hbest with h | h
      · rw [h]
        exact (mem_comIds com sns.length (com x)).mpr ⟨x, hx, rfl⟩
      · exact nbrComs_mem_comIds g sns com x _ h
    exact update_best_comCard hx _ hC h2 hguard

/-- One custom-objective node step keeps at least two communities. -/
theorem objStep_comCard (minfac : ℚ) (f : List (Finset ℕ) → ℚ) (g : WGraph)
    (sns : List (Finset ℕ)) (st : (ℕ → ℕ) × ℚ × ℚ × Bool) (x : ℕ)
    (hx : x < sns.length) (h2 : 2 ≤ (comIds st.1 sns.length).card) :
    2 ≤ (comIds (objStep true minfac f g sns st x).1 sns.length).card := by
  obtain ⟨com, obj, tg, mo⟩ := st
  simp only [objStep]
  by_cases hg : lastTwoGuard true com sns.length x = true
  · rw [if_pos hg]
    exact h2
  · rw [if_neg hg]
    have hguard : ¬((comIds com sns.length).card = 2 ∧
        (fiberF com sns.length (com x)).card = 1) := by
      unfold lastTwoGuard at hg
      simpa using hg
    have hbest := foldl_snd_mem
      (fun bc C =>
        let ng := minfac * (obj - f (objParts sns com x C))
        if bc.1 < ng then (ng, C) else bc)
      (by
        intro bc a
        dsimp only
        split
        · exact Or.inr rfl
        · exact Or.inl rfl)
      (nbrComs g sns com x) (0, com x)
    have hC : ((nbrComs g sns com x).foldl
        (fun bc C =>
          let ng := minfac * (obj - f (objParts sns com x C))
          if bc.1 < ng then (ng, C) else bc)
        (0, com x)).2 ∈ comIds com sns.length := by
      rcases hbest with h | h
      · rw [h]
        exact (mem_comIds com sns.length (com x)).mpr ⟨x, hx, rfl⟩
      · exact nbrComs_mem_comIds g sns com x _ h
    exact update_best_comCard hx _ hC h2 hguard

/-- Folding node steps over valid positions keeps at least two
communities. -/
theorem foldSteps_comCard {σ : Type} (stepf : σ → ℕ → σ) (getCom : σ → ℕ → ℕ)
    (n : ℕ)
    (hstep : ∀ st x, x < n → 2 ≤ (comIds (getCom st) n).card →
      2 ≤ (comIds (getCom (stepf st x)) n).card) :
    ∀ (l : List ℕ) (st : σ), (∀ x ∈ l, x < n) →
      2 ≤ (comIds (getCom st) n).card →
      2 ≤ (comIds (getCom (l.foldl stepf st)) n).card := by
  intro l
  induction l with
  | nil => intro st _ h2; exact h2
  | cons a rest ih =>
      intro st hmem h2
      exact ih (stepf st a) (fun x hx => hmem x (List.mem_cons_of_mem _ hx))
        (hstep st a (hmem a (List.mem_cons_self _ _)) h2)

/-- The modularity level computation returns an assignment with at least two
communities. -/
theorem modLevel_comCard (g : WGraph) (sns : List (Finset ℕ)) (fuel : ℕ)
    (h2 : 2 ≤ sns.length) :
    2 ≤ (comIds (modLevel true g sns fuel).1 sns.length).card := by
  have hid : 2 ≤ (comIds (fun i => i) sns.length).card := by
    unfold comIds
    rw [show (fun i => i) = (id : ℕ → ℕ) from rfl, Finset.image_id]
    simpa using h2
  unfold modLevel
  split
  · exact hid
  · have hloop : ∀ (fl : ℕ) (com : ℕ → ℕ) (tg : ℚ) (mo : Bool),
        2 ≤ (comIds com sns.length).card →
        2 ≤ (comIds (modLevelLoop true g sns fl com tg mo).1 sns.length).card := by
      intro fl
      induction fl with
      | zero => intro com tg mo h; exact h
      | succ fl ih =>
          intro com tg mo h
          simp only [modLevelLoop]
          have hsweep : 2 ≤ (comIds (modSweep true g sns com tg).1 sns.length).card := by
            unfold modSweep
            exact foldSteps_comCard (modStep true g sns) (fun st => st.1) sns.length
              (fun st x hx h2x => modStep_comCard g sns st x hx h2x)
              (List.range sns.length) (com, tg, false)
              (fun x hx => List.mem_range.mp hx) h
          split
          · exact ih _ _ _ hsweep
          · exact hsweep
    exact hloop fuel _ 0 false hid

/-- The custom-objective level computation returns an assignment with at
least two communities. -/
theorem objLevel_comCard (minfac : ℚ) (f : List (Finset ℕ) → ℚ) (g : WGraph)
    (sns : List (Finset ℕ)) (fuel : ℕ) (h2 : 2 ≤ sns.length) :
    2 ≤ (comIds (objLevel true minfac f g sns fuel).1 sns.length).card := by
  have hid : 2 ≤ (comIds (fun i => i) sns.length).card := by
    unfold comIds
    rw [show (fun i => i) = (id : ℕ → ℕ) from rfl, Finset.image_id]
    simpa using h2
  unfold objLevel
  split
  · exact hid
  · have hloop : ∀ (fl : ℕ) (com : ℕ → ℕ) (obj : ℚ) (tg : ℚ) (mo : Bool),
        2 ≤ (comIds com sns.length).card →
        2 ≤ (comIds (objLevelLoop true minfac f g sns fl com obj tg mo).1
          sns.length).card := by
      intro fl
      induction fl with
      | zero => intro com obj tg mo h; exact h
      | succ fl ih =>
          intro com obj tg mo h
          simp only [objLevelLoop]
          have hsweep : 2 ≤
              (comIds (objSweep true minfac f g sns com obj tg).1 sns.length).card := by
            unfold objSweep
            exact foldSteps_comCard (objStep true minfac f g sns) (fun st => st.1)
              sns.length
              (fun st x hx h2x => objStep_comCard minfac f g sns st x hx h2x)
              (List.range sns.length) (com, obj, tg, false)
              (fun x hx => List.mem_range.mp hx) h
          split
          · exact ih _ _ _ _ hsweep
          · exact hsweep
    exact hloop fuel _ _ 0 false hid

/-- The super-node at a valid position is one of the level's parts. -/
theorem snAt_mem {sns : List (Finset ℕ)} {i : ℕ} (h : i < sns.length) :
    snAt sns i ∈ sns := by
  unfold snAt
  rw [List.getD_eq_getElem?_getD, List.getElem?_eq_getElem h]
  exact List.getElem_mem h

/-- Distinct valid positions of a partition hold disjoint parts. -/
theorem snAt_disjoint {sns : List (Finset ℕ)} {L : Finset ℕ}
    (h : PartitionOf sns L) {i j : ℕ} (hi : i < sns.length)
    (hj : j < sns.length) (hij : i ≠ j) : Disjoint (snAt sns i) (snAt sns j) := by
  have hget := List.pairwise_iff_get.mp h.2.1
  have hsn : ∀ k (hk : k < sns.length), snAt sns k = sns.get ⟨k, hk⟩ := by
    intro k hk
    unfold snAt
    rw [List.getD_eq_getElem?_getD, List.getElem?_eq_getElem hk]
    rfl
  rw [hsn i hi, hsn j hj]
  rcases Nat.lt_or_ge i j with hlt | hge
  · exact hget ⟨i, hi⟩ ⟨j, hj⟩ hlt
  · have hlt : j < i := by omega
    exact (hget ⟨j, hj⟩ ⟨i, hi⟩ hlt).symm

/-- Aggregating the communities of a level partition yields a partition of
the same ground set, with one part per community id. -/
theorem nextSns_spec {sns : List (Finset ℕ)} {L : Finset ℕ}
    (h : PartitionOf sns L) (com : ℕ → ℕ) :
    PartitionOf (nextSns sns com) L ∧
      (nextSns sns com).length = (comIds com sns.length).card := by
  have hmemP : ∀ c, c ∈ ascList (comIds com sns.length) ↔
      ∃ y, y < sns.length ∧ com y = c := by
    intro c
    rw [mem_ascList, mem_comIds]
  constructor
  · unfold nextSns
    refine ⟨?_, ?_, ?_⟩
    · intro s hs
      obtain ⟨c, hc, rfl⟩ := List.mem_map.mp hs
      obtain ⟨y, hy, hyc⟩ := (hmemP c).mp hc
      have hyfib : y ∈ fiberF com sns.length c := by
        unfold fiberF
        simp [hy, hyc]
      have hsub : snAt sns y ⊆ (fiberF com sns.length c).biUnion (snAt sns) :=
        Finset.subset_biUnion_of_mem (snAt sns) hyfib
      intro hc0
      rw [hc0, Finset.subset_empty] at hsub
      exact h.1 (snAt sns y) (snAt_mem hy) hsub
    · rw [List.pairwise_map]
      refine (ascList_nodup (comIds com sns.length)).imp ?_
      intro c d hcd
      rw [Finset.disjoint_left]
      intro z hz1 hz2
      obtain ⟨i, hi, hzi⟩ := Finset.mem_biUnion.mp hz1
      obtain ⟨j, hj, hzj⟩ := Finset.mem_biUnion.mp hz2
      unfold fiberF at hi hj
      obtain ⟨hi1, hi2⟩ := Finset.mem_filter.mp hi
      obtain ⟨hj1, hj2⟩ := Finset.mem_filter.mp hj
      rw [Finset.mem_range] at hi1 hj1
      have hij : i ≠ j := by
        intro hc
        subst hc
        exact hcd (hi2.symm.trans hj2)
      exact Finset.disjoint_left.mp (snAt_disjoint h hi1 hj1 hij) hzi hzj
    · ext z
      rw [mem_unionList]
      constructor
      · rintro ⟨s, hs, hz⟩
        obtain ⟨c, hc, rfl⟩ := List.mem_map.mp hs
        obtain ⟨i, hi, hzi⟩ := Finset.mem_biUnion.mp hz
        unfold fiberF at hi
        obtain ⟨hi1, -⟩ := Finset.mem_filter.mp hi
        rw [Finset.mem_range] at hi1
        rw [← h.2.2, mem_unionList]
        exact ⟨snAt sns i, snAt_mem hi1, hzi⟩
      · intro hz
        rw [← h.2.2, mem_unionList] at hz
        obtain ⟨s, hs, hzs⟩ := hz
        obtain ⟨⟨i, hilt⟩, hig⟩ := List.mem_iff_get.mp hs
        have hsn : snAt sns i = s := by
          unfold snAt
          rw [List.getD_eq_getElem?_getD, List.getElem?_eq_getElem hilt]
          exact hig
        refine ⟨(fiberF com sns.length (com i)).biUnion (snAt sns),
          List.mem_map.mpr ⟨com i, (hmemP (com i)).mpr ⟨i, hilt, rfl⟩, rfl⟩, ?_⟩
        refine Finset.mem_biUnion.mpr ⟨i, ?_, hsn ▸ hzs⟩
        unfold fiberF
        simp [hilt]
  · unfold nextSns
    rw [List.length_map, ascList_length]

/-- The partition invariant transfers along a permutation of the parts. -/
theorem partition_perm {l1 l2 : List (Finset ℕ)} {L : Finset ℕ}
    (hp : l1.Perm l2) (h : PartitionOf l1 L) : PartitionOf l2 L := by
  obtain ⟨hne, hdis, huni⟩ := h
  refine ⟨?_, ?_, ?_⟩
  · intro s hs
    exact hne s (hp.mem_iff.mpr hs)
  · exact (hp.pairwise_iff (fun h => Disjoint.symm h)).mp hdis
  · rw [← unionList_perm hp, huni]

/-- The singleton parts of a duplicate-free list partition its set of
members. -/
theorem singletons_partition_list (l : List ℕ) (h : l.Nodup) :
    PartitionOf (l.map (fun a => ({a} : Finset ℕ))) l.toFinset := by
  refine ⟨?_, ?_, ?_⟩
  · intro s hs
    obtain ⟨a, -, rfl⟩ := List.mem_map.mp hs
    simp
  · rw [List.pairwise_map]
    exact h.imp (fun hab => by simpa [Finset.disjoint_singleton] using Ne.symm hab)
  · ext x
    rw [mem_unionList]
    constructor
    · rintro ⟨s, hs, hx⟩
      obtain ⟨a, ha, rfl⟩ := List.mem_map.mp hs
      rw [Finset.mem_singleton] at hx
      subst hx
      exact List.mem_toFinset.mpr ha
    · intro hx
      exact ⟨{x}, List.mem_map.mpr ⟨x, List.mem_toFinset.mp hx, rfl⟩,
        Finset.mem_singleton_self x⟩

/-- One-step unfolding of the Louvain level loop. -/
theorem louvain_loop_succ (shuffle : ℕ → List (Finset ℕ) → List (Finset ℕ))
    (g : WGraph) (levelFuel fl k : ℕ) (sns : List (Finset ℕ))
    (ps : List (List (Finset ℕ))) (ms : List (Option ℚ)) :
    Louvain_run.loop true shuffle g levelFuel (fl + 1) k sns ps ms =
      (let s2 := shuffle k sns
      let lv := modLevel true g s2 levelFuel
      if lv.2.2 then
        let sns' := nextSns s2 lv.1
        Louvain_run.loop true shuffle g levelFuel fl (k + 1) sns' (ps ++ [sns'])
          (ms ++ [some (nxModularity g s2 lv.1)])
      else (ps, ms)) := rfl

/-- Every partition the Louvain level loop records is a genuine partition of
the ground set with at least two parts. -/
theorem louvain_loop_good (shuffle : ℕ → List (Finset ℕ) → List (Finset ℕ))
    (g : WGraph) (levelFuel : ℕ) (L : Finset ℕ)
    (hsh : ∀ k s, (shuffle k s).Perm s) :
    ∀ (fl k : ℕ) (sns : List (Finset ℕ)) (ps : List (List (Finset ℕ)))
      (ms : List (Option ℚ)),
      PartitionOf sns L → 2 ≤ sns.length →
      (∀ p ∈ ps, PartitionOf p L ∧ 2 ≤ p.length) →
      ∀ p ∈ (Louvain_run.loop true shuffle g levelFuel fl k sns ps ms).1,
        PartitionOf p L ∧ 2 ≤ p.length := by
  intro fl
  induction fl with
  | zero => intro k sns ps ms _ _ hps p hp; exact hps p hp
  | succ fl ih =>
      intro k sns ps ms hP h2 hps p hp
      rw [louvain_loop_succ] at hp
      dsimp only at hp
      have hs2P : PartitionOf (shuffle k sns) L :=
        partition_perm (hsh k sns).symm hP
      have hs2len : 2 ≤ (shuffle k sns).length := by
        rw [(hsh k sns).length_eq]
        exact h2
      split at hp
      · have hcom := modLevel_comCard g (shuffle k sns) levelFuel hs2len
        obtain ⟨hnP, hnlen⟩ := nextSns_spec hs2P
          (modLevel true g (shuffle k sns) levelFuel).1
        refine ih (k + 1) _ _ _ hnP (by omega) ?_ p hp
        intro p2 hp2
        rcases List.mem_append.mp hp2 with hp2 | hp2
        · exact hps p2 hp2
        · simp at hp2
          subst hp2
          exact ⟨hnP, by omega⟩
      · exact hps p hp

/-- Every partition recorded by `Louvain._run` is a genuine partition of the
node set with at least two communities. -/
theorem Louvain_run_good (shuffle : ℕ → List (Finset ℕ) → List (Finset ℕ))
    (g : WGraph) (levelFuel runFuel : ℕ) (hnodup : g.nodes.Nodup)
    (h2 : 2 ≤ g.nodes.length) (hsh : ∀ k s, (shuffle k s).Perm s) :
    ∀ p ∈ (Louvain_run true shuffle g levelFuel runFuel).1,
      PartitionOf p g.nodes.toFinset ∧ 2 ≤ p.length := by
  have hsns0 : PartitionOf (g.nodes.map (fun x => ({x} : Finset ℕ))) g.nodes.toFinset :=
    singletons_partition_list g.nodes hnodup
  have hlen0 : 2 ≤ (g.nodes.map (fun x => ({x} : Finset ℕ))).length := by
    rw [List.length_map]
    exact h2
  intro p hp
  unfold Louvain_run at hp
  dsimp only at hp
  split at hp
  · simp at hp
    subst hp
    exact ⟨hsns0, hlen0⟩
  · exact louvain_loop_good shuffle g levelFuel g.nodes.toFinset hsh runFuel 0 _ _ _
      hsns0 hlen0
      (by
        intro p2 hp2
        simp at hp2
        subst hp2
        exact ⟨hsns0, hlen0⟩)
      p hp

/-- One-step unfolding of the custom-objective level loop. -/
theorem louvainObj_loop_succ (shuffle : ℕ → List (Finset ℕ) → List (Finset ℕ))
    (g : WGraph) (f : List (Finset ℕ) → ℚ) (levelFuel : ℕ) (minfac : ℚ)
    (fl k : ℕ) (sns : List (Finset ℕ)) (ps : List (List (Finset ℕ)))
    (ms : List ℚ) :
    LouvainCustomObj_run.loop true shuffle g f levelFuel minfac (fl + 1) k sns ps ms =
      (let s2 := shuffle k sns
      let lv := objLevel true minfac f g s2 levelFuel
      if lv.2.2 then
        let sns' := nextSns s2 lv.1
        LouvainCustomObj_run.loop true shuffle g f levelFuel minfac fl (k + 1) sns'
          (ps ++ [sns']) (ms ++ [ms.getLastD 0 - minfac * lv.2.1])
      else (ps, ms)) := rfl

/-- Every partition the custom-objective level loop records is a genuine
partition of the ground set with at least two parts. -/
theorem louvainObj_loop_good (shuffle : ℕ → List (Finset ℕ) → List (Finset ℕ))
    (g : WGraph) (f : List (Finset ℕ) → ℚ) (levelFuel : ℕ) (minfac : ℚ)
    (L : Finset ℕ) (hsh : ∀ k s, (shuffle k s).Perm s) :
    ∀ (fl k : ℕ) (sns : List (Finset ℕ)) (ps : List (List (Finset ℕ)))
      (ms : List ℚ),
      PartitionOf sns L → 2 ≤ sns.length →
      (∀ p ∈ ps, PartitionOf p L ∧ 2 ≤ p.length) →
      ∀ p ∈ (LouvainCustomObj_run.loop true shuffle g f levelFuel minfac
          fl k sns ps ms).1,
        PartitionOf p L ∧ 2 ≤ p.length := by
  intro fl
  induction fl with
  | zero => intro k sns ps ms _ _ hps p hp; exact hps p hp
  | succ fl ih =>
      intro k sns ps ms hP h2 hps p hp
      rw [louvainObj_loop_succ] at hp
      dsimp only at hp
      have hs2P : PartitionOf (shuffle k sns) L :=
        partition_perm (hsh k sns).symm hP
      have hs2len : 2 ≤ (shuffle k sns).length := by
        rw [(hsh k sns).length_eq]
        exact h2
      split at hp
      · have hcom := objLevel_comCard minfac f g (shuffle k sns) levelFuel hs2len
        obtain ⟨hnP, hnlen⟩ := nextSns_spec hs2P
          (objLevel true minfac f g (shuffle k sns) levelFuel).1
        refine ih (k + 1) _ _ _ hnP (by omega) ?_ p hp
        intro p2 hp2
        rcases List.mem_append.mp hp2 with hp2 | hp2
        · exact hps p2 hp2
        · simp at hp2
          subst hp2
          exact ⟨hnP, by omega⟩
      · exact hps p hp

/-- Every partition recorded by `LouvainCustomObj._run` is a genuine
partition of the node set with at least two communities. -/
theorem LouvainCustomObj_run_good (shuffle : ℕ → List (Finset ℕ) → List (Finset ℕ))
    (g : WGraph) (f : List (Finset ℕ) → ℚ) (minimize : Bool)
    (levelFuel runFuel : ℕ) (hnodup : g.nodes.Nodup)
    (h2 : 2 ≤ g.nodes.length) (hsh : ∀ k s, (shuffle k s).Perm s) :
    ∀ p ∈ (LouvainCustomObj_run true shuffle g f minimize levelFuel runFuel).1,
      PartitionOf p g.nodes.toFinset ∧ 2 ≤ p.length := by
  have hsns0 : PartitionOf (g.nodes.map (fun x => ({x} : Finset ℕ))) g.nodes.toFinset :=
    singletons_partition_list g.nodes hnodup
  have hlen0 : 2 ≤ (g.nodes.map (fun x => ({x} : Finset ℕ))).length := by
    rw [List.length_map]
    exact h2
  intro p hp
  unfold LouvainCustomObj_run at hp
  dsimp only at hp
  exact louvainObj_loop_good shuffle g f levelFuel _ g.nodes.toFinset hsh runFuel 0 _ _ _
    hsns0 hlen0
    (by
      intro p2 hp2
      simp at hp2
      subst hp2
      exact ⟨hsns0, hlen0⟩)
    p hp

/-- Two non-empty disjoint sides covering `V` form a two-part partition. -/
theorem pair_partition {a b V : Finset ℕ} (ha : a ≠ ∅) (hb : b ≠ ∅)
    (hd : Disjoint a b) (hu : a ∪ b = V) : PartitionOf [a, b] V := by
  refine ⟨?_, ?_, ?_⟩
  · intro s hs
    rcases List.mem_cons.mp hs with rfl | hs2
    · exact ha
    · rcases List.mem_cons.mp hs2 with rfl | hs3
      · exact hb
      · simp at hs3
  · exact List.pairwise_cons.mpr
      ⟨fun t ht => by
        rcases List.mem_cons.mp ht with rfl | ht2
        · exact hd
        · simp at ht2,
       List.pairwise_cons.mpr ⟨by simp, List.Pairwise.nil⟩⟩
  · show a ∪ (b ∪ ∅) = V
    rw [Finset.union_empty, hu]

/-- C1 (amended): the validity of the returned splits, strategy by strategy.
The exact mincut, the greedy sweep and each Karger run always return a
genuine partition of the leaf set (two parts for the bipartition methods, at
least two for Karger); the gradient walk does so for at least three leaves
when seeded with a permutation of the leaf list (on exactly two leaves it can
return an empty side — see the counterexample); and both hierarchical Louvain
strategies, run with the `at_least_two` guard on at least two nodes with a
permuting shuffle, only record partitions of the node set with at least two
communities. -/
theorem C1_thm :
    (∀ (V : Finset ℕ) (w : ℕ → ℕ → ℚ) (q : ℚ) (P : List (Finset ℕ)),
      stoer_wagner V w = .ok (q, P) → PartitionOf P V ∧ P.length = 2) ∧
    (∀ (pick : ℕ → ℕ → ℕ × ℕ) (runs : ℕ) (V : Finset ℕ)
        (cands : List (List (Finset ℕ))),
      Karger_generate pick runs V = .ok cands →
      ∀ P ∈ cands, PartitionOf P V ∧ 2 ≤ P.length) ∧
    (∀ (V : Finset ℕ) (f : List (Finset ℕ) → ℚ) (minimize : Bool)
        (choice : ℕ → ℕ) (q : ℚ) (P : List (Finset ℕ)),
      greedy_bipartition V f minimize choice = .ok (q, P) →
      PartitionOf P V ∧ P.length = 2) ∧
    (∀ (V : Finset ℕ) (f : List (Finset ℕ) → ℚ) (minimize : Bool)
        (order : List ℕ) (choice : ℕ → ℕ) (fuel : ℕ) (q : ℚ)
        (P : List (Finset ℕ)),
      3 ≤ V.card → order.Perm (ascList V) →
      gradient_walk_bipartition V f minimize order none choice fuel = .ok (q, P) →
      PartitionOf P V ∧ P.length = 2) ∧
    (∀ (shuffle : ℕ → List (Finset ℕ) → List (Finset ℕ)) (g : WGraph)
        (levelFuel runFuel : ℕ),
      g.nodes.Nodup → 2 ≤ g.nodes.length → (∀ k s, (shuffle k s).Perm s) →
      ∀ p ∈ (Louvain_run true shuffle g levelFuel runFuel).1,
        PartitionOf p g.nodes.toFinset ∧ 2 ≤ p.length) ∧
    (∀ (shuffle : ℕ → List (Finset ℕ) → List (Finset ℕ)) (g : WGraph)
        (f : List (Finset ℕ) → ℚ) (minimize : Bool) (levelFuel runFuel : ℕ),
      g.nodes.Nodup → 2 ≤ g.nodes.length → (∀ k s, (shuffle k s).Perm s) →
      ∀ p ∈ (LouvainCustomObj_run true shuffle g f minimize levelFuel runFuel).1,
        PartitionOf p g.nodes.toFinset ∧ 2 ≤ p.length) := by
  refine ⟨?_, ?_, ?_, ?_, ?_, ?_⟩
  · intro V w q P h
    unfold stoer_wagner at h
    split at h
    · exact absurd h (by simp)
    · next hge =>
        dsimp only at h
        split at h
        · next S heq =>
            injection h with h
            injection h with hq hP
            subst hP
            have hmem := foldl_best_mem
              (fun acc S =>
                match acc with
                | none => some S
                | some T =>
                    if cutWeight w S (V \ S) < cutWeight w T (V \ T) then some S
                    else acc)
              (by
                intro acc a
                match acc with
                | none => exact Or.inr rfl
                | some T =>
                    dsimp only
                    split
                    · exact Or.inr rfl
                    · exact Or.inl rfl)
              _ none S heq
            rcases hmem with hmem | hmem
            · exact absurd hmem (by simp)
            · obtain ⟨hmem1, hmem2⟩ := List.mem_filter.mp hmem
              obtain ⟨l, hl, rfl⟩ := List.mem_map.mp hmem1
              have hsub : l.toFinset ⊆ V := by
                intro z hz
                rw [List.mem_toFinset] at hz
                have hz2 : z ∈ ascList V :=
                  (List.mem_sublists.mp hl).mem hz
                exact (mem_ascList V z).mp hz2
              simp only [Bool.and_eq_true, decide_eq_true_eq] at hmem2
              exact ⟨sdiff_partition V l.toFinset hsub hmem2.1 hmem2.2, rfl⟩
        · exact absurd h (by simp)
  · intro pick runs V cands h P hP
    unfold Karger_generate at h
    split at h
    · exact absurd h (by simp)
    · next hge =>
        injection h with h
        subst h
        obtain ⟨r, -, rfl⟩ := List.mem_map.mp hP
        exact karger_run_spec (pick r) (by omega)
  · intro V f minimize choice q P h
    unfold greedy_bipartition at h
    split at h
    · exact absurd h (by simp)
    · next hge =>
        split at h
        · exact absurd h (by simp)
        · next k bo bbp heq =>
            rcases hget : bbp.get? (choice k % bbp.length) with _ | bp
            · rw [hget] at h
              simp at h
            · rcases hbo : bo with _ | q0
              · rw [hget, hbo] at h
                simp at h
              · rw [hget, hbo] at h
                dsimp only at h
                injection h with h
                injection h with hq hP
                subst hP
                have hbp : bp ∈ bbp := List.get?_mem hget
                subst hbo
                have hgood := greedyLoop_good f minimize choice V (V.card - 1)
                  ∅ V V 0 none [] k (some q0) bbp (by simp) (by simp)
                  (Finset.Subset.refl V) (by omega) (by simp) heq bp hbp
                exact ⟨pair_partition hgood.1 hgood.2.1 hgood.2.2.1 hgood.2.2.2, rfl⟩
  · intro V f minimize order choice fuel q P h3 hperm h
    unfold gradient_walk_bipartition at h
    rw [if_neg (by omega)] at h
    dsimp only at h
    injection h with h
    obtain ⟨hu, hd, h0, h1⟩ := gradient_sides order V hperm h3
    obtain ⟨a, b, hab, ha, hb, hdab, huab⟩ :=
      gradientLoop_good f minimize choice (ascList V) V fuel _ _ 0 _ _
        hu hd h0 h1 ⟨_, _, rfl, h0, h1, hd, hu⟩
    have hP : P = [a, b] := by
      rw [← hab, h]
    subst hP
    exact ⟨pair_partition ha hb hdab huab, rfl⟩
  · intro shuffle g levelFuel runFuel hnodup h2 hsh
    exact Louvain_run_good shuffle g levelFuel runFuel hnodup h2 hsh
  · intro shuffle g f minimize levelFuel runFuel hnodup h2 hsh
    exact LouvainCustomObj_run_good shuffle g f minimize levelFuel runFuel hnodup h2 hsh

/-- Counterexample for C1: through the dispatcher, the gradient walk on the
two-leaf set `{0, 1}` with a constant objective returns a "partition" whose
second part is empty — the initial distribution puts both leaves on side 0
and no move strictly improves a constant objective. -/
theorem C1_cex :
    partitionDispatch {0, 1} "gradient_walk" (fun _ => 0) true ⟨[0, 1], []⟩ 1
      ⟨fun _ _ => 0, fun _ => [0, 1], fun _ _ => (0, 0), fun _ _ s => s⟩ 1 0 1 =
    .ok (0, [{0, 1}, ∅]) := by
  decide

/-- The modified adjacency is symmetric. -/
theorem A_symm (g : WGraph) (x y : ℕ) : g.A x y = g.A y x := by
  unfold WGraph.A
  congr 1
  apply List.map_congr_left
  intro e _
  ring

/-- Aggregated weights are symmetric. -/
theorem SA_symm (g : WGraph) (S T : Finset ℕ) : g.SA S T = g.SA T S := by
  unfold WGraph.SA
  rw [Finset.sum_comm]
  congr 1
  ext x
  congr 1
  ext y
  exact A_symm g y x

/-- `nxModularity` as a sum of per-community terms. -/
theorem nxModularity_eq (g : WGraph) (sns : List (Finset ℕ)) (com : ℕ → ℕ) :
    nxModularity g sns com = (comIds com sns.length).sum (QTerm g sns com) := rfl

/-- Communities with an empty fiber contribute nothing. -/
theorem QTerm_empty {g : WGraph} {sns : List (Finset ℕ)} {com : ℕ → ℕ} {c : ℕ}
    (h : fiberF com sns.length c = ∅) : QTerm g sns com c = 0 := by
  unfold QTerm Lc Dc
  rw [h]
  simp

/-- For a position-bounded assignment, the modularity is the term sum over
all positions. -/
theorem nxModularity_range (g : WGraph) (sns : List (Finset ℕ)) (com : ℕ → ℕ)
    (hb : ∀ i, i < sns.length → com i < sns.length) :
    nxModularity g sns com = (Finset.range sns.length).sum (QTerm g sns com) := by
  rw [nxModularity_eq]
  apply Finset.sum_subset
  · intro c hc
    obtain ⟨y, hy, hyc⟩ := (mem_comIds com sns.length c).mp hc
    rw [Finset.mem_range]
    exact hyc ▸ hb y hy
  · intro c _ hc
    apply QTerm_empty
    rw [Finset.eq_empty_iff_forall_not_mem]
    intro i hi
    unfold fiberF at hi
    obtain ⟨hi1, hi2⟩ := Finset.mem_filter.mp hi
    rw [Finset.mem_range] at hi1
    exact hc ((mem_comIds com sns.length c).mpr ⟨i, hi1, hi2⟩)

/-- Subtracting two sums that differ only at two points. -/
theorem sum_two_diff {s : Finset ℕ} {A B : ℕ} (hA : A ∈ s) (hB : B ∈ s)
    (hAB : A ≠ B) (f f' : ℕ → ℚ)
    (hsame : ∀ c ∈ s, c ≠ A → c ≠ B → f' c = f c) :
    s.sum f' = s.sum f + ((f' A - f A) + (f' B - f B)) := by
  have hBe : B ∈ s.erase A := Finset.mem_erase.mpr ⟨Ne.symm hAB, hB⟩
  have hs : ∀ (gf : ℕ → ℚ), s.sum gf =
      gf A + (gf B + ((s.erase A).erase B).sum gf) := by
    intro gf
    rw [Finset.add_sum_erase _ gf hBe, Finset.add_sum_erase _ gf hA]
  rw [hs f, hs f']
  have hrest : ((s.erase A).erase B).sum f' = ((s.erase A).erase B).sum f := by
    apply Finset.sum_congr rfl
    intro c hc
    obtain ⟨hc1, hc2⟩ := Finset.mem_erase.mp hc
    obtain ⟨hc3, hc4⟩ := Finset.mem_erase.mp hc2
    exact hsame c hc4 hc3 hc1
  rw [hrest]
  ring

/-- Fibers of communities other than source and target are unchanged by a
move. -/
theorem fiber_update_other {com : ℕ → ℕ} {n x B c : ℕ} (hcA : c ≠ com x)
    (hcB : c ≠ B) : fiberF (Function.update com x B) n c = fiberF com n c := by
  unfold fiberF
  apply Finset.filter_congr
  intro i _
  by_cases hix : i = x
  · subst hix
    rw [Function.update_same]
    simp [Ne.symm hcB, Ne.symm hcA]
  · rw [Function.update_noteq hix]

/-- The source fiber of a move loses exactly the moved node. -/
theorem fiber_update_self {com : ℕ → ℕ} {n x B : ℕ} (hB : B ≠ com x) :
    fiberF (Function.update com x B) n (com x) = (fiberF com n (com x)).erase x := by
  unfold fiberF
  ext i
  rw [Finset.mem_erase, Finset.mem_filter, Finset.mem_filter]
  by_cases hix : i = x
  · subst hix
    rw [Function.update_same]
    simp [hB]
  · rw [Function.update_noteq hix]
    simp [hix]

/-- The target fiber of a move gains exactly the moved node. -/
theorem fiber_update_target {com : ℕ → ℕ} {n x B : ℕ} (hx : x < n)
    (hB : com x ≠ B) :
    fiberF (Function.update com x B) n B = insert x (fiberF com n B) := by
  unfold fiberF
  ext i
  rw [Finset.mem_insert, Finset.mem_filter, Finset.mem_filter]
  by_cases hix : i = x
  · subst hix
    rw [Function.update_same]
    simp [hx]
  · rw [Function.update_noteq hix]
    simp [hix]

/-- The punctured fiber as the filter used by `kxin`/`comTotM`. -/
theorem fiber_erase_filter (com : ℕ → ℕ) (n x c : ℕ) :
    (fiberF com n c).erase x =
      (Finset.range n).filter (fun y => y ≠ x ∧ com y = c) := by
  unfold fiberF
  ext i
  rw [Finset.mem_erase, Finset.mem_filter, Finset.mem_filter]
  tauto

/-- A fiber that cannot contain `x` equals the punctured filter. -/
theorem fiber_target_filter {com : ℕ → ℕ} {n x B : ℕ} (hB : com x ≠ B) :
    (Finset.range n).filter (fun y => y ≠ x ∧ com y = B) = fiberF com n B := by
  unfold fiberF
  ext i
  rw [Finset.mem_filter, Finset.mem_filter]
  constructor
  · rintro ⟨h1, -, h3⟩
    exact ⟨h1, h3⟩
  · rintro ⟨h1, h2⟩
    refine ⟨h1, ?_, h2⟩
    intro hc
    subst hc
    exact hB h2

/-- The moved node lies in its own fiber. -/
theorem mem_fiber_self {com : ℕ → ℕ} {n x : ℕ} (hx : x < n) :
    x ∈ fiberF com n (com x) := by
  unfold fiberF
  simp [hx]

/-- The moved node is not in the target fiber. -/
theorem not_mem_fiber_target {com : ℕ → ℕ} {n x B : ℕ} (hB : com x ≠ B) :
    x ∉ fiberF com n B := by
  unfold fiberF
  simp only [Finset.mem_filter]
  rintro ⟨-, hc⟩
  exact hB hc

/-- Degree sum of the source community after the move. -/
theorem Dc_update_self {g : WGraph} {sns : List (Finset ℕ)} {com : ℕ → ℕ}
    {x B : ℕ} (hx : x < sns.length) (hB : B ≠ com x) :
    Dc g sns (Function.update com x B) (com x) =
      Dc g sns com (com x) - g.Sdeg (snAt sns x) := by
  unfold Dc
  rw [fiber_update_self hB,
    Finset.sum_erase_eq_sub (mem_fiber_self hx)]

/-- Degree sum of the target community after the move. -/
theorem Dc_update_target {g : WGraph} {sns : List (Finset ℕ)} {com : ℕ → ℕ}
    {x B : ℕ} (hx : x < sns.length) (hB : com x ≠ B) :
    Dc g sns (Function.update com x B) B =
      Dc g sns com B + g.Sdeg (snAt sns x) := by
  unfold Dc
  rw [fiber_update_target hx hB,
    Finset.sum_insert (not_mem_fiber_target hB)]
  ring

/-- The degree sum of the punctured source community is `comTotM`. -/
theorem comTotM_self {g : WGraph} {sns : List (Finset ℕ)} {com : ℕ → ℕ}
    {x : ℕ} (hx : x < sns.length) :
    comTotM g sns com x (com x) = Dc g sns com (com x) - g.Sdeg (snAt sns x) := by
  unfold comTotM Dc
  rw [← fiber_erase_filter, Finset.sum_erase_eq_sub (mem_fiber_self hx)]

/-- The degree sum of the target community is `comTotM` for the target. -/
theorem comTotM_target {g : WGraph} {sns : List (Finset ℕ)} {com : ℕ → ℕ}
    {x B : ℕ} (hB : com x ≠ B) :
    comTotM g sns com x B = Dc g sns com B := by
  unfold comTotM Dc
  rw [fiber_target_filter hB]

/-- `kxin` to the source community, as a sum over the punctured fiber. -/
theorem kxin_self {g : WGraph} {sns : List (Finset ℕ)} {com : ℕ → ℕ} {x : ℕ} :
    kxin g sns com x (com x) =
      ((fiberF com sns.length (com x)).erase x).sum
        (fun j => g.SA (snAt sns x) (snAt sns j)) := by
  unfold kxin
  rw [fiber_erase_filter]

/-- `kxin` to the target community, as a sum over the whole target fiber. -/
theorem kxin_target {g : WGraph} {sns : List (Finset ℕ)} {com : ℕ → ℕ}
    {x B : ℕ} (hB : com x ≠ B) :
    kxin g sns com x B =
      (fiberF com sns.length B).sum (fun j => g.SA (snAt sns x) (snAt sns j)) := by
  unfold kxin
  rw [fiber_target_filter hB]

/-- Intra-community weight of the source community after the move. -/
theorem Lc_update_self {g : WGraph} {sns : List (Finset ℕ)} {com : ℕ → ℕ}
    {x B : ℕ} (hx : x < sns.length) (hB : B ≠ com x) :
    Lc g sns (Function.update com x B) (com x) =
      Lc g sns com (com x) - 2 * kxin g sns com x (com x) -
        g.SA (snAt sns x) (snAt sns x) := by
  have hxF : x ∈ fiberF com sns.length (com x) := mem_fiber_self hx
  unfold Lc
  rw [fiber_update_self hB]
  have hinner : ∀ i, ((fiberF com sns.length (com x)).erase x).sum
      (fun j => g.SA (snAt sns i) (snAt sns j)) =
      (fiberF com sns.length (com x)).sum
        (fun j => g.SA (snAt sns i) (snAt sns j)) - g.SA (snAt sns i) (snAt sns x) := by
    intro i
    rw [Finset.sum_erase_eq_sub hxF]
  rw [Finset.sum_congr rfl (fun i _ => hinner i), Finset.sum_sub_distrib,
    Finset.sum_erase_eq_sub hxF, Finset.sum_erase_eq_sub hxF]
  have hsymm : (fiberF com sns.length (com x)).sum
      (fun i => g.SA (snAt sns i) (snAt sns x)) =
      (fiberF com sns.length (com x)).sum
        (fun j => g.SA (snAt sns x) (snAt sns j)) := by
    apply Finset.sum_congr rfl
    intro i _
    exact SA_symm g _ _
  rw [hsymm]
  have hk : (fiberF com sns.length (com x)).sum
      (fun j => g.SA (snAt sns x) (snAt sns j)) =
      kxin g sns com x (com x) + g.SA (snAt sns x) (snAt sns x) := by
    rw [kxin_self, Finset.sum_erase_eq_sub hxF]
    ring
  rw [hk]
  ring

/-- Intra-community weight of the target community after the move. -/
theorem Lc_update_target {g : WGraph} {sns : List (Finset ℕ)} {com : ℕ → ℕ}
    {x B : ℕ} (hx : x < sns.length) (hB : com x ≠ B) :
    Lc g sns (Function.update com x B) B =
      Lc g sns com B + 2 * kxin g sns com x B +
        g.SA (snAt sns x) (snAt sns x) := by
  have hxG : x ∉ fiberF com sns.length B := not_mem_fiber_target hB
  unfold Lc
  rw [fiber_update_target hx hB, Finset.sum_insert hxG]
  have hinner : ∀ i, (insert x (fiberF com sns.length B)).sum
      (fun j => g.SA (snAt sns i) (snAt sns j)) =
      g.SA (snAt sns i) (snAt sns x) +
        (fiberF com sns.length B).sum (fun j => g.SA (snAt sns i) (snAt sns j)) := by
    intro i
    rw [Finset.sum_insert hxG]
  rw [hinner x, Finset.sum_congr rfl (fun i _ => hinner i), Finset.sum_add_distrib]
  have hsymm : (fiberF com sns.length B).sum
      (fun i => g.SA (snAt sns i) (snAt sns x)) =
      (fiberF com sns.length B).sum
        (fun j => g.SA (snAt sns x) (snAt sns j)) := by
    apply Finset.sum_congr rfl
    intro i _
    exact SA_symm g _ _
  rw [hsymm, ← kxin_target hB]
  ring

/-- Terms of untouched communities are unchanged by the move. -/
theorem QTerm_other {g : WGraph} {sns : List (Finset ℕ)} {com : ℕ → ℕ}
    {x B c : ℕ} (hcA : c ≠ com x) (hcB : c ≠ B) :
    QTerm g sns (Function.update com x B) c = QTerm g sns com c := by
  unfold QTerm Lc Dc
  rw [fiber_update_other hcA hcB]

/-- The change of modularity under a single move is exactly the difference
of the source's simplified gain expressions: `new_gain - cost_removal`. -/
theorem modQ_update {g : WGraph} {sns : List (Finset ℕ)} {com : ℕ → ℕ} {x B : ℕ}
    (hx : x < sns.length) (hBlt : B < sns.length) (hB : com x ≠ B)
    (hb : ∀ i, i < sns.length → com i < sns.length) (hm : g.m ≠ 0) :
    nxModularity g sns (Function.update com x B) =
      nxModularity g sns com +
        (modGain g sns com x B - modGain g sns com x (com x)) := by
  have hb' : ∀ i, i < sns.length → Function.update com x B i < sns.length := by
    intro i hi
    by_cases hix : i = x
    · subst hix
      rw [Function.update_same]
      exact hBlt
    · rw [Function.update_noteq hix]
      exact hb i hi
  rw [nxModularity_range g sns com hb, nxModularity_range g sns _ hb']
  have hAmem : com x ∈ Finset.range sns.length := Finset.mem_range.mpr (hb x hx)
  have hBmem : B ∈ Finset.range sns.length := Finset.mem_range.mpr hBlt
  rw [sum_two_diff hAmem hBmem (fun hc => hB hc) (QTerm g sns com)
    (QTerm g sns (Function.update com x B))
    (fun c _ hcA hcB => QTerm_other hcA hcB)]
  congr 1
  have hQA : QTerm g sns (Function.update com x B) (com x) =
      (Lc g sns com (com x) - 2 * kxin g sns com x (com x) -
        g.SA (snAt sns x) (snAt sns x)) / (2 * g.m) -
      ((Dc g sns com (com x) - g.Sdeg (snAt sns x)) / (2 * g.m)) ^ 2 := by
    unfold QTerm
    rw [Lc_update_self hx (fun hc => hB hc.symm), Dc_update_self hx (fun hc => hB hc.symm)]
  have hQB : QTerm g sns (Function.update com x B) B =
      (Lc g sns com B + 2 * kxin g sns com x B +
        g.SA (snAt sns x) (snAt sns x)) / (2 * g.m) -
      ((Dc g sns com B + g.Sdeg (snAt sns x)) / (2 * g.m)) ^ 2 := by
    unfold QTerm
    rw [Lc_update_target hx hB, Dc_update_target hx hB]
  rw [hQA, hQB]
  unfold QTerm modGain
  rw [comTotM_self hx, comTotM_target hB]
  field_simp
  ring

/-- The strictly-improving best-community fold keeps the start value or
returns an element with its gain. -/
theorem foldGain_spec (gain : ℕ → ℚ) :
    ∀ (l : List ℕ) (bc : ℚ × ℕ),
      bc.1 ≤ (l.foldl (fun bc C => if bc.1 < gain C then (gain C, C) else bc) bc).1 ∧
      ((l.foldl (fun bc C => if bc.1 < gain C then (gain C, C) else bc) bc) = bc ∨
        ((l.foldl (fun bc C => if bc.1 < gain C then (gain C, C) else bc) bc).1 =
            gain (l.foldl (fun bc C => if bc.1 < gain C then (gain C, C) else bc) bc).2 ∧
          (l.foldl (fun bc C => if bc.1 < gain C then (gain C, C) else bc) bc).2 ∈ l)) := by
  intro l
  induction l with
  | nil => intro bc; exact ⟨le_refl _, Or.inl rfl⟩
  | cons a rest ih =>
      intro bc
      rw [List.foldl_cons]
      by_cases hlt : bc.1 < gain a
      · rw [if_pos hlt]
        obtain ⟨hle, hor⟩ := ih (gain a, a)
        constructor
        · exact le_trans (le_of_lt hlt) hle
        · rcases hor with h | ⟨h1, h2⟩
          · rw [h]
            exact Or.inr ⟨rfl, List.mem_cons_self _ _⟩
          · exact Or.inr ⟨h1, List.mem_cons_of_mem _ h2⟩
      · rw [if_neg hlt]
        obtain ⟨hle, hor⟩ := ih bc
        refine ⟨hle, ?_⟩
        rcases hor with h | ⟨h1, h2⟩
        · exact Or.inl h
        · exact Or.inr ⟨h1, List.mem_cons_of_mem _ h2⟩

/-- One modularity node step never decreases the modularity and keeps the
assignment position-bounded. -/
theorem modStep_Q (g : WGraph) (sns : List (Finset ℕ))
    (st : (ℕ → ℕ) × ℚ × Bool) (x : ℕ) (hx : x < sns.length)
    (hb : ∀ i, i < sns.length → st.1 i < sns.length) (hm : g.m ≠ 0) :
    nxModularity g sns st.1 ≤ nxModularity g sns (modStep true g sns st x).1 ∧
      (∀ i, i < sns.length → (modStep true g sns st x).1 i < sns.length) := by
  obtain ⟨com, tg, mo⟩ := st
  simp only [modStep]
  by_cases hg : lastTwoGuard true com sns.length x = true
  · rw [if_pos hg]
    exact ⟨le_refl _, hb⟩
  · rw [if_neg hg]
    dsimp only
    set best := (nbrComs g sns com x).foldl
      (fun bc C =>
        let ng := modGain g sns com x C
        if bc.1 < ng then (ng, C) else bc)
      (modGain g sns com x (com x), com x) with hbestdef
    have hb2 : best = (nbrComs g sns com x).foldl
        (fun bc C => if bc.1 < modGain g sns com x C then (modGain g sns com x C, C) else bc)
        (modGain g sns com x (com x), com x) := by
      rw [hbestdef]
    obtain ⟨hle, hor⟩ := foldGain_spec (modGain g sns com x) (nbrComs g sns com x)
      (modGain g sns com x (com x), com x)
    rw [← hb2] at hle hor
    by_cases hbx : best.2 = com x
    · rw [hbx, Function.update_eq_self]
      exact ⟨le_refl _, hb⟩
    · have hinr : best.1 = modGain g sns com x best.2 ∧ best.2 ∈ nbrComs g sns com x := by
        rcases hor with h | h
        · exact absurd (congrArg Prod.snd h) hbx
        · exact h
      have hBlt : best.2 < sns.length := by
        obtain ⟨y, hy, hyc⟩ := (mem_comIds com sns.length best.2).mp
          (nbrComs_mem_comIds g sns com x best.2 hinr.2)
        exact hyc ▸ hb y hy
      have hQ := modQ_update hx hBlt (fun hc => hbx hc.symm) hb hm
      constructor
      · rw [hQ, ← hinr.1]
        have : modGain g sns com x (com x) ≤ best.1 := hle
        linarith
      · intro i hi
        by_cases hix : i = x
        · subst hix
          rw [Function.update_same]
          exact hBlt
        · rw [Function.update_noteq hix]
          exact hb i hi

/-- A full sweep never decreases the modularity. -/
theorem foldSteps_Q (g : WGraph) (sns : List (Finset ℕ)) (hm : g.m ≠ 0) :
    ∀ (l : List ℕ) (st : (ℕ → ℕ) × ℚ × Bool), (∀ x ∈ l, x < sns.length) →
      (∀ i, i < sns.length → st.1 i < sns.length) →
      nxModularity g sns st.1 ≤
          nxModularity g sns (l.foldl (modStep true g sns) st).1 ∧
        (∀ i, i < sns.length → (l.foldl (modStep true g sns) st).1 i < sns.length) := by
  intro l
  induction l with
  | nil => intro st _ hb; exact ⟨le_refl _, hb⟩
  | cons a rest ih =>
      intro st hmem hb
      obtain ⟨h1, h2⟩ := modStep_Q g sns st a (hmem a (List.mem_cons_self _ _)) hb hm
      obtain ⟨h3, h4⟩ := ih (modStep true g sns st a)
        (fun x hx => hmem x (List.mem_cons_of_mem _ hx)) h2
      exact ⟨le_trans h1 h3, h4⟩

/-- The level loop never decreases the modularity. -/
theorem modLevelLoop_Q (g : WGraph) (sns : List (Finset ℕ)) (hm : g.m ≠ 0) :
    ∀ (fuel : ℕ) (com : ℕ → ℕ) (tg : ℚ) (mo : Bool),
      (∀ i, i < sns.length → com i < sns.length) →
      nxModularity g sns com ≤
        nxModularity g sns (modLevelLoop true g sns fuel com tg mo).1 := by
  intro fuel
  induction fuel with
  | zero => intro com tg mo _; exact le_refl _
  | succ fuel ih =>
      intro com tg mo hb
      simp only [modLevelLoop]
      have hsweep := foldSteps_Q g sns hm (List.range sns.length) (com, tg, false)
        (fun x hx => List.mem_range.mp hx) hb
      split
      · exact le_trans hsweep.1 (ih _ _ _ hsweep.2)
      · exact hsweep.1

/-- The level computation never decreases the modularity relative to the
singleton assignment. -/
theorem modLevel_Q (g : WGraph) (sns : List (Finset ℕ)) (fuel : ℕ)
    (hm : g.m ≠ 0) :
    nxModularity g sns (fun i => i) ≤
      nxModularity g sns (modLevel true g sns fuel).1 := by
  unfold modLevel
  split
  · exact le_refl _
  · exact modLevelLoop_Q g sns hm fuel _ 0 false (fun i hi => hi)

/-- The ascending list of a finite set recovers the set. -/
theorem ascList_toFinset (L : Finset ℕ) : (ascList L).toFinset = L := by
  ext x
  rw [List.mem_toFinset, mem_ascList]

/-- A sum over positions of a list is the sum over the list. -/
theorem sum_range_snAt (h : Finset ℕ → ℚ) :
    ∀ (l : List (Finset ℕ)),
      (Finset.range l.length).sum (fun i => h (snAt l i)) = (l.map h).sum := by
  intro l
  induction l with
  | nil => simp
  | cons s t ih =>
      show (Finset.range (t.length + 1)).sum _ = _
      rw [Finset.sum_range_succ']
      simp only [List.map_cons, List.sum_cons]
      rw [← ih]
      have h0 : snAt (s :: t) 0 = s := rfl
      have hsucc : ∀ i, snAt (s :: t) (i + 1) = snAt t i := fun i => rfl
      rw [h0]
      rw [Finset.sum_congr rfl (fun i _ => by rw [hsucc i])]
      ring

/-- A finset sum written as a sum over its ascending element list. -/
theorem finset_sum_ascList (L : Finset ℕ) (f : ℕ → ℚ) :
    L.sum f = ((ascList L).map f).sum := by
  conv_lhs => rw [← ascList_toFinset L]
  exact List.sum_toFinset f (ascList_nodup L)

/-- The fiber positions of a partition carry pairwise disjoint parts. -/
theorem fiber_pairwiseDisjoint {sns : List (Finset ℕ)} {L : Finset ℕ}
    (hP : PartitionOf sns L) (com : ℕ → ℕ) (c : ℕ) :
    ((fiberF com sns.length c : Finset ℕ) : Set ℕ).PairwiseDisjoint (snAt sns) := by
  intro i hi j hj hij
  have hi' : i < sns.length := by
    have := Finset.mem_coe.mp hi
    unfold fiberF at this
    exact Finset.mem_range.mp (Finset.mem_filter.mp this).1
  have hj' : j < sns.length := by
    have := Finset.mem_coe.mp hj
    unfold fiberF at this
    exact Finset.mem_range.mp (Finset.mem_filter.mp this).1
  exact snAt_disjoint hP hi' hj' hij

/-- Degree of an aggregated community. -/
theorem Sdeg_partC {sns : List (Finset ℕ)} {L : Finset ℕ}
    (hP : PartitionOf sns L) (g : WGraph) (com : ℕ → ℕ) (c : ℕ) :
    g.Sdeg ((fiberF com sns.length c).biUnion (snAt sns)) =
      (fiberF com sns.length c).sum (fun i => g.Sdeg (snAt sns i)) := by
  unfold WGraph.Sdeg
  exact Finset.sum_biUnion (fiber_pairwiseDisjoint hP com c)

/-- Aggregated weight between two aggregated communities. -/
theorem SA_partC {sns : List (Finset ℕ)} {L : Finset ℕ}
    (hP : PartitionOf sns L) (g : WGraph) (com : ℕ → ℕ) (c d : ℕ) :
    g.SA ((fiberF com sns.length c).biUnion (snAt sns))
        ((fiberF com sns.length d).biUnion (snAt sns)) =
      (fiberF com sns.length c).sum (fun i =>
        (fiberF com sns.length d).sum (fun j =>
          g.SA (snAt sns i) (snAt sns j))) := by
  unfold WGraph.SA
  rw [Finset.sum_biUnion (fiber_pairwiseDisjoint hP com c)]
  apply Finset.sum_congr rfl
  intro i _
  have hx : ∀ x : ℕ,
      ((fiberF com sns.length d).biUnion (snAt sns)).sum (fun y => g.A x y) =
        (fiberF com sns.length d).sum (fun j => (snAt sns j).sum (fun y => g.A x y)) :=
    fun x => Finset.sum_biUnion (fiber_pairwiseDisjoint hP com d)
  rw [Finset.sum_congr rfl (fun x _ => hx x)]
  exact Finset.sum_comm

/-- Modularity is invariant under community aggregation: the next level's
singleton assignment scores exactly the current level's assignment. -/
theorem nxModularity_nextSns {g : WGraph} {sns : List (Finset ℕ)} {L : Finset ℕ}
    (hP : PartitionOf sns L) (com : ℕ → ℕ) :
    nxModularity g (nextSns sns com) (fun i => i) = nxModularity g sns com := by
  rw [nxModularity_eq, nxModularity_eq]
  have hcid : comIds (fun i => i) (nextSns sns com).length =
      Finset.range (nextSns sns com).length := by
    unfold comIds
    rw [show (fun i : ℕ => i) = (id : ℕ → ℕ) from rfl, Finset.image_id]
  rw [hcid]
  have hterm : ∀ c' ∈ Finset.range (nextSns sns com).length,
      QTerm g (nextSns sns com) (fun i => i) c' =
        g.SA (snAt (nextSns sns com) c') (snAt (nextSns sns com) c') / (2 * g.m) -
          (g.Sdeg (snAt (nextSns sns com) c') / (2 * g.m)) ^ 2 := by
    intro c' hc'
    have hfib : fiberF (fun i : ℕ => i) (nextSns sns com).length c' = {c'} := by
      unfold fiberF
      ext i
      rw [Finset.mem_filter, Finset.mem_singleton, Finset.mem_range]
      constructor
      · rintro ⟨-, rfl⟩; rfl
      · rintro rfl
        exact ⟨Finset.mem_range.mp hc', rfl⟩
    unfold QTerm Lc Dc
    rw [hfib, Finset.sum_singleton, Finset.sum_singleton, Finset.sum_singleton]
  rw [Finset.sum_congr rfl hterm, sum_range_snAt
    (fun S => g.SA S S / (2 * g.m) - (g.Sdeg S / (2 * g.m)) ^ 2) (nextSns sns com)]
  unfold nextSns
  rw [List.map_map, ← finset_sum_ascList]
  apply Finset.sum_congr rfl
  intro c _
  show g.SA _ _ / (2 * g.m) - (g.Sdeg _ / (2 * g.m)) ^ 2 = QTerm g sns com c
  rw [SA_partC hP, Sdeg_partC hP]
  rfl

/-- Modularity of the singleton assignment as a sum over the parts list. -/
theorem nxModularity_id (g : WGraph) (sns : List (Finset ℕ)) :
    nxModularity g sns (fun i => i) =
      (sns.map (fun S => g.SA S S / (2 * g.m) - (g.Sdeg S / (2 * g.m)) ^ 2)).sum := by
  rw [nxModularity_eq]
  have hcid : comIds (fun i => i) sns.length = Finset.range sns.length := by
    unfold comIds
    rw [show (fun i : ℕ => i) = (id : ℕ → ℕ) from rfl, Finset.image_id]
  rw [hcid]
  have hterm : ∀ c' ∈ Finset.range sns.length,
      QTerm g sns (fun i => i) c' =
        g.SA (snAt sns c') (snAt sns c') / (2 * g.m) -
          (g.Sdeg (snAt sns c') / (2 * g.m)) ^ 2 := by
    intro c' hc'
    have hfib : fiberF (fun i : ℕ => i) sns.length c' = {c'} := by
      unfold fiberF
      ext i
      rw [Finset.mem_filter, Finset.mem_singleton, Finset.mem_range]
      constructor
      · rintro ⟨-, rfl⟩; rfl
      · rintro rfl
        exact ⟨Finset.mem_range.mp hc', rfl⟩
    unfold QTerm Lc Dc
    rw [hfib, Finset.sum_singleton, Finset.sum_singleton, Finset.sum_singleton]
  rw [Finset.sum_congr rfl hterm]
  exact sum_range_snAt (fun S => g.SA S S / (2 * g.m) - (g.Sdeg S / (2 * g.m)) ^ 2) sns

/-- Modularity of the singleton assignment is invariant under permuting the
parts. -/
theorem nxModularity_id_perm {g : WGraph} {sns1 sns2 : List (Finset ℕ)}
    (hperm : sns1.Perm sns2) :
    nxModularity g sns1 (fun i => i) = nxModularity g sns2 (fun i => i) := by
  rw [nxModularity_id, nxModularity_id]
  exact List.Perm.sum_eq (hperm.map _)

/-- One custom-objective node step never decreases the accumulated gain. -/
theorem objStep_tg (minfac : ℚ) (f : List (Finset ℕ) → ℚ) (g : WGraph)
    (sns : List (Finset ℕ)) (st : (ℕ → ℕ) × ℚ × ℚ × Bool) (x : ℕ) :
    st.2.2.1 ≤ (objStep true minfac f g sns st x).2.2.1 := by
  obtain ⟨com, obj, tg, mo⟩ := st
  simp only [objStep]
  by_cases hg : lastTwoGuard true com sns.length x = true
  · rw [if_pos hg]
  · rw [if_neg hg]
    dsimp only
    set best := (nbrComs g sns com x).foldl
      (fun bc C =>
        let ng := minfac * (obj - f (objParts sns com x C))
        if bc.1 < ng then (ng, C) else bc)
      ((0 : ℚ), com x) with hbestdef
    have hb2 : best = (nbrComs g sns com x).foldl
        (fun bc C => if bc.1 < minfac * (obj - f (objParts sns com x C))
          then (minfac * (obj - f (objParts sns com x C)), C) else bc)
        ((0 : ℚ), com x) := by
      rw [hbestdef]
    have hge := (foldGain_spec (fun C => minfac * (obj - f (objParts sns com x C)))
      (nbrComs g sns com x) ((0 : ℚ), com x)).1
    rw [← hb2] at hge
    show tg ≤ tg + best.1
    have : (0 : ℚ) ≤ best.1 := hge
    linarith

/-- A full custom-objective sweep never decreases the accumulated gain. -/
theorem objSweep_tg (minfac : ℚ) (f : List (Finset ℕ) → ℚ) (g : WGraph)
    (sns : List (Finset ℕ)) :
    ∀ (l : List ℕ) (st : (ℕ → ℕ) × ℚ × ℚ × Bool),
      st.2.2.1 ≤ (l.foldl (objStep true minfac f g sns) st).2.2.1 := by
  intro l
  induction l with
  | nil => intro st; exact le_refl _
  | cons a rest ih =>
      intro st
      exact le_trans (objStep_tg minfac f g sns st a) (ih _)

/-- The custom-objective level loop never decreases the accumulated gain. -/
theorem objLevelLoop_tg (minfac : ℚ) (f : List (Finset ℕ) → ℚ) (g : WGraph)
    (sns : List (Finset ℕ)) :
    ∀ (fuel : ℕ) (com : ℕ → ℕ) (obj tg : ℚ) (mo : Bool),
      tg ≤ (objLevelLoop true minfac f g sns fuel com obj tg mo).2.1 := by
  intro fuel
  induction fuel with
  | zero => intro com obj tg mo; exact le_refl _
  | succ fuel ih =>
      intro com obj tg mo
      simp only [objLevelLoop]
      have hsweep := objSweep_tg minfac f g sns (List.range sns.length)
        (com, obj, tg, false)
      split
      · exact le_trans hsweep (ih _ _ _ _)
      · exact hsweep

/-- The total gain reported by a custom-objective level is non-negative. -/
theorem objLevel_gain_nonneg (minfac : ℚ) (f : List (Finset ℕ) → ℚ)
    (g : WGraph) (sns : List (Finset ℕ)) (fuel : ℕ) :
    0 ≤ (objLevel true minfac f g sns fuel).2.1 := by
  unfold objLevel
  split
  · exact le_refl _
  · exact objLevelLoop_tg minfac f g sns fuel _ _ 0 false

/-- The modularities recorded by the Louvain level loop form a
non-decreasing chain whose last entry is the best. -/
theorem louvain_loop_mono (shuffle : ℕ → List (Finset ℕ) → List (Finset ℕ))
    (g : WGraph) (levelFuel : ℕ) (L : Finset ℕ)
    (hsh : ∀ k s, (shuffle k s).Perm s) (hm : g.m ≠ 0) :
    ∀ (fl k : ℕ) (sns : List (Finset ℕ)) (ps : List (List (Finset ℕ)))
      (ms : List (Option ℚ)),
      PartitionOf sns L →
      ms.getLast? = some (some (nxModularity g sns (fun i => i))) →
      ms.Chain' (fun a b => ∀ q1 q2 : ℚ, a = some q1 → b = some q2 → q1 ≤ q2) →
      (∀ qv : ℚ, some qv ∈ ms → qv ≤ nxModularity g sns (fun i => i)) →
      (Louvain_run.loop true shuffle g levelFuel fl k sns ps ms).2.Chain'
          (fun a b => ∀ q1 q2 : ℚ, a = some q1 → b = some q2 → q1 ≤ q2) ∧
        ∀ (qv ql : ℚ),
          some qv ∈ (Louvain_run.loop true shuffle g levelFuel fl k sns ps ms).2 →
          (Louvain_run.loop true shuffle g levelFuel fl k sns ps ms).2.getLast? =
            some (some ql) →
          qv ≤ ql := by
  intro fl
  induction fl with
  | zero =>
      intro k sns ps ms hP hlast hchain hle
      rw [show Louvain_run.loop true shuffle g levelFuel 0 k sns ps ms = (ps, ms)
        from rfl]
      refine ⟨hchain, ?_⟩
      intro qv ql hqv hql
      rw [hlast] at hql
      injection hql with hql
      injection hql with hql
      rw [← hql]
      exact hle qv hqv
  | succ fl ih =>
      intro k sns ps ms hP hlast hchain hle
      rw [louvain_loop_succ]
      dsimp only
      have hs2P : PartitionOf (shuffle k sns) L :=
        partition_perm (hsh k sns).symm hP
      split
      · set lv := modLevel true g (shuffle k sns) levelFuel with hlvdef
        have hkey : nxModularity g sns (fun i => i) ≤
            nxModularity g (shuffle k sns) lv.1 := by
          rw [← nxModularity_id_perm (hsh k sns)]
          exact modLevel_Q g (shuffle k sns) levelFuel hm
        have hagg : nxModularity g (nextSns (shuffle k sns) lv.1) (fun i => i) =
            nxModularity g (shuffle k sns) lv.1 :=
          nxModularity_nextSns hs2P lv.1
        refine ih (k + 1) _ _ _ ((nextSns_spec hs2P lv.1).1) ?_ ?_ ?_
        · rw [List.getLast?_concat, hagg]
        · rw [List.chain'_append]
          refine ⟨hchain, List.chain'_singleton _, ?_⟩
          intro x hx y hy
          rw [Option.mem_def] at hx hy
          rw [hlast] at hx
          injection hx with hx
          simp only [List.head?_cons] at hy
          injection hy with hy
          intro q1 q2 h1 h2
          rw [← hx] at h1
          injection h1 with h1
          rw [← hy] at h2
          injection h2 with h2
          rw [← h1, ← h2]
          exact hkey
        · intro qv hqv
          rw [hagg]
          rcases List.mem_append.mp hqv with hqv | hqv
          · exact le_trans (hle qv hqv) hkey
          · simp only [List.mem_singleton] at hqv
            injection hqv with hqv
            rw [hqv]
      · refine ⟨hchain, ?_⟩
        intro qv ql hqv hql
        rw [hlast] at hql
        injection hql with hql
        injection hql with hql
        rw [← hql]
        exact hle qv hqv

/-- The objective values recorded by the custom-objective level loop never
worsen in the optimization direction, and the last entry is the best. -/
theorem louvainObj_loop_mono (shuffle : ℕ → List (Finset ℕ) → List (Finset ℕ))
    (g : WGraph) (f : List (Finset ℕ) → ℚ) (levelFuel : ℕ) (minfac : ℚ)
    (hmf : minfac * minfac = 1) :
    ∀ (fl k : ℕ) (sns : List (Finset ℕ)) (ps : List (List (Finset ℕ)))
      (ms : List ℚ) (lst : ℚ),
      ms.getLast? = some lst →
      ms.Chain' (fun a b => minfac * b ≤ minfac * a) →
      (∀ qv ∈ ms, minfac * lst ≤ minfac * qv) →
      (LouvainCustomObj_run.loop true shuffle g f levelFuel minfac
          fl k sns ps ms).2.Chain' (fun a b => minfac * b ≤ minfac * a) ∧
        ∀ (qv ql : ℚ),
          qv ∈ (LouvainCustomObj_run.loop true shuffle g f levelFuel minfac
            fl k sns ps ms).2 →
          (LouvainCustomObj_run.loop true shuffle g f levelFuel minfac
            fl k sns ps ms).2.getLast? = some ql →
          minfac * ql ≤ minfac * qv := by
  intro fl
  induction fl with
  | zero =>
      intro k sns ps ms lst hlast hchain hle
      rw [show LouvainCustomObj_run.loop true shuffle g f levelFuel minfac
        0 k sns ps ms = (ps, ms) from rfl]
      refine ⟨hchain, ?_⟩
      intro qv ql hqv hql
      rw [hlast] at hql
      injection hql with hql
      rw [← hql]
      exact hle qv hqv
  | succ fl ih =>
      intro k sns ps ms lst hlast hchain hle
      rw [louvainObj_loop_succ]
      dsimp only
      split
      · set lv := objLevel true minfac f g (shuffle k sns) levelFuel with hlvdef
        have hgain : 0 ≤ lv.2.1 :=
          objLevel_gain_nonneg minfac f g (shuffle k sns) levelFuel
        have hlastD : ms.getLastD 0 = lst := by
          rw [List.getLastD_eq_getLast?, hlast]
          rfl
        have hq : minfac * (ms.getLastD 0 - minfac * lv.2.1) =
            minfac * lst - lv.2.1 := by
          rw [hlastD]
          have h1 : minfac * (minfac * lv.2.1) = lv.2.1 := by
            rw [← mul_assoc, hmf, one_mul]
          rw [mul_sub, h1]
        have hstep : minfac * (ms.getLastD 0 - minfac * lv.2.1) ≤ minfac * lst := by
          rw [hq]
          linarith
        refine ih (k + 1) _ _ _ (ms.getLastD 0 - minfac * lv.2.1) ?_ ?_ ?_
        · rw [List.getLast?_concat]
        · rw [List.chain'_append]
          refine ⟨hchain, List.chain'_singleton _, ?_⟩
          intro x hx y hy
          rw [Option.mem_def] at hx hy
          rw [hlast] at hx
          injection hx with hx
          simp only [List.head?_cons] at hy
          injection hy with hy
          rw [← hx, ← hy]
          exact hstep
        · intro qv hqv
          rcases List.mem_append.mp hqv with hqv | hqv
          · exact le_trans hstep (hle qv hqv)
          · simp only [List.mem_singleton] at hqv
            rw [hqv]
      · rw [show (ps, ms).2 = ms from rfl]
        refine ⟨hchain, ?_⟩
        intro qv ql hqv hql
        rw [hlast] at hql
        injection hql with hql
        rw [← hql]
        exact hle qv hqv

/-- The modularities recorded by `Louvain._run` form a non-decreasing chain
and the final level's modularity is the best. -/
theorem Louvain_run_mono (shuffle : ℕ → List (Finset ℕ) → List (Finset ℕ))
    (g : WGraph) (levelFuel runFuel : ℕ) (hnodup : g.nodes.Nodup)
    (hsh : ∀ k s, (shuffle k s).Perm s) :
    (Louvain_run true shuffle g levelFuel runFuel).2.Chain'
        (fun a b => ∀ q1 q2 : ℚ, a = some q1 → b = some q2 → q1 ≤ q2) ∧
      ∀ (qv ql : ℚ), some qv ∈ (Louvain_run true shuffle g levelFuel runFuel).2 →
        (Louvain_run true shuffle g levelFuel runFuel).2.getLast? =
          some (some ql) →
        qv ≤ ql := by
  unfold Louvain_run
  dsimp only
  split
  · refine ⟨List.chain'_singleton _, ?_⟩
    intro qv ql hqv hql
    simp at hqv
  · next hm0 =>
      exact louvain_loop_mono shuffle g levelFuel g.nodes.toFinset hsh hm0
        runFuel 0 _ _ _
        (singletons_partition_list g.nodes hnodup)
        rfl
        (List.chain'_singleton _)
        (by
          intro qv hqv
          simp only [List.mem_singleton] at hqv
          injection hqv with hqv
          rw [hqv])

/-- The objective values recorded by `LouvainCustomObj._run` never worsen in
the optimization direction and the final value is the best recorded. -/
theorem LouvainCustomObj_run_mono (shuffle : ℕ → List (Finset ℕ) → List (Finset ℕ))
    (g : WGraph) (f : List (Finset ℕ) → ℚ) (minimize : Bool)
    (levelFuel runFuel : ℕ) :
    (LouvainCustomObj_run true shuffle g f minimize levelFuel runFuel).2.Chain'
        (fun a b => (if minimize then (1 : ℚ) else -1) * b ≤
          (if minimize then (1 : ℚ) else -1) * a) ∧
      ∀ (qv ql : ℚ),
        qv ∈ (LouvainCustomObj_run true shuffle g f minimize levelFuel runFuel).2 →
        (LouvainCustomObj_run true shuffle g f minimize levelFuel runFuel).2.getLast? =
          some ql →
        (if minimize then (1 : ℚ) else -1) * ql ≤
          (if minimize then (1 : ℚ) else -1) * qv := by
  have hmf : (if minimize then (1 : ℚ) else -1) * (if minimize then (1 : ℚ) else -1) = 1 := by
    split <;> norm_num
  unfold LouvainCustomObj_run
  dsimp only
  exact louvainObj_loop_mono shuffle g f levelFuel _ hmf runFuel 0 _ _ _
    (f (g.nodes.map (fun x => {x})))
    rfl
    (List.chain'_singleton _)
    (by
      intro qv hqv
      simp only [List.mem_singleton] at hqv
      rw [hqv])

/-- C3: for the hierarchical (Louvain-style) strategies, the recorded
objective score at level `i+1` is never worse than at level `i`, and the
final level's score is the best recorded: modularity never decreases across
the levels of `Louvain._run` (for a duplicate-free node list and a
permuting shuffle), and the custom objective of `LouvainCustomObj._run`
never worsens in the chosen optimization direction (non-increasing when
minimizing, non-decreasing when maximizing). -/
theorem C3_thm :
    (∀ (shuffle : ℕ → List (Finset ℕ) → List (Finset ℕ)) (g : WGraph)
        (levelFuel runFuel : ℕ),
      g.nodes.Nodup → (∀ k s, (shuffle k s).Perm s) →
      ((Louvain_run true shuffle g levelFuel runFuel).2.Chain'
          (fun a b => ∀ q1 q2 : ℚ, a = some q1 → b = some q2 → q1 ≤ q2) ∧
        ∀ (qv ql : ℚ),
          some qv ∈ (Louvain_run true shuffle g levelFuel runFuel).2 →
          (Louvain_run true shuffle g levelFuel runFuel).2.getLast? =
            some (some ql) →
          qv ≤ ql)) ∧
    (∀ (shuffle : ℕ → List (Finset ℕ) → List (Finset ℕ)) (g : WGraph)
        (f : List (Finset ℕ) → ℚ) (levelFuel runFuel : ℕ),
      ((LouvainCustomObj_run true shuffle g f true levelFuel runFuel).2.Chain'
          (fun a b => b ≤ a) ∧
        ∀ (qv ql : ℚ),
          qv ∈ (LouvainCustomObj_run true shuffle g f true levelFuel runFuel).2 →
          (LouvainCustomObj_run true shuffle g f true levelFuel runFuel).2.getLast? =
            some ql →
          ql ≤ qv)) ∧
    (∀ (shuffle : ℕ → List (Finset ℕ) → List (Finset ℕ)) (g : WGraph)
        (f : List (Finset ℕ) → ℚ) (levelFuel runFuel : ℕ),
      ((LouvainCustomObj_run true shuffle g f false levelFuel runFuel).2.Chain'
          (fun a b => a ≤ b) ∧
        ∀ (qv ql : ℚ),
          qv ∈ (LouvainCustomObj_run true shuffle g f false levelFuel runFuel).2 →
          (LouvainCustomObj_run true shuffle g f false levelFuel runFuel).2.getLast? =
            some ql →
          qv ≤ ql)) := by
  refine ⟨?_, ?_, ?_⟩
  · intro shuffle g levelFuel runFuel hnodup hsh
    exact Louvain_run_mono shuffle g levelFuel runFuel hnodup hsh
  · intro shuffle g f levelFuel runFuel
    obtain ⟨hchain, hbest⟩ :=
      LouvainCustomObj_run_mono shuffle g f true levelFuel runFuel
    constructor
    · exact hchain.imp (fun h => by simpa using h)
    · intro qv ql hqv hql
      have := hbest qv ql hqv hql
      simpa using this
  · intro shuffle g f levelFuel runFuel
    obtain ⟨hchain, hbest⟩ :=
      LouvainCustomObj_run_mono shuffle g f false levelFuel runFuel
    constructor
    · exact hchain.imp (fun h => by simpa using h)
    · intro qv ql hqv hql
      have := hbest qv ql hqv hql
      simpa using this

/-- C8, amended: the triple sets `R` and `F` are never mutated, for any
input; for three or more leaves the caller-supplied leaf set is unchanged by
`build_tree` (deeper recursive calls work on freshly constructed sets); but
for leaf sets of size 1 or 2 the trivial case pops the leaves off the
caller-supplied set, leaving it empty. -/
theorem C8_thm :
    (∀ (cfg : BuildConfig) (fuel : ℕ) (rr : Bool) (st : BuilderState),
      (build_tree cfg fuel rr st).2.R = st.R ∧
        (build_tree cfg fuel rr st).2.F = st.F) ∧
    (∀ (cfg : BuildConfig) (fuel : ℕ) (rr : Bool) (st : BuilderState),
      3 ≤ st.L.card → (build_tree cfg fuel rr st).2.L = st.L) ∧
    (∀ (cfg : BuildConfig) (fuel : ℕ) (rr : Bool) (st : BuilderState),
      st.L.card = 1 ∨ st.L.card = 2 → (build_tree cfg fuel rr st).2.L = ∅) := by
  refine ⟨fun cfg fuel rr st => ⟨rfl, rfl⟩, ?_, ?_⟩
  · intro cfg fuel rr st h
    show (if st.L.card ≤ 2 then (trivial_case st.L).2 else st.L) = st.L
    rw [if_neg (by omega)]
  · intro cfg fuel rr st h
    show (if st.L.card ≤ 2 then (trivial_case st.L).2 else st.L) = ∅
    rw [if_pos (by omega)]
    have hlen : (ascList st.L).length = st.L.card := ascList_length st.L
    unfold trivial_case
    rcases hl : ascList st.L with _ | ⟨a, t⟩
    · rw [hl] at hlen
      simp at hlen
      omega
    · rcases t with _ | ⟨b, t2⟩
      · rfl
      · rcases t2 with _ | ⟨c, t3⟩
        · rfl
        · rw [hl] at hlen
          simp at hlen
          omega

/-- C8, witness: a three-leaf build leaves the supplied state intact, and a
two-leaf build empties the caller's leaf set. -/
theorem C8_wit :
    (build_tree cfgNoInc 3 false ⟨[], {1, 2, 3}, [], 0⟩).2.L = ({1, 2, 3} : Finset ℕ) ∧
    (build_tree cfgNoInc 3 false ⟨[], {1, 2, 3}, [], 0⟩).2.R = [] ∧
    (build_tree cfgNoInc 5 false ⟨[], {1, 2}, [], 0⟩).2.L = ∅ :=
  ⟨C8_thm.2.1 cfgNoInc 3 false ⟨[], {1, 2, 3}, [], 0⟩ (by decide),
   (C8_thm.1 cfgNoInc 3 false ⟨[], {1, 2, 3}, [], 0⟩).1,
   C8_thm.2.2 cfgNoInc 5 false ⟨[], {1, 2}, [], 0⟩ (Or.inr (by decide))⟩
